import Mathlib

/-!
# zlog: filter expressions, log store

A shallow embedding of `filters.go` and of the store of `main.go`, and the
properties of the specification proved (or refuted) over it.

## Conventions of the embedding

* A Go `string` is a `GoString`, the list of its Unicode code points (the
  strings are taken to be valid UTF-8).  Every byte test of the source
  compares with an ASCII character, and in UTF-8 an ASCII byte occurs only as
  the encoding of that character, so scanning code points visits the same
  decisions as scanning bytes.  `len` is the byte length; positions that are
  only used for slicing are counted in code points.
* Scanning functions take the part of the input that is still to be read,
  `input[i:]`, in place of the pair `(input, i)`, and return the part that
  remains in place of the next index.
* `interface{}` is the sum type `Value`.  A Go `map[string]interface{}` is an
  association list read by `mapGet` and written by `mapSet`.
* `(T, error)` results are `Except String T`, the string being the message of
  the Go error.  An index that would be out of range is the error `goPanic`.
* What the source takes from the Go standard library and is not reproduced
  here (`float64` arithmetic, the `regexp` engine on patterns built at run
  time, `unicode.ToLower` outside ASCII) is the parameter `GoLib`.  The five
  constant patterns of the source are matchers written out by hand.
-/

namespace Zlog

/-! ## Strings -/

abbrev GoString := List Char

/-- Byte length of a Go string, `len(s)`. -/
def len (s : GoString) : Nat := (s.map Char.utf8Size).sum

/-- The predicate `unicode.IsSpace`. -/
def isSpace (c : Char) : Bool :=
  let n := c.toNat
  (9 ≤ n && n ≤ 13) || n == 32 || n == 0x85 || n == 0xA0 || n == 0x1680 ||
  (0x2000 ≤ n && n ≤ 0x200a) || n == 0x2028 || n == 0x2029 || n == 0x202f ||
  n == 0x205f || n == 0x3000

/-- Go `strings.TrimSpace`. -/
def TrimSpace (s : GoString) : GoString := (s.dropWhile isSpace).rdropWhile isSpace

/-- Go `strings.HasPrefix`. -/
def HasPrefix (s p : GoString) : Bool := p.isPrefixOf s

/-- Go `strings.HasSuffix`. -/
def HasSuffix (s p : GoString) : Bool := p.isSuffixOf s

/-- Go `strings.Contains`. -/
def Contains : GoString → GoString → Bool
  | [], sub => sub.isEmpty
  | c :: s, sub => sub.isPrefixOf (c :: s) || Contains s sub

/-- First element of `strings.Fields(s)` (the empty string when there is none). -/
def firstField (s : GoString) : GoString :=
  (s.dropWhile isSpace).takeWhile (fun c => !isSpace c)

/-- Byte-wise `<` of Go strings (code point order is UTF-8 byte order). -/
def strLt : GoString → GoString → Bool
  | _, [] => false
  | [], _ :: _ => true
  | a :: s, b :: t => a.toNat < b.toNat || (a.toNat == b.toNat && strLt s t)

/-- The message of a run-time panic; no path of the source reaches it. -/
def goPanic : String := "panic: runtime error: index out of range"

/-- The error of a loop model whose fuel ran out; never returned at the fuel
the callers pass. -/
def outOfFuel : String := "model: out of fuel"

/-! ## The Go standard library, as far as it is a parameter -/

/-- The library functions the source calls and this development does not
reproduce.  `F` is the type `float64`. -/
structure GoLib (F : Type) where
  /-- The function `unicode.ToLower` on code points above U+007F. -/
  unicodeToLower : Char → Char
  /-- The call `strconv.ParseFloat(s, 64)`; `none` when it returns an error. -/
  parseFloat : GoString → Option F
  /-- The conversion `float64(n)` of an `int`. -/
  floatOfInt : Int → F
  /-- The conversion `int(v)` of a `float64`. -/
  intOfFloat : F → Int
  /-- Comparison `==` of `float64`. -/
  feq : F → F → Bool
  /-- Comparison `<` of `float64`. -/
  flt : F → F → Bool
  /-- Comparison `<=` of `float64`. -/
  fle : F → F → Bool
  /-- How `fmt.Sprint` writes a `float64`. -/
  formatFloat : F → GoString
  /-- Whether `regexp.Compile(src)` succeeds. -/
  regexpCompiles : GoString → Bool
  /-- The call `MatchString(s)` on the expression compiled from `src`. -/
  regexpMatch : GoString → GoString → Bool

/-- Lower-casing of one code point: ASCII by the table, the rest by the
library. -/
def toLowerRune {F : Type} (lib : GoLib F) (c : Char) : Char :=
  if c.toNat < 128 then
    (if 65 ≤ c.toNat ∧ c.toNat ≤ 90 then Char.ofNat (c.toNat + 32) else c)
  else lib.unicodeToLower c

/-- Go `strings.ToLower`. -/
def ToLower {F : Type} (lib : GoLib F) (s : GoString) : GoString :=
  s.map (toLowerRune lib)

/-! ## Values -/

/-- The dynamic values behind `interface{}`: JSON values as `encoding/json`
decodes them, and `int`, which the path parser produces. -/
inductive Value (F : Type) where
  | null
  | bool (b : Bool)
  | num (f : F)
  | int (n : Int)
  | str (s : GoString)
  | list (xs : List (Value F))
  | map (kvs : List (GoString × Value F))

instance {F : Type} : Inhabited (Value F) := ⟨Value.null⟩

/-- The test `v == nil` on an interface value. -/
def Value.isNull {F : Type} : Value F → Bool
  | .null => true
  | _ => false

/-- Map read `v, ok := m[key]`. -/
def mapGet {F : Type} : List (GoString × Value F) → GoString → Option (Value F)
  | [], _ => none
  | (k, v) :: m, key => if k = key then some v else mapGet m key

/-- Map write `m[key] = value`. -/
def mapSet {F : Type} : List (GoString × Value F) → GoString → Value F →
    List (GoString × Value F)
  | [], key, value => [(key, value)]
  | (k, v) :: m, key, value =>
    if k = key then (k, value) :: m else (k, v) :: mapSet m key value

/-! ## Integers -/

/-- Saturation to the range of `int` (64 bits). -/
def clampInt64 (x : Int) : Int := max (-(2 ^ 63)) (min x (2 ^ 63 - 1))

/-- Two's-complement wrap to 64 bits, the arithmetic of `int64`. -/
def wrapInt64 (x : Int) : Int := (x + 2 ^ 63) % 2 ^ 64 - 2 ^ 63

def isDigit (c : Char) : Bool := 48 ≤ c.toNat && c.toNat ≤ 57

/-- Value of a run of decimal digits. -/
def digitsValue (s : GoString) : Nat := s.foldl (fun acc c => acc * 10 + (c.toNat - 48)) 0

/-- The value `strconv.Atoi` returns on a token matching `^-?\d+$`; out of
range it returns the nearest bound (with an error the caller drops). -/
def Atoi (token : GoString) : Int :=
  match token with
  | '-' :: r => clampInt64 (-(digitsValue r : Int))
  | _ => clampInt64 (digitsValue token)

/-- Decimal digits of a natural number, most significant first. -/
def natDigits : Nat → Nat → GoString
  | 0, _ => []
  | fuel + 1, n =>
    if n < 10 then [Char.ofNat (48 + n)]
    else natDigits fuel (n / 10) ++ [Char.ofNat (48 + n % 10)]

/-- Decimal rendering of an `int`, `strconv.Itoa`. -/
def Itoa (n : Int) : GoString :=
  if n < 0 then '-' :: natDigits (n.natAbs + 1) n.natAbs else natDigits (n.natAbs + 1) n.natAbs

/-! ## The constant patterns of `filters.go` -/

/-- The pattern `^[gimsuy]*$`. -/
def matchFlags (s : GoString) : Bool :=
  s.all (fun c => c == 'g' || c == 'i' || c == 'm' || c == 's' || c == 'u' || c == 'y')

/-- The pattern `^\d+$`. -/
def matchDigits (s : GoString) : Bool := !s.isEmpty && s.all isDigit

/-- The pattern `^-?\d+$`. -/
def matchInteger (s : GoString) : Bool :=
  match s with
  | '-' :: r => matchDigits r
  | _ => matchDigits s

/-- The pattern `^\d+(\.\d+)?$`. -/
def matchDecimal (s : GoString) : Bool :=
  !(s.takeWhile isDigit).isEmpty &&
  (match s.dropWhile isDigit with
   | [] => true
   | '.' :: frac => matchDigits frac
   | _ => false)

/-- The pattern `^-?\d+(\.\d+)?$`. -/
def matchNumber (s : GoString) : Bool :=
  match s with
  | '-' :: r => matchDecimal r
  | _ => matchDecimal s

/-- Word characters of `\b`: `[0-9A-Za-z_]`. -/
def isWordChar (c : Char) : Bool :=
  (48 ≤ c.toNat && c.toNat ≤ 57) || (65 ≤ c.toNat && c.toNat ≤ 90) ||
  (97 ≤ c.toNat && c.toNat ≤ 122) || c == '_'

/-- One alternative of the word pattern: the literal `word`, then `\b`. The
literal ends in a word character, so `\b` holds when the text ends there or
goes on with a character that is not a word character. -/
def matchWord (word : GoString) (s : GoString) : Option (GoString × GoString) :=
  if word.isPrefixOf s then
    match s.drop word.length with
    | [] => some (word, [])
    | c :: r => if isWordChar c then none else some (word, c :: r)
  else none

/-- The pattern `^(contains|startswith|endswith)\b(?i)`: the group captured and
the text after the match.  The flag group `(?i)` stands after the literals, so
it folds the case of nothing: the literals match in lower case only. -/
def matchWordOperator (s : GoString) : Option (GoString × GoString) :=
  (matchWord "contains".toList s).orElse fun _ =>
  (matchWord "startswith".toList s).orElse fun _ =>
  matchWord "endswith".toList s

/-- The pattern `^(==|!=|>=|<=|>|<|=)`: the group captured and the text after
the match, alternatives tried from the left. -/
def matchSymbolOperator (s : GoString) : Option (GoString × GoString) :=
  match s with
  | '=' :: '=' :: r => some ("==".toList, r)
  | '!' :: '=' :: r => some ("!=".toList, r)
  | '>' :: '=' :: r => some (">=".toList, r)
  | '<' :: '=' :: r => some ("<=".toList, r)
  | '>' :: r => some (">".toList, r)
  | '<' :: r => some ("<".toList, r)
  | '=' :: r => some ("=".toList, r)
  | _ => none

/-! ## `filters.go`: the parser -/

/-- The struct `filterExpression`.  A compiled `*regexp.Regexp` is
represented by the source text it was compiled from. -/
structure filterExpression (F : Type) where
  kind : String := ""
  path : List (Value F) := []
  operator : GoString := []
  value : Value F := Value.null
  regex : Option GoString := none

/-- The struct `pathParseResult`. -/
structure pathParseResult (F : Type) where
  path : List (Value F)
  rest : GoString

/-- The struct `operatorParseResult`. -/
structure operatorParseResult (F : Type) where
  operator : GoString
  value : Value F

def isIdentifierChar (char : Char) : Bool :=
  (65 ≤ char.toNat && char.toNat ≤ 90) ||
  (97 ≤ char.toNat && char.toNat ≤ 122) ||
  (48 ≤ char.toNat && char.toNat ≤ 57) ||
  char == '_' || char == '@' || char == '-'

def isOperatorStart (char : Char) : Bool :=
  char == '=' || char == '!' || char == '>' || char == '<'

def isWhitespace (char : Char) : Bool :=
  char == ' ' || char == '\t' || char == '\n' || char == '\r'

/-- The loop of `parseQuotedString`: `rest` is `input[i:]`, `value` the
builder; the result is the string and `input[next:]`. -/
def parseQuotedLoop (quote : Char) : GoString → GoString → Except String (GoString × GoString)
  | [], _ => .error "unterminated string"
  | [ch], value =>
    -- a backslash that ends the input has `next == 0` and is an ordinary byte
    if ch = quote then .ok (value, []) else .error "unterminated string"
  | ch :: next :: rest, value =>
    if ch = '\\' ∧ next ≠ Char.ofNat 0 then parseQuotedLoop quote rest (value ++ [next])
    else if ch = quote then .ok (value, next :: rest)
    else parseQuotedLoop quote (next :: rest) (value ++ [ch])

/-- The function `parseQuotedString(input, index)`, on `input[index:]`. -/
def parseQuotedString (s : GoString) : Except String (GoString × GoString) :=
  match s with
  | [] => .error goPanic
  | quote :: rest => parseQuotedLoop quote rest []

/-- The function `parseBracketSegment(input, index)`, on `input[index+1:]`. -/
def parseBracketSegment {F : Type} (s : GoString) : Except String (Value F × GoString) :=
  let s := s.dropWhile isWhitespace
  match s with
  | [] => .error "unclosed bracket in path"
  | c :: _ =>
    let parsed : Except String (Value F × GoString) :=
      if c = '"' ∨ c = '\'' then
        match parseQuotedString s with
        | .error err => .error err
        | .ok (parsed, next) => .ok (Value.str parsed, next)
      else
        let token := s.takeWhile (fun ch => !isWhitespace ch && ch != ']')
        let next := s.dropWhile (fun ch => !isWhitespace ch && ch != ']')
        if token = [] then .error "empty bracket segment"
        else if matchInteger token then .ok (Value.int (Atoi token), next)
        else .ok (Value.str token, next)
    match parsed with
    | .error err => .error err
    | .ok (value, next) =>
      match next.dropWhile isWhitespace with
      | ']' :: next => .ok (value, next)
      | _ => .error "unclosed bracket in path"

/-- The step `if i < len(input) && input[i] == ch { i++ }`, on `input[i:]`. -/
def skipChar (ch : Char) (s : GoString) : GoString :=
  match s with
  | [] => s
  | c :: r => if c = ch then r else s

/-- What the first half of one round of the loop of `parsePathExpression`
(the optional `.` and the `switch`) does. -/
inductive SegmentStep (F : Type) where
  /-- The loop is left (`break`), the input standing at `rest`. -/
  | stop (rest : GoString)
  /-- The function returns the error. -/
  | fail (err : String)
  /-- A segment was read, the input now standing at `next`. -/
  | segment (value : Value F) (next : GoString)

/-- Lines 164 to 194 of `parsePathExpression`, on `input[i:]` with
`i < len(input)`. -/
def parsePathSegment {F : Type} (s : GoString) : SegmentStep F :=
  let s := skipChar '.' s
  match s with
  | [] => .stop []
  | c :: r =>
    if c = '[' then
      match parseBracketSegment r with
      | .error err => .fail err
      | .ok (value, next) => .segment value next
    else if c = '\'' ∨ c = '"' then
      match parseQuotedString s with
      | .error err => .fail err
      | .ok (value, next) => .segment (Value.str value) next
    else if !isIdentifierChar c then .stop s
    else .segment (Value.str (s.takeWhile isIdentifierChar)) (s.dropWhile isIdentifierChar)

/-- What the second half of one round of the loop does. -/
inductive SegmentTail where
  /-- The loop goes on (`continue`) at `rest`. -/
  | again (rest : GoString)
  /-- The loop is left (`break`) at `rest`. -/
  | stop (rest : GoString)
  /-- The function returns the error. -/
  | fail (err : String)

/-- Lines 195 to 207 of `parsePathExpression`, on `input[i:]` after a
segment. -/
def afterPathSegment (s : GoString) : SegmentTail :=
  let s := skipChar '?' s
  match s with
  | [] => .stop []
  | c :: _ =>
    if c = '.' ∨ c = '[' then .again s
    else if isOperatorStart c ∨ isWhitespace c then .stop s
    else .fail "unexpected token in path"

/-- The loop of `parsePathExpression`, on `input[i:]` and the path so far. -/
def parsePathLoop {F : Type} : Nat → GoString → List (Value F) → Except String (pathParseResult F)
  | 0, _, _ => .error outOfFuel
  | fuel + 1, s, path =>
    if s = [] then .ok ⟨path, s⟩
    else
      match parsePathSegment s with
      | .stop rest => .ok ⟨path, rest⟩
      | .fail err => .error err
      | .segment value next =>
        match afterPathSegment next with
        | .again rest => parsePathLoop fuel rest (path ++ [value])
        | .stop rest => .ok ⟨path ++ [value], rest⟩
        | .fail err => .error err

def parsePathExpression {F : Type} (input : GoString) : Except String (pathParseResult F) :=
  match input with
  | '.' :: s => parsePathLoop (s.length + 1) s []
  | _ => .error "filters must start with a '.' path"

def coerceLiteral {F : Type} (lib : GoLib F) (value : GoString) : Value F :=
  let lower := ToLower lib value
  if lower = "true".toList then Value.bool true
  else if lower = "false".toList then Value.bool false
  else if lower = "null".toList then Value.null
  else if matchNumber value then
    match lib.parseFloat value with
    | some num => Value.num num
    | none => Value.str value
  else Value.str value

def parseValueLiteral {F : Type} (lib : GoLib F) (input : GoString) : Except String (Value F) :=
  if TrimSpace input = [] then .error "missing value"
  else
    let trimmed := TrimSpace input
    match trimmed with
    | [] => .error goPanic
    | c :: _ =>
      if c = '"' ∨ c = '\'' then
        match parseQuotedString trimmed with
        | .error err => .error err
        | .ok (value, next) =>
          if TrimSpace next ≠ [] then .error "unexpected token after quoted value"
          else .ok (Value.str value)
      else
        let token := firstField trimmed
        let rest := TrimSpace (trimmed.drop token.length)
        if rest ≠ [] then .error "unexpected token after value"
        else .ok (coerceLiteral lib token)

def parseOperatorAndValue {F : Type} (lib : GoLib F) (input : GoString) :
    Except String (operatorParseResult F) :=
  let trimmed := TrimSpace input
  if trimmed = [] then .error "missing operator"
  else
    match matchWordOperator trimmed with
    | some (word, after) =>
      let operator := ToLower lib word
      let rest := TrimSpace after
      match parseValueLiteral lib rest with
      | .error err => .error err
      | .ok value => .ok ⟨operator, value⟩
    | none =>
      match matchSymbolOperator trimmed with
      | none => .error "expected an operator"
      | some (symbol, after) =>
        let operator := if symbol = "=".toList then "==".toList else symbol
        let rest := TrimSpace after
        match parseValueLiteral lib rest with
        | .error err => .error err
        | .ok value => .ok ⟨operator, value⟩

def parseMessageContainsShorthand {F : Type} (expr : GoString) : Option (filterExpression F) :=
  let trimmed := TrimSpace expr
  if trimmed = [] ∨ HasPrefix trimmed ".".toList ∨ HasPrefix trimmed "/".toList then none
  else
    let value :=
      if len trimmed > 1 ∧
          ((trimmed.head? = some '"' ∧ trimmed.getLast? = some '"') ∨
           (trimmed.head? = some '\'' ∧ trimmed.getLast? = some '\'')) then
        (trimmed.drop 1).dropLast
      else trimmed
    some { kind := "compare", path := [Value.str "message".toList],
           operator := "contains".toList, value := Value.str value }

/-- The scan of `findLastUnescapedSlash` from index `n - 1` down to `0`. -/
def findLastUnescapedSlashFrom (input : GoString) : Nat → Int
  | 0 => -1
  | i + 1 =>
    if input[i]? = some '/' ∧ (i = 0 ∨ input[i - 1]? ≠ some '\\') then (i : Int)
    else findLastUnescapedSlashFrom input i

def findLastUnescapedSlash (input : GoString) : Int :=
  findLastUnescapedSlashFrom input input.length

def compileRegex {F : Type} (lib : GoLib F) (pattern flags : GoString) : Option GoString :=
  let p0 : GoString := []
  let p1 := if Contains flags "i".toList then p0 ++ "(?i)".toList else p0
  let p2 := if Contains flags "m".toList then p1 ++ "(?m)".toList else p1
  let p3 := if Contains flags "s".toList then p2 ++ "(?s)".toList else p2
  if lib.regexpCompiles (p3 ++ pattern) then some (p3 ++ pattern) else none

/-- Lines 102 to 111 of `parseRegexShorthand`: the pattern and the flags taken
from a trimmed string that starts with `/`. -/
def regexShorthandParts (trimmed : GoString) : GoString × GoString :=
  let pattern := trimmed.drop 1
  let flags : GoString := []
  let lastSlash := findLastUnescapedSlash trimmed
  if lastSlash > 0 then
    let tail := trimmed.drop (lastSlash.toNat + 1)
    if matchFlags tail then ((trimmed.take lastSlash.toNat).drop 1, tail)
    else (pattern, flags)
  else (pattern, flags)

def parseRegexShorthand {F : Type} (lib : GoLib F) (expr : GoString) :
    Except String (filterExpression F) :=
  let trimmed := TrimSpace expr
  if !HasPrefix trimmed "/".toList then .ok {}
  else if trimmed = "/".toList then .error "regex pattern is empty"
  else
    let (pattern, flags) := regexShorthandParts trimmed
    if pattern = [] then .error "regex pattern is empty"
    else
      match compileRegex lib pattern flags with
      | none => .error "invalid regex"
      | some compiled =>
        .ok { kind := "regex", path := [Value.str "message".toList], regex := some compiled }

def parseFilterExpression {F : Type} (lib : GoLib F) (input : GoString) :
    Except String (filterExpression F) :=
  let raw := TrimSpace input
  if raw = [] then .error "filter is empty"
  else if HasPrefix (ToLower lib raw) "select(".toList then .error "select syntax is not supported"
  else
    match parseMessageContainsShorthand raw with
    | some expr => .ok expr
    | none =>
      match parseRegexShorthand lib raw with
      | .error err => .error err
      | .ok expr =>
        if expr.kind ≠ "" then .ok expr
        else
          match parsePathExpression raw with
          | .error err => .error err
          | .ok pathResult =>
            let rest := TrimSpace pathResult.rest
            let rest := if HasPrefix rest "?".toList then TrimSpace (rest.drop 1) else rest
            if rest = [] then .ok { kind := "exists", path := pathResult.path }
            else
              match parseOperatorAndValue lib rest with
              | .error err => .error err
              | .ok opResult =>
                .ok { kind := "compare", path := pathResult.path,
                      operator := opResult.operator, value := opResult.value }

/-- The function `parseFilterExpressions`: the pair `(expressions, err)` it
returns.  The error `fmt.Errorf("%q: %w", trimmed, err)` is the pair of the
trimmed filter and the message it wraps. -/
def parseFilterExpressionsLoop {F : Type} (lib : GoLib F) :
    List GoString → List (filterExpression F) →
    List (filterExpression F) × Option (GoString × String)
  | [], expressions => (expressions, none)
  | raw :: filters, expressions =>
    let trimmed := TrimSpace raw
    if trimmed = [] then parseFilterExpressionsLoop lib filters expressions
    else
      match parseFilterExpression lib trimmed with
      | .error err => ([], some (trimmed, err))
      | .ok expr => parseFilterExpressionsLoop lib filters (expressions ++ [expr])

def parseFilterExpressions {F : Type} (lib : GoLib F) (filters : List GoString) :
    List (filterExpression F) × Option (GoString × String) :=
  if filters.length = 0 then ([], none)
  else parseFilterExpressionsLoop lib filters []

/-! ## `main.go`: entries and the store -/

/-- The struct `LogEntry`.  `Fields` is `none` for the nil map. -/
structure LogEntry (F : Type) where
  ID : Int := 0
  Time : GoString := []
  Ingested : GoString := []
  SentMs : Int := 0
  Level : GoString := []
  LevelNum : Int := 0
  Msg : GoString := []
  Raw : GoString := []
  Fields : Option (List (GoString × Value F)) := none
  ParseError : GoString := []

/-- The struct `LogStore`, without its mutex: every method holds the lock from
its first to its last statement, so the methods are atomic steps. -/
structure LogStore (F : Type) where
  entries : List (LogEntry F)
  max : Int
  nextID : Int

def NewLogStore {F : Type} (max : Int) : LogStore F :=
  let max := if max < 1 then 1 else max
  { entries := [], max := max, nextID := 0 }

/-- The method `Add`: the store after the call, and the entry returned. -/
def LogStore.Add {F : Type} (s : LogStore F) (entry : LogEntry F) : LogStore F × LogEntry F :=
  let nextID := wrapInt64 (s.nextID + 1)
  let entry := { entry with ID := nextID }
  let entries := s.entries ++ [entry]
  let entries :=
    if (entries.length : Int) > s.max then
      let start := (entries.length : Int) - s.max
      entries.drop start.toNat
    else entries
  ({ s with entries := entries, nextID := nextID }, entry)

/-- The method `List`: a copy of the entries. -/
def LogStore.List {F : Type} (s : LogStore F) : List (LogEntry F) := s.entries

def LogStore.Max {F : Type} (s : LogStore F) : Int := s.max

/-- A run of `Add` calls, one per entry of the list: the store at the end and
the entries the calls returned, in call order. -/
def addAll {F : Type} : LogStore F → List (LogEntry F) → LogStore F × List (LogEntry F)
  | s, [] => (s, [])
  | s, e :: es =>
    let r := s.Add e
    let rs := addAll r.1 es
    (rs.1, r.2 :: rs.2)

/-! ## `filters.go`: the evaluator -/

/-- Insertion of one rendered map entry by key order. -/
def insertEntry (e : GoString × GoString) : List (GoString × GoString) → List (GoString × GoString)
  | [] => [e]
  | x :: xs => if strLt x.1 e.1 then x :: insertEntry e xs else e :: x :: xs

/-- Rendered map entries sorted by key, as `fmt` prints a map. -/
def sortEntries : List (GoString × GoString) → List (GoString × GoString)
  | [] => []
  | e :: es => insertEntry e (sortEntries es)

/-- Strings joined by one space. -/
def joinSpace : List GoString → GoString
  | [] => []
  | [x] => x
  | x :: y :: xs => x ++ ' ' :: joinSpace (y :: xs)

mutual
/-- Go `fmt.Sprint` of one value (the verb `%v`). -/
def Sprint {F : Type} (lib : GoLib F) : Value F → GoString
  | .null => "<nil>".toList
  | .bool b => if b then "true".toList else "false".toList
  | .num f => lib.formatFloat f
  | .int n => Itoa n
  | .str s => s
  | .list xs => "[".toList ++ joinSpace (sprintList lib xs) ++ "]".toList
  | .map kvs =>
    "map[".toList ++
      joinSpace ((sortEntries (sprintEntries lib kvs)).map fun e => e.1 ++ ':' :: e.2) ++
      "]".toList
/-- Renderings of the elements of a slice. -/
def sprintList {F : Type} (lib : GoLib F) : List (Value F) → List GoString
  | [] => []
  | x :: xs => Sprint lib x :: sprintList lib xs
/-- Keys and rendered values of a map. -/
def sprintEntries {F : Type} (lib : GoLib F) :
    List (GoString × Value F) → List (GoString × GoString)
  | [] => []
  | (k, v) :: kvs => (k, Sprint lib v) :: sprintEntries lib kvs
end

def coerceNumber {F : Type} (lib : GoLib F) (value : Value F) : Option F :=
  match value with
  | .num v => some v
  | .int v => some (lib.floatOfInt v)
  | .str v =>
    let trimmed := TrimSpace v
    if trimmed ≠ [] ∧ matchNumber trimmed then lib.parseFloat trimmed else none
  | _ => none

def valuesEqual {F : Type} (lib : GoLib F) (actual expected : Value F) : Bool :=
  match coerceNumber lib actual, coerceNumber lib expected with
  | some leftNum, some rightNum => lib.feq leftNum rightNum
  | _, _ =>
    match actual, expected with
    | .bool leftBool, .bool rightBool => leftBool == rightBool
    | _, _ => Sprint lib actual == Sprint lib expected

def compareValues {F : Type} (lib : GoLib F) (actual : Value F) (operator : GoString)
    (expected : Value F) : Bool :=
  if operator = "contains".toList then
    match actual with
    | .list value => value.any fun item => valuesEqual lib item expected
    | _ => Contains (Sprint lib actual) (Sprint lib expected)
  else if operator = "startswith".toList then
    HasPrefix (Sprint lib actual) (Sprint lib expected)
  else if operator = "endswith".toList then
    HasSuffix (Sprint lib actual) (Sprint lib expected)
  else
    match coerceNumber lib actual, coerceNumber lib expected with
    | some leftNum, some rightNum =>
      if operator = "==".toList then lib.feq leftNum rightNum
      else if operator = "!=".toList then !lib.feq leftNum rightNum
      else if operator = ">".toList then lib.flt rightNum leftNum
      else if operator = "<".toList then lib.flt leftNum rightNum
      else if operator = ">=".toList then lib.fle rightNum leftNum
      else if operator = "<=".toList then lib.fle leftNum rightNum
      else false
    | _, _ =>
      let leftStr := Sprint lib actual
      let rightStr := Sprint lib expected
      if operator = "==".toList then leftStr == rightStr
      else if operator = "!=".toList then leftStr != rightStr
      else if operator = ">".toList then strLt rightStr leftStr
      else if operator = "<".toList then strLt leftStr rightStr
      else if operator = ">=".toList then !strLt leftStr rightStr
      else if operator = "<=".toList then !strLt rightStr leftStr
      else false

def getValueAtPath {F : Type} : Value F → List (Value F) → Value F
  | current, [] => current
  | .null, _ :: _ => .null
  | current, segment :: path =>
    match segment with
    | .int idx =>
      match current with
      | .list slice =>
        if idx < 0 ∨ idx ≥ slice.length then .null
        else getValueAtPath (slice.getD idx.toNat .null) path
      | _ => .null
    | .str key =>
      match current with
      | .map obj =>
        match mapGet obj key with
        | none => .null
        | some value => getValueAtPath value path
      | _ => .null
    | _ => .null

def assignIfMissing {F : Type} (target : List (GoString × Value F)) (key : GoString)
    (value : Value F) : List (GoString × Value F) :=
  match mapGet target key with
  | some _ => target
  | none => mapSet target key value

def getChannelValue {F : Type} (entry : LogEntry F) : Value F :=
  match entry.Fields with
  | none => .null
  | some fields =>
    match mapGet fields "channel".toList with
    | some value => value
    | none =>
      match mapGet fields "chanel".toList with
      | some value => value
      | none => .null

def buildFilterScope {F : Type} (entry : LogEntry F) : List (GoString × Value F) :=
  let scope : List (GoString × Value F) := []
  let scope := (entry.Fields.getD []).foldl (fun scope kv => mapSet scope kv.1 kv.2) scope
  let scope := assignIfMissing scope "level".toList (.str entry.Level)
  let scope := assignIfMissing scope "time".toList (.str entry.Time)
  let scope := assignIfMissing scope "ingested".toList (.str entry.Ingested)
  let scope := assignIfMissing scope "msg".toList (.str entry.Msg)
  let scope := assignIfMissing scope "message".toList (.str entry.Msg)
  let scope := assignIfMissing scope "raw".toList (.str entry.Raw)
  let scope := assignIfMissing scope "parseError".toList (.str entry.ParseError)
  let channelValue := getChannelValue entry
  if !channelValue.isNull then
    let scope := assignIfMissing scope "channel".toList channelValue
    assignIfMissing scope "chanel".toList channelValue
  else scope

/-- The function `evaluateFilterExpression`.  An expression of kind `regex`
without a compiled pattern is a nil dereference in Go and `false` here; the
parser builds none. -/
def evaluateFilterExpression {F : Type} (lib : GoLib F) (expression : filterExpression F)
    (scope : List (GoString × Value F)) : Bool :=
  if expression.kind = "regex" then
    let value := getValueAtPath (.map scope) expression.path
    if value.isNull then false
    else
      match expression.regex with
      | some src => lib.regexpMatch src (Sprint lib value)
      | none => false
  else
    let value := getValueAtPath (.map scope) expression.path
    if expression.kind = "exists" then !value.isNull
    else if value.isNull then false
    else compareValues lib value expression.operator expression.value

/-- The loop of `passesFilterExpressions`. -/
def passesFilterLoop {F : Type} (lib : GoLib F) (scope : List (GoString × Value F)) :
    List (filterExpression F) → Bool
  | [] => true
  | expr :: filters =>
    if !evaluateFilterExpression lib expr scope then false
    else passesFilterLoop lib scope filters

def passesFilterExpressions {F : Type} (lib : GoLib F) (entry : LogEntry F)
    (filters : List (filterExpression F)) : Bool :=
  if filters.length = 0 then true
  else
    let scope := buildFilterScope entry
    passesFilterLoop lib scope filters

/-! ## Definitions of the specification -/

/-- The entries of a run of `Add` calls as the specification numbers them:
the entry of call `i` (from 1) carries the ID `base + i`, its other fields
are those of the argument. -/
def assignIDs {F : Type} (base : Int) : List (LogEntry F) → List (LogEntry F)
  | [] => []
  | e :: es => { e with ID := base + 1 } :: assignIDs (base + 1) es

/-- A library instance on which the model can be run: `float64` is `Int`,
every pattern compiles and matches.  Its `parseFloat` accepts no string, so it
stands for Go only on inputs where no number is parsed from text, and is used
on such inputs only.  The theorems hold for every library; this one only
supplies concrete inputs. -/
def demoLib : GoLib Int :=
  { unicodeToLower := id
    parseFloat := fun _ => none
    floatOfInt := id
    intOfFloat := id
    feq := fun a b => a == b
    flt := fun a b => decide (a < b)
    fle := fun a b => decide (a ≤ b)
    formatFloat := Itoa
    regexpCompiles := fun _ => true
    regexpMatch := fun _ _ => true }

/-- An unescaped slash of `t` at index `k`: `t[k]` is `/` and `k = 0` or
`t[k-1]` is not a backslash. -/
def isUnescapedSlashAt (t : GoString) (k : Nat) : Bool :=
  decide (t[k]? = some '/' ∧ (k = 0 ∨ t[k - 1]? ≠ some '\\'))

/-- The terminating slash in the words of the specification: the last
unescaped `/`, after the opening one, whose trailing remainder is a flag
string. -/
def specTerminatingSlash (t : GoString) : Option Nat :=
  (List.range t.length).reverse.find? fun k =>
    decide (0 < k) && isUnescapedSlashAt t k && matchFlags (t.drop (k + 1))

/-- Pattern and flags in the words of the specification: split at the
terminating slash; when there is none, the whole remainder after the first
`/` is the pattern, with no flags. -/
def specRegexParts (t : GoString) : GoString × GoString :=
  match specTerminatingSlash t with
  | some k => ((t.take k).drop 1, t.drop (k + 1))
  | none => (t.drop 1, [])

/-- A key that is written `.key`: a non-empty run of identifier characters. -/
def isIdentifierKey (key : GoString) : Bool := !key.isEmpty && key.all isIdentifierChar

/-- The text of a key between single quotes: backslash and quote preceded by a
backslash. -/
def escapeKey : GoString → GoString
  | [] => []
  | c :: r => if c = '\\' ∨ c = '\'' then '\\' :: c :: escapeKey r else c :: escapeKey r

/-- How one path segment is written: an index `n` as `[n]`, an identifier key
as `.key`, any other key as `['key']`. -/
def renderSegment {F : Type} : Value F → GoString
  | .int n => '[' :: (Itoa n ++ [']'])
  | .str key =>
    if isIdentifierKey key then '.' :: key
    else '[' :: '\'' :: (escapeKey key ++ ['\'', ']'])
  | _ => []

/-- The segments of a path, written one after the other. -/
def renderSegments {F : Type} : List (Value F) → GoString
  | [] => []
  | v :: path => renderSegment v ++ renderSegments path

/-- The rendering of a path: its segments, behind a `.` when they do not start
with one. -/
def renderPath {F : Type} (path : List (Value F)) : GoString :=
  if (renderSegments path).head? = some '.' then renderSegments path
  else '.' :: renderSegments path

/-- The values that are path segments: string keys and indices in the range
of `int`. -/
def isPathSegment {F : Type} : Value F → Prop
  | .int n => -(2 ^ 63) ≤ n ∧ n < 2 ^ 63
  | .str _ => True
  | _ => False

/-- The inputs `input[i:]` at which the loop of `parsePathExpression` stands
right after reading a segment (line 195), in the order of the rounds. -/
def segmentEndsLoop (F : Type) : Nat → GoString → List GoString
  | 0, _ => []
  | fuel + 1, s =>
    if s = [] then []
    else
      match parsePathSegment (F := F) s with
      | .segment _ next =>
        next :: (match afterPathSegment next with
          | .again rest => segmentEndsLoop F fuel rest
          | _ => [])
      | _ => []

/-- The indices of a trimmed filter string that stand right after a path
segment. -/
def pathSegmentEnds (F : Type) (raw : GoString) : List Nat :=
  match raw with
  | '.' :: s => (segmentEndsLoop F (s.length + 1) s).map fun next => raw.length - next.length
  | _ => []

/-- The string `s` with the character `c` inserted at index `k`. -/
def insertAt (k : Nat) (c : Char) (s : GoString) : GoString := s.take k ++ c :: s.drop k

/-! ## `main.go`: severity levels -/

def levelFromNumber (num : Int) : GoString × Int :=
  if num ≥ 60 then ("fatal".toList, num)
  else if num ≥ 50 then ("error".toList, num)
  else if num ≥ 40 then ("warn".toList, num)
  else if num ≥ 30 then ("info".toList, num)
  else if num ≥ 20 then ("debug".toList, num)
  else if num ≥ 10 then ("trace".toList, num)
  else ("unknown".toList, num)

/-- The call `strconv.Atoi(s)` with its error: `none` unless `s` is an
optional sign followed by decimal digits, of a value in the range of `int`. -/
def AtoiChecked (s : GoString) : Option Int :=
  let (neg, digits) :=
    match s with
    | '-' :: r => (true, r)
    | '+' :: r => (false, r)
    | _ => (false, s)
  if matchDigits digits then
    let v : Int := if neg then -(digitsValue digits : Int) else digitsValue digits
    if -(2 ^ 63) ≤ v ∧ v < 2 ^ 63 then some v else none
  else none

def levelFromString {F : Type} (lib : GoLib F) (raw : GoString) : GoString × Int :=
  let s := ToLower lib (TrimSpace raw)
  if s = [] then ("unknown".toList, 0)
  else
    match AtoiChecked s with
    | some num => levelFromNumber num
    | none =>
      if s = "trace".toList then ("trace".toList, 10)
      else if s = "debug".toList ∨ s = "dbg".toList then ("debug".toList, 20)
      else if s = "info".toList ∨ s = "information".toList ∨ s = "notice".toList then
        ("info".toList, 30)
      else if s = "warn".toList ∨ s = "warning".toList then ("warn".toList, 40)
      else if s = "error".toList ∨ s = "err".toList then ("error".toList, 50)
      else if s = "fatal".toList ∨ s = "panic".toList ∨ s = "critical".toList ∨
          s = "crit".toList then ("fatal".toList, 60)
      else ("unknown".toList, 0)

def normalizeLevel {F : Type} (lib : GoLib F) (val : Value F) : GoString × Int :=
  match val with
  | .num v => levelFromNumber (lib.intOfFloat v)
  | .str v => levelFromString lib v
  | _ => ("unknown".toList, 0)

/-! ## A library instance with decimal numbers -/

/-- A decimal number `mant / 10 ^ scale`. -/
structure Dec where
  mant : Int
  scale : Nat
  deriving DecidableEq

/-- The order of two decimals, by cross multiplication. -/
def Dec.lt (a b : Dec) : Bool := decide (a.mant * 10 ^ b.scale < b.mant * 10 ^ a.scale)

def Dec.le (a b : Dec) : Bool := decide (a.mant * 10 ^ b.scale ≤ b.mant * 10 ^ a.scale)

def Dec.eq (a b : Dec) : Bool := decide (a.mant * 10 ^ b.scale = b.mant * 10 ^ a.scale)

/-- The decimal a literal of the pattern `^-?\d+(\.\d+)?$` denotes. -/
def decimalOfLiteral (s : GoString) : Dec :=
  let (neg, body) :=
    match s with
    | '-' :: r => (true, r)
    | _ => (false, s)
  let intPart := body.takeWhile isDigit
  let frac := (body.dropWhile isDigit).drop 1
  let m : Int := digitsValue (intPart ++ frac)
  { mant := if neg then -m else m, scale := frac.length }

/-- The magnitude `2^1024 - 2^970` from which a decimal rounds to an infinite
`float64`. -/
def float64Overflow : Nat := (2 ^ 256) ^ 4 - (2 ^ 256) ^ 3 * 2 ^ 202

/-- The call `strconv.ParseFloat(s, 64)` on the literals of the pattern
`^-?\d+(\.\d+)?$`, which are the strings the source passes to it in
`filters.go`: the exact decimal, and an error (`ErrRange`) when the magnitude
is `2^1024 - 2^970` or more, where a `float64` overflows. -/
def parseDecimal (s : GoString) : Option Dec :=
  if matchNumber s then
    let d := decimalOfLiteral s
    if d.mant.natAbs ≥ float64Overflow * 10 ^ d.scale then none else some d
  else none

/-- The integer part of a decimal: the fraction is dropped (truncation towards
zero). -/
def Dec.trunc (d : Dec) : Int := Int.tdiv d.mant (10 ^ d.scale)

/-- A library instance whose `float64` is an exact decimal: it agrees with
Go on the decimal literals that a `float64` holds exactly, and on overflow.
The conversion `int(v)` is the integer part when it is in the range of `int`
and the least `int` otherwise, which is what the conversion gives on amd64
(the language leaves the result out of range to the implementation).  A number
is written by its integer part, which is how Go writes the integers among
them.  Every pattern compiles and matches. -/
def decimalLib : GoLib Dec :=
  { unicodeToLower := id
    parseFloat := parseDecimal
    floatOfInt := fun n => { mant := n, scale := 0 }
    intOfFloat := fun d =>
      if -(2 ^ 63) ≤ d.trunc ∧ d.trunc < 2 ^ 63 then d.trunc else -(2 ^ 63)
    feq := Dec.eq
    flt := Dec.lt
    fle := Dec.le
    formatFloat := fun d => Itoa (Int.tdiv d.mant (10 ^ d.scale))
    regexpCompiles := fun _ => true
    regexpMatch := fun _ _ => true }

/-- A decimal literal beyond the range of `float64`: `1` followed by 309
zeros. -/
def hugeLiteral : GoString := '1' :: List.replicate 309 '0'

/-- The names the scope takes from the entry's metadata. -/
def scopeNames : List GoString :=
  ["level".toList, "time".toList, "ingested".toList, "msg".toList, "message".toList,
   "raw".toList, "parseError".toList, "channel".toList, "chanel".toList]

/-- The entry `parseLine` builds from the line `{"x":"1"}` (without its
arrival time). -/
def entryWithX : LogEntry Int :=
  { Raw := "\x7b\"x\":\"1\"\x7d".toList, Level := "unknown".toList, Msg := "\x7b\"x\":\"1\"\x7d".toList,
    Fields := some [("x".toList, Value.str "1".toList)] }

/-- An entry whose payload is the single member `count`. -/
def entryWithCount (v : Value Dec) : LogEntry Dec :=
  { Level := "unknown".toList, Msg := "m".toList, Raw := "m".toList,
    Fields := some [("count".toList, v)] }

/-- The messages of the errors made by `parseFilterExpression` and the
functions it calls (the `fmt.Errorf` calls of `filters.go`, lines 40 to 333). -/
def parserMessages : List String :=
  ["filter is empty", "select syntax is not supported", "regex pattern is empty",
   "invalid regex", "filters must start with a '.' path", "unexpected token in path",
   "unclosed bracket in path", "empty bracket segment", "unterminated string",
   "missing operator", "expected an operator", "missing value",
   "unexpected token after quoted value", "unexpected token after value"]

/-- The entry `parseLine` builds from the line
`{"msg":"hello","message":"bye"}` (without its arrival time): the message is
taken from `msg`. -/
def entryMsgMessage : LogEntry Int :=
  { Raw := "\x7b\"msg\":\"hello\",\"message\":\"bye\"\x7d".toList, Level := "unknown".toList,
    Msg := "hello".toList,
    Fields := some [("msg".toList, Value.str "hello".toList),
                    ("message".toList, Value.str "bye".toList)] }

/-- The integer a string denotes, in the words of the specification: an
optional sign and a non-empty run of decimal digits, of a value in the range
of `int`. -/
def denotesInt (s : GoString) (n : Int) : Prop :=
  ∃ d, matchDigits d = true ∧
    (((s = d ∨ s = '+' :: d) ∧ n = (digitsValue d : Int)) ∨
     (s = '-' :: d ∧ n = -(digitsValue d : Int))) ∧
    -(2 ^ 63) ≤ n ∧ n < 2 ^ 63

/-- The table of severity names of the specification: name, level and rank. -/
def levelTable : List (GoString × (GoString × Int)) :=
  [("trace".toList, ("trace".toList, 10)),
   ("debug".toList, ("debug".toList, 20)), ("dbg".toList, ("debug".toList, 20)),
   ("info".toList, ("info".toList, 30)), ("information".toList, ("info".toList, 30)),
   ("notice".toList, ("info".toList, 30)),
   ("warn".toList, ("warn".toList, 40)), ("warning".toList, ("warn".toList, 40)),
   ("error".toList, ("error".toList, 50)), ("err".toList, ("error".toList, 50)),
   ("fatal".toList, ("fatal".toList, 60)), ("panic".toList, ("fatal".toList, 60)),
   ("critical".toList, ("fatal".toList, 60)), ("crit".toList, ("fatal".toList, 60))]

/-! ## `main.go`: the normalizer -/

/-- The calls into `encoding/json` and `time`, which this development does not
reproduce.  `T` is the type `time.Time`. -/
structure GoRuntime (F T : Type) where
  /-- The call `json.Unmarshal([]byte(line), &payload)` on a nil
  `map[string]interface{}`: the text of the error, or the map (`none` is the
  nil map, which the JSON text `null` leaves). -/
  unmarshal : GoString → Except GoString (Option (List (GoString × Value F)))
  /-- The call `time.Parse(layout, value)`; `none` when it returns an error. -/
  timeParse : GoString → GoString → Option T
  /-- The call `time.Unix(sec, nsec)`. -/
  unix : Int → Int → T
  /-- The call `time.UnixMicro(usec)`. -/
  unixMicro : Int → T
  /-- The call `time.UnixMilli(msec)`. -/
  unixMilli : Int → T
  /-- The call `t.Local().Format(layout)`. -/
  localFormat : T → GoString → GoString

/-- The loop of `pickString` over the keys left. -/
def pickString {F : Type} (lib : GoLib F) (fields : Option (List (GoString × Value F))) :
    List GoString → GoString
  | [] => []
  | key :: keys =>
    match mapGet (fields.getD []) key with
    | none => pickString lib fields keys
    | some val =>
      if val.isNull then pickString lib fields keys
      else
        match val with
        | .str v => if TrimSpace v ≠ [] then v else pickString lib fields keys
        | _ => Sprint lib val

/-- The loop of `extractLevel` over the keys left. -/
def extractLevelLoop {F : Type} (lib : GoLib F) (fields : Option (List (GoString × Value F))) :
    List GoString → GoString × Int
  | [] => ([], 0)
  | key :: keys =>
    match mapGet (fields.getD []) key with
    | some val => normalizeLevel lib val
    | none => extractLevelLoop lib fields keys

def extractLevel {F : Type} (lib : GoLib F) (fields : Option (List (GoString × Value F))) :
    GoString × Int :=
  extractLevelLoop lib fields
    ["level".toList, "severity".toList, "lvl".toList, "level_name".toList]

/-- The function `timeFromNumber`; `none` is the result `false`.  The constants
`0`, `1e17`, `1e14`, `1e11` and `1e9` are the `float64` of these integers, and
`int64(num)` is the conversion `int(num)` of the library. -/
def timeFromNumber {F T : Type} (lib : GoLib F) (rt : GoRuntime F T) (num : F) : Option T :=
  if lib.fle num (lib.floatOfInt 0) then none
  else if lib.flt (lib.floatOfInt (10 ^ 17)) num then some (rt.unix 0 (lib.intOfFloat num))
  else if lib.flt (lib.floatOfInt (10 ^ 14)) num then some (rt.unixMicro (lib.intOfFloat num))
  else if lib.flt (lib.floatOfInt (10 ^ 11)) num then some (rt.unixMilli (lib.intOfFloat num))
  else if lib.flt (lib.floatOfInt (10 ^ 9)) num then some (rt.unix (lib.intOfFloat num) 0)
  else none

/-- The loop of `parseTimeString` over the layouts left. -/
def parseTimeLoop {F T : Type} (rt : GoRuntime F T) (raw : GoString) : List GoString → Option T
  | [] => none
  | layout :: candidates =>
    match rt.timeParse layout raw with
    | some t => some t
    | none => parseTimeLoop rt raw candidates

def parseTimeString {F T : Type} (rt : GoRuntime F T) (raw : GoString) : Option T :=
  parseTimeLoop rt raw
    ["2006-01-02T15:04:05.999999999Z07:00".toList, "2006-01-02T15:04:05Z07:00".toList,
     "2006-01-02 15:04:05.000".toList, "2006-01-02 15:04:05".toList]

def formatTime {F T : Type} (rt : GoRuntime F T) (t : T) : GoString :=
  rt.localFormat t "2006-01-02 15:04:05.000".toList

def formatTimeValue {F T : Type} (lib : GoLib F) (rt : GoRuntime F T) (val : Value F) :
    GoString :=
  match val with
  | .num v =>
    match timeFromNumber lib rt v with
    | some t => formatTime rt t
    | none => []
  | .str v =>
    match parseTimeString rt v with
    | some t => formatTime rt t
    | none =>
      match lib.parseFloat v with
      | some num =>
        match timeFromNumber lib rt num with
        | some t => formatTime rt t
        | none => v
      | none => v
  | _ => []

/-- The loop of `extractTime` over the keys left. -/
def extractTimeLoop {F T : Type} (lib : GoLib F) (rt : GoRuntime F T)
    (fields : Option (List (GoString × Value F))) : List GoString → GoString
  | [] => []
  | key :: keys =>
    match mapGet (fields.getD []) key with
    | some val =>
      let rendered := formatTimeValue lib rt val
      if rendered ≠ [] then rendered else extractTimeLoop lib rt fields keys
    | none => extractTimeLoop lib rt fields keys

def extractTime {F T : Type} (lib : GoLib F) (rt : GoRuntime F T)
    (fields : Option (List (GoString × Value F))) : GoString :=
  extractTimeLoop lib rt fields
    ["time".toList, "timestamp".toList, "ts".toList, "@timestamp".toList]

/-- The function `parseLine`; `now` is what `time.Now()` returns. -/
def parseLine {F T : Type} (lib : GoLib F) (rt : GoRuntime F T) (now : T) (line : GoString) :
    LogEntry F :=
  let entry : LogEntry F := { Raw := line, Ingested := formatTime rt now }
  match rt.unmarshal line with
  | .error err =>
    { entry with Level := "plain".toList, Msg := line, ParseError := err }
  | .ok payload =>
    let entry := { entry with Fields := payload }
    let entry := { entry with
      Msg := pickString lib payload
        ["msg".toList, "message".toList, "event".toList, "error".toList, "err".toList] }
    let level := extractLevel lib payload
    let entry := { entry with Level := level.1, LevelNum := level.2 }
    let entry := { entry with Time := extractTime lib rt payload }
    let entry := if entry.Msg = [] then { entry with Msg := line } else entry
    let entry := if entry.Level = [] then { entry with Level := "unknown".toList } else entry
    entry

/-- Go `strings.TrimRight(s, cutset)`. -/
def TrimRight (s cutset : GoString) : GoString := s.rdropWhile fun c => cutset.contains c

/-- The entry one round of the loop of `readStdin` builds from the text of the
scanner, before it is added to the store; `now` is what `time.Now()`
returns. -/
def readStdinEntry {F T : Type} (lib : GoLib F) (rt : GoRuntime F T) (now : T)
    (text : GoString) : LogEntry F :=
  let line := TrimRight text "\r".toList
  if TrimSpace line = [] then
    { Raw := line, Ingested := formatTime rt now, Level := "plain".toList, Msg := [] }
  else parseLine lib rt now line

/-- A runtime on which the model can be run.  Its decoder knows three lines,
on which it agrees with `encoding/json`, and rejects every other text; no
text parses as a time.  The theorems hold for every runtime; this one only
supplies concrete inputs. -/
def demoRuntime : GoRuntime Int Int :=
  { unmarshal := fun line =>
      if line = "\x7b\"msg\":\"hello\",\"message\":\"bye\"\x7d".toList then
        .ok (some [("msg".toList, Value.str "hello".toList),
                   ("message".toList, Value.str "bye".toList)])
      else if line = "\x7b\"msg\":\" \",\"event\":42,\"err\":\"e\"\x7d".toList then
        .ok (some [("msg".toList, Value.str " ".toList), ("event".toList, Value.num 42),
                   ("err".toList, Value.str "e".toList)])
      else if line = "server started".toList then
        .error "invalid character 's' looking for beginning of value".toList
      else .error "unexpected end of JSON input".toList
    timeParse := fun _ _ => none
    unix := fun sec nsec => sec * 10 ^ 9 + nsec
    unixMicro := fun usec => usec * 10 ^ 3
    unixMilli := fun msec => msec * 10 ^ 6
    localFormat := fun t _ => Itoa t }

/-! ## Definitions of the specification: the normalizer -/

/-- The message of a payload in the words of the specification: the value of
the first key, in the order `msg`, `message`, `event`, `error`, `err`, that
is present, not null and not a blank string; a string as it is, another value
as its string rendering.  It is `none` when no key qualifies. -/
def specMessage {F : Type} (lib : GoLib F) (payload : Option (List (GoString × Value F))) :
    Option GoString :=
  ["msg".toList, "message".toList, "event".toList, "error".toList, "err".toList].findSome?
    fun key =>
      match mapGet (payload.getD []) key with
      | none => none
      | some .null => none
      | some (.str s) => if TrimSpace s = [] then none else some s
      | some v => some (Sprint lib v)

/-- The names a level takes. -/
def levelNames : List GoString :=
  ["trace".toList, "debug".toList, "info".toList, "warn".toList, "error".toList,
   "fatal".toList, "unknown".toList, "plain".toList]

/-- The value of the first key of the list that the payload holds. -/
def firstPresent {F : Type} (payload : Option (List (GoString × Value F)))
    (keys : List GoString) : Option (Value F) :=
  keys.findSome? fun key => mapGet (payload.getD []) key

/-- The event time as the code computes it, said without the loop: the
rendering of the first key, in the order `time`, `timestamp`, `ts`,
`@timestamp`, that is present with a non-empty rendering; empty when there is
none. -/
def specEventTime {F T : Type} (lib : GoLib F) (rt : GoRuntime F T)
    (payload : Option (List (GoString × Value F))) : GoString :=
  ((["time".toList, "timestamp".toList, "ts".toList, "@timestamp".toList].findSome?
    fun key =>
      match mapGet (payload.getD []) key with
      | none => none
      | some v =>
        if formatTimeValue lib rt v = [] then none else some (formatTimeValue lib rt v)).getD [])

/-- The payload of the line `{"time":true,"ts":"x"}`. -/
def payloadTimeTs : Option (List (GoString × Value Int)) :=
  some [("time".toList, Value.bool true), ("ts".toList, Value.str "x".toList)]

/-! ## `main.go`: the hub -/

/-- A channel `chan string` with its buffer: the capacity, the messages
queued and whether the channel was closed.  A receiver takes messages from
the front of the buffer; the channels the program registers have capacity 64
(`serveEvents`). -/
structure Chan where
  cap : Nat
  buf : List GoString
  closed : Bool

/-- The struct `Hub` with the channels of its subscribers: `clients` holds the
keys of the map (channels are named by numbers, each key once), `chans` the
state of every channel.  What arrives on the channels `register`,
`unregister` and `broadcast` of the hub is the event of a round of `Run`. -/
structure Hub where
  clients : List Nat
  chans : Nat → Chan

/-- What a round of the loop of `Hub.Run` receives. -/
inductive HubEvent where
  | register (ch : Nat)
  | unregister (ch : Nat)
  | broadcast (msg : GoString)

/-- The statement `select { case ch <- msg: default: }`: the message is queued
when the buffer has room, and dropped otherwise, without waiting.  A send on a
closed channel panics. -/
def trySend (c : Chan) (msg : GoString) : Except String Chan :=
  if c.closed then .error "panic: send on closed channel"
  else if c.buf.length < c.cap then .ok { c with buf := c.buf ++ [msg] }
  else .ok c

/-- The loop `for ch := range h.clients` of the case `broadcast`, over the keys
left. -/
def broadcastLoop : List Nat → (Nat → Chan) → GoString → Except String (Nat → Chan)
  | [], chans, _ => .ok chans
  | ch :: clients, chans, msg =>
    match trySend (chans ch) msg with
    | .error err => .error err
    | .ok c => broadcastLoop clients (Function.update chans ch c) msg

/-- One round of the loop of `Hub.Run`, on the event the `select` receives. -/
def Hub.Run (h : Hub) : HubEvent → Except String Hub
  | .register ch =>
    .ok { h with clients := if ch ∈ h.clients then h.clients else ch :: h.clients }
  | .unregister ch =>
    if ch ∈ h.clients then
      if (h.chans ch).closed then .error "panic: close of closed channel"
      else
        .ok { clients := h.clients.erase ch,
              chans := Function.update h.chans ch { h.chans ch with closed := true } }
    else .ok h
  | .broadcast msg =>
    match broadcastLoop h.clients h.chans msg with
    | .error err => .error err
    | .ok chans => .ok { h with chans := chans }

/-- A hub with two subscribers, the buffer of channel 1 empty and the buffer of
channel 2 full, and a channel 3 that was unregistered and closed. -/
def demoHub : Hub :=
  { clients := [1, 2]
    chans := fun ch =>
      if ch = 1 then { cap := 1, buf := [], closed := false }
      else if ch = 2 then { cap := 1, buf := ["old".toList], closed := false }
      else { cap := 1, buf := [], closed := true } }

/-! ## The parser of `filters.go` over bytes

The parser indexes its input by bytes.  This part writes it over the bytes of
a Go string, valid UTF-8 or not, with every index and every slice checked as
Go checks them: out of range they return the error `goPanic`. -/

namespace Bytewise

/-- A Go string as the sequence of its bytes, each a number below 256.  The
bytes need not be valid UTF-8. -/
abbrev ByteString := List Nat

/-- The byte of an ASCII character. -/
def byte (c : Char) : Nat := c.toNat

/-- The bytes of an ASCII literal. -/
def ascii (s : String) : ByteString := s.toList.map byte

/-- The index expression `s[i]`, which panics out of range. -/
def byteAt (s : ByteString) (i : Int) : Except String Nat :=
  if 0 ≤ i ∧ i < s.length then .ok (s.getD i.toNat 0) else .error goPanic

/-- The slice expression `s[lo:hi]`, which panics unless `0 ≤ lo ≤ hi ≤ len(s)`. -/
def slice (s : ByteString) (lo hi : Int) : Except String ByteString :=
  if 0 ≤ lo ∧ lo ≤ hi ∧ hi ≤ s.length then .ok ((s.take hi.toNat).drop lo.toNat)
  else .error goPanic

/-- The index expression `m[i]` on the slice a pattern search returns. -/
def groupAt (m : List ByteString) (i : Nat) : Except String ByteString :=
  match m[i]? with
  | some g => .ok g
  | none => .error goPanic

/-- The condition `i < len(s) && p(s[i])`, the index read only in range. -/
def holdsAt (s : ByteString) (i : Nat) (p : Nat → Bool) : Except String Bool :=
  if (i : Int) < s.length then
    match byteAt s i with
    | .error err => .error err
    | .ok b => .ok (p b)
  else .ok false

/-! ### The library -/

/-- The library functions the parser calls and this part does not reproduce.
`F` is the type `float64`. -/
structure ByteLib (F : Type) where
  /-- The function `strings.ToLower`. -/
  ToLower : ByteString → ByteString
  /-- The call `strconv.ParseFloat(s, 64)`; `none` when it returns an error. -/
  parseFloat : ByteString → Option F
  /-- The number `strconv.Atoi` returns, its error dropped. -/
  Atoi : ByteString → Int
  /-- Whether `regexp.Compile(src)` succeeds. -/
  regexpCompiles : ByteString → Bool

/-- The UTF-8 encodings of the code points of `unicode.IsSpace`: U+0009 to
U+000D, U+0020, U+0085, U+00A0, U+1680, U+2000 to U+200A, U+2028, U+2029,
U+202F, U+205F and U+3000. -/
def spacePatterns : List ByteString :=
  [[0x09], [0x0A], [0x0B], [0x0C], [0x0D], [0x20], [0xC2, 0x85], [0xC2, 0xA0],
   [0xE1, 0x9A, 0x80],
   [0xE2, 0x80, 0x80], [0xE2, 0x80, 0x81], [0xE2, 0x80, 0x82], [0xE2, 0x80, 0x83],
   [0xE2, 0x80, 0x84], [0xE2, 0x80, 0x85], [0xE2, 0x80, 0x86], [0xE2, 0x80, 0x87],
   [0xE2, 0x80, 0x88], [0xE2, 0x80, 0x89], [0xE2, 0x80, 0x8A],
   [0xE2, 0x80, 0xA8], [0xE2, 0x80, 0xA9], [0xE2, 0x80, 0xAF], [0xE2, 0x81, 0x9F],
   [0xE3, 0x80, 0x80]]

/-- Width in bytes of the white-space code point `s` starts with, and 0 when it
starts with none.  Go decodes forwards; an invalid byte decodes to U+FFFD,
which is no white space. -/
def leadingSpace (s : ByteString) : Nat :=
  match spacePatterns.find? fun p => p.isPrefixOf s with
  | some p => p.length
  | none => 0

/-- Width in bytes of the white-space code point `s` ends with, and 0 when it
ends with none. -/
def trailingSpace (s : ByteString) : Nat :=
  match spacePatterns.find? fun p => p.isSuffixOf s with
  | some p => p.length
  | none => 0

/-- Leading white space dropped, one code point a round; the fuel is the
length of the string. -/
def trimLeftLoop : Nat → ByteString → ByteString
  | 0, s => s
  | fuel + 1, s =>
    if leadingSpace s = 0 then s else trimLeftLoop fuel (s.drop (leadingSpace s))

/-- Trailing white space dropped, one code point a round. -/
def trimRightLoop : Nat → ByteString → ByteString
  | 0, s => s
  | fuel + 1, s =>
    if trailingSpace s = 0 then s
    else trimRightLoop fuel (s.take (s.length - trailingSpace s))

/-- Go `strings.TrimSpace`. -/
def TrimSpace (s : ByteString) : ByteString :=
  let l := trimLeftLoop s.length s
  trimRightLoop l.length l

/-- Go `strings.HasPrefix`. -/
def HasPrefix (s p : ByteString) : Bool := p.isPrefixOf s

/-- Go `strings.Contains`. -/
def Contains : ByteString → ByteString → Bool
  | [], sub => sub.isEmpty
  | c :: s, sub => sub.isPrefixOf (c :: s) || Contains s sub

/-- The bytes of a field up to the next white space. -/
def fieldEnd : ByteString → ByteString
  | [] => []
  | b :: r => if leadingSpace (b :: r) ≠ 0 then [] else b :: fieldEnd r

/-- The expression `strings.Fields(s)[0]`: the first field of `s`; the index
panics when `s` has no field. -/
def firstField (s : ByteString) : Except String ByteString :=
  let t := trimLeftLoop s.length s
  if t = [] then .error goPanic else .ok (fieldEnd t)

/-! ### The constant patterns -/

def isDigitByte (b : Nat) : Bool := 48 ≤ b && b ≤ 57

/-- The pattern `^[gimsuy]*$`. -/
def matchFlags (s : ByteString) : Bool :=
  s.all fun b => b == byte 'g' || b == byte 'i' || b == byte 'm' || b == byte 's' ||
    b == byte 'u' || b == byte 'y'

/-- The pattern `^\d+$`. -/
def matchDigits (s : ByteString) : Bool := !s.isEmpty && s.all isDigitByte

/-- The pattern `^-?\d+$`. -/
def matchInteger (s : ByteString) : Bool :=
  if s.head? = some (byte '-') then matchDigits (s.drop 1) else matchDigits s

/-- The pattern `^\d+(\.\d+)?$`. -/
def matchDecimal (s : ByteString) : Bool :=
  !(s.takeWhile isDigitByte).isEmpty &&
  (if s.dropWhile isDigitByte = [] then true
   else if (s.dropWhile isDigitByte).head? = some (byte '.') then
     matchDigits ((s.dropWhile isDigitByte).drop 1)
   else false)

/-- The pattern `^-?\d+(\.\d+)?$`. -/
def matchNumber (s : ByteString) : Bool :=
  if s.head? = some (byte '-') then matchDecimal (s.drop 1) else matchDecimal s

/-- Word bytes of `\b`: `[0-9A-Za-z_]`. -/
def isWordByte (b : Nat) : Bool :=
  (48 ≤ b && b ≤ 57) || (65 ≤ b && b ≤ 90) || (97 ≤ b && b ≤ 122) || b == byte '_'

/-- One alternative of the word pattern: the literal, then `\b`, which holds
when the text ends there or goes on with a byte that is no word byte. -/
def matchWord (word s : ByteString) : Bool :=
  word.isPrefixOf s &&
    (match (s.drop word.length).head? with
     | none => true
     | some b => !isWordByte b)

/-- The call `FindStringSubmatch` of the pattern
`^(contains|startswith|endswith)\b(?i)`: empty without a match, else the match
and its group.  The flag group stands after the literals and folds the case of
nothing. -/
def findWordOperator (s : ByteString) : List ByteString :=
  match [ascii "contains", ascii "startswith", ascii "endswith"].find? fun w =>
      matchWord w s with
  | some w => [w, w]
  | none => []

/-- The call `FindStringSubmatch` of the pattern `^(==|!=|>=|<=|>|<|=)`,
the alternatives tried from the left. -/
def findSymbolOperator (s : ByteString) : List ByteString :=
  match [ascii "==", ascii "!=", ascii ">=", ascii "<=", ascii ">", ascii "<",
      ascii "="].find? fun w => w.isPrefixOf s with
  | some w => [w, w]
  | none => []

/-! ### Values and expressions -/

/-- The values the parser builds behind `interface{}`: nil, `bool`,
`float64`, `int` and `string`. -/
inductive Value (F : Type) where
  | null
  | bool (b : Bool)
  | num (f : F)
  | int (n : Int)
  | str (s : ByteString)

/-- The struct `filterExpression`; a compiled pattern is represented by its
source. -/
structure filterExpression (F : Type) where
  kind : String := ""
  path : List (Value F) := []
  operator : ByteString := []
  value : Value F := Value.null
  regex : Option ByteString := none

structure pathParseResult (F : Type) where
  path : List (Value F)
  rest : ByteString

structure operatorParseResult (F : Type) where
  operator : ByteString
  value : Value F

def isIdentifierChar (char : Nat) : Bool :=
  (byte 'A' ≤ char && char ≤ byte 'Z') ||
  (byte 'a' ≤ char && char ≤ byte 'z') ||
  (byte '0' ≤ char && char ≤ byte '9') ||
  char == byte '_' || char == byte '@' || char == byte '-'

def isOperatorStart (char : Nat) : Bool :=
  char == byte '=' || char == byte '!' || char == byte '>' || char == byte '<'

def isWhitespace (char : Nat) : Bool :=
  char == byte ' ' || char == byte '\t' || char == byte '\n' || char == byte '\r'

/-! ### The parser -/

/-- The loop of `parseQuotedString`, from index `i` with the builder `value`. -/
def parseQuotedLoop (input : ByteString) (quote : Nat) :
    Nat → Nat → ByteString → Except String (ByteString × Nat)
  | 0, _, _ => .error outOfFuel
  | fuel + 1, i, value =>
    if (i : Int) < input.length then
      match byteAt input i with
      | .error err => .error err
      | .ok ch =>
        -- `next` stays 0 unless `ch` is a backslash with a byte after it
        let following : Except String Nat :=
          if ch = byte '\\' ∧ (i : Int) + 1 < input.length then byteAt input ((i : Int) + 1)
          else .ok 0
        match following with
        | .error err => .error err
        | .ok next =>
          if ch = byte '\\' ∧ next ≠ 0 then
            parseQuotedLoop input quote fuel (i + 2) (value ++ [next])
          else if ch = quote then .ok (value, i + 1)
          else parseQuotedLoop input quote fuel (i + 1) (value ++ [ch])
    else .error "unterminated string"

/-- The function `parseQuotedString(input, index)`: the string and the index
after the closing quote. -/
def parseQuotedString (input : ByteString) (index : Nat) : Except String (ByteString × Nat) :=
  match byteAt input index with
  | .error err => .error err
  | .ok quote => parseQuotedLoop input quote (input.length + 1) (index + 1) []

/-- The loop `for i < len(input) && p(input[i]) { i++ }`: the index it ends
at. -/
def scanWhile (input : ByteString) (p : Nat → Bool) : Nat → Nat → Except String Nat
  | 0, _ => .error outOfFuel
  | fuel + 1, i =>
    match holdsAt input i p with
    | .error err => .error err
    | .ok true => scanWhile input p fuel (i + 1)
    | .ok false => .ok i

/-- The end of `parseBracketSegment`: white space, then the closing bracket. -/
def closeBracket {F : Type} (input : ByteString) (value : Value F) (i : Nat) :
    Except String (Value F × Nat) :=
  match scanWhile input isWhitespace (input.length + 1) i with
  | .error err => .error err
  | .ok i =>
    if (i : Int) ≥ input.length then .error "unclosed bracket in path"
    else
      match byteAt input i with
      | .error err => .error err
      | .ok c =>
        if c ≠ byte ']' then .error "unclosed bracket in path" else .ok (value, i + 1)

/-- The function `parseBracketSegment(input, index)`: the segment and the
index after the closing bracket. -/
def parseBracketSegment {F : Type} (lib : ByteLib F) (input : ByteString) (index : Nat) :
    Except String (Value F × Nat) :=
  match scanWhile input isWhitespace (input.length + 1) (index + 1) with
  | .error err => .error err
  | .ok i =>
    if (i : Int) ≥ input.length then .error "unclosed bracket in path"
    else
      match byteAt input i with
      | .error err => .error err
      | .ok c =>
        if c = byte '"' ∨ c = byte '\'' then
          match parseQuotedString input i with
          | .error err => .error err
          | .ok (parsed, next) => closeBracket input (Value.str parsed) next
        else
          match scanWhile input (fun ch => !isWhitespace ch && ch != byte ']')
              (input.length + 1) i with
          | .error err => .error err
          | .ok j =>
            match slice input i j with
            | .error err => .error err
            | .ok token =>
              if token = [] then .error "empty bracket segment"
              else if matchInteger token then closeBracket input (Value.int (lib.Atoi token)) j
              else closeBracket input (Value.str token) j

/-- What one round of the loop of `parsePathExpression` ends in. -/
inductive PathRound (F : Type) where
  /-- The loop goes on (`continue`) at index `i` with the path `path`. -/
  | again (i : Nat) (path : List (Value F))
  /-- The loop is left (`break`) at index `i` with the path `path`. -/
  | stop (i : Nat) (path : List (Value F))

/-- The statements after the `switch` in the loop of `parsePathExpression`,
at index `i` after a segment. -/
def afterSegment {F : Type} (input : ByteString) (i : Nat) (path : List (Value F)) :
    Except String (PathRound F) :=
  match holdsAt input i (fun b => b == byte '?') with
  | .error err => .error err
  | .ok marker =>
    let i := if marker then i + 1 else i
    if (i : Int) ≥ input.length then .ok (.stop i path)
    else
      match byteAt input i with
      | .error err => .error err
      | .ok c =>
        if c = byte '.' ∨ c = byte '[' then .ok (.again i path)
        else if isOperatorStart c ∨ isWhitespace c then .ok (.stop i path)
        else .error "unexpected token in path"

/-- One round of the loop of `parsePathExpression`, entered at index `i` with
`i < len(input)`. -/
def pathRound {F : Type} (lib : ByteLib F) (input : ByteString) (i : Nat)
    (path : List (Value F)) : Except String (PathRound F) :=
  match byteAt input i with
  | .error err => .error err
  | .ok dot =>
    let i := if dot = byte '.' then i + 1 else i
    if (i : Int) ≥ input.length then .ok (.stop i path)
    else
      match byteAt input i with
      | .error err => .error err
      | .ok c =>
        if c = byte '[' then
          match parseBracketSegment lib input i with
          | .error err => .error err
          | .ok (value, next) => afterSegment input next (path ++ [value])
        else if c = byte '\'' ∨ c = byte '"' then
          match parseQuotedString input i with
          | .error err => .error err
          | .ok (value, next) => afterSegment input next (path ++ [Value.str value])
        else if !isIdentifierChar c then .ok (.stop i path)
        else
          match scanWhile input isIdentifierChar (input.length + 1) i with
          | .error err => .error err
          | .ok j =>
            match slice input i j with
            | .error err => .error err
            | .ok key => afterSegment input j (path ++ [Value.str key])

/-- The loop of `parsePathExpression` from index `i`, and the `return` after
it. -/
def parsePathLoop {F : Type} (lib : ByteLib F) (input : ByteString) :
    Nat → Nat → List (Value F) → Except String (pathParseResult F)
  | 0, _, _ => .error outOfFuel
  | fuel + 1, i, path =>
    if (i : Int) < input.length then
      match pathRound lib input i path with
      | .error err => .error err
      | .ok (.again i path) => parsePathLoop lib input fuel i path
      | .ok (.stop i path) =>
        match slice input i input.length with
        | .error err => .error err
        | .ok rest => .ok ⟨path, rest⟩
    else
      match slice input i input.length with
      | .error err => .error err
      | .ok rest => .ok ⟨path, rest⟩

def parsePathExpression {F : Type} (lib : ByteLib F) (input : ByteString) :
    Except String (pathParseResult F) :=
  if !HasPrefix input (ascii ".") then .error "filters must start with a '.' path"
  else parsePathLoop lib input (input.length + 1) 1 []

def coerceLiteral {F : Type} (lib : ByteLib F) (value : ByteString) : Value F :=
  let lower := lib.ToLower value
  if lower = ascii "true" then Value.bool true
  else if lower = ascii "false" then Value.bool false
  else if lower = ascii "null" then Value.null
  else if matchNumber value then
    match lib.parseFloat value with
    | some num => Value.num num
    | none => Value.str value
  else Value.str value

def parseValueLiteral {F : Type} (lib : ByteLib F) (input : ByteString) :
    Except String (Value F) :=
  if TrimSpace input = [] then .error "missing value"
  else
    let trimmed := TrimSpace input
    match byteAt trimmed 0 with
    | .error err => .error err
    | .ok c =>
      if c = byte '"' ∨ c = byte '\'' then
        match parseQuotedString trimmed 0 with
        | .error err => .error err
        | .ok (value, next) =>
          match slice trimmed next trimmed.length with
          | .error err => .error err
          | .ok after =>
            if TrimSpace after ≠ [] then .error "unexpected token after quoted value"
            else .ok (Value.str value)
      else
        match firstField trimmed with
        | .error err => .error err
        | .ok token =>
          match slice trimmed token.length trimmed.length with
          | .error err => .error err
          | .ok after =>
            if TrimSpace after ≠ [] then .error "unexpected token after value"
            else .ok (coerceLiteral lib token)

/-- The part of `parseOperatorAndValue` after a pattern matched: the value
behind the match. -/
def parseOperand {F : Type} (lib : ByteLib F) (trimmed operator : ByteString)
    (found : List ByteString) : Except String (operatorParseResult F) :=
  match groupAt found 0 with
  | .error err => .error err
  | .ok whole =>
    match slice trimmed whole.length trimmed.length with
    | .error err => .error err
    | .ok after =>
      match parseValueLiteral lib (TrimSpace after) with
      | .error err => .error err
      | .ok value => .ok ⟨operator, value⟩

def parseOperatorAndValue {F : Type} (lib : ByteLib F) (input : ByteString) :
    Except String (operatorParseResult F) :=
  let trimmed := TrimSpace input
  if trimmed = [] then .error "missing operator"
  else
    let wordMatch := findWordOperator trimmed
    if wordMatch.length > 0 then
      match groupAt wordMatch 1 with
      | .error err => .error err
      | .ok word => parseOperand lib trimmed (lib.ToLower word) wordMatch
    else
      let symbolMatch := findSymbolOperator trimmed
      if symbolMatch.length = 0 then .error "expected an operator"
      else
        match groupAt symbolMatch 1 with
        | .error err => .error err
        | .ok symbol =>
          let operator := if symbol = ascii "=" then ascii "==" else symbol
          parseOperand lib trimmed operator symbolMatch

/-- The condition `value[0] == q && value[len(value)-1] == q`, the second
index read only when the first test holds. -/
def quotedBy (value : ByteString) (q : Nat) : Except String Bool :=
  match byteAt value 0 with
  | .error err => .error err
  | .ok first =>
    if first = q then
      match byteAt value ((value.length : Int) - 1) with
      | .error err => .error err
      | .ok last => .ok (decide (last = q))
    else .ok false

/-- The function `parseMessageContainsShorthand`; `none` is the result
`false`. -/
def parseMessageContainsShorthand {F : Type} (expr : ByteString) :
    Except String (Option (filterExpression F)) :=
  let trimmed := TrimSpace expr
  if trimmed = [] ∨ HasPrefix trimmed (ascii ".") ∨ HasPrefix trimmed (ascii "/") then .ok none
  else
    let shorthand (value : ByteString) : Option (filterExpression F) :=
      some { kind := "compare", path := [Value.str (ascii "message")],
             operator := ascii "contains", value := Value.str value }
    if trimmed.length > 1 then
      match quotedBy trimmed (byte '"') with
      | .error err => .error err
      | .ok true =>
        match slice trimmed 1 ((trimmed.length : Int) - 1) with
        | .error err => .error err
        | .ok value => .ok (shorthand value)
      | .ok false =>
        match quotedBy trimmed (byte '\'') with
        | .error err => .error err
        | .ok true =>
          match slice trimmed 1 ((trimmed.length : Int) - 1) with
          | .error err => .error err
          | .ok value => .ok (shorthand value)
        | .ok false => .ok (shorthand trimmed)
    else .ok (shorthand trimmed)

/-- The loop of `findLastUnescapedSlash` from index `n - 1` down to `0`. -/
def findLastUnescapedSlashFrom (input : ByteString) : Nat → Except String Int
  | 0 => .ok (-1)
  | i + 1 =>
    match byteAt input i with
    | .error err => .error err
    | .ok c =>
      if c = byte '/' then
        if i = 0 then .ok (i : Int)
        else
          match byteAt input ((i : Int) - 1) with
          | .error err => .error err
          | .ok before =>
            if before ≠ byte '\\' then .ok (i : Int)
            else findLastUnescapedSlashFrom input i
      else findLastUnescapedSlashFrom input i

def findLastUnescapedSlash (input : ByteString) : Except String Int :=
  findLastUnescapedSlashFrom input input.length

def compileRegex {F : Type} (lib : ByteLib F) (pattern flags : ByteString) :
    Option ByteString :=
  let p0 : ByteString := []
  let p1 := if Contains flags (ascii "i") then p0 ++ ascii "(?i)" else p0
  let p2 := if Contains flags (ascii "m") then p1 ++ ascii "(?m)" else p1
  let p3 := if Contains flags (ascii "s") then p2 ++ ascii "(?s)" else p2
  if lib.regexpCompiles (p3 ++ pattern) then some (p3 ++ pattern) else none

/-- The end of `parseRegexShorthand`, from the pattern and the flags. -/
def buildRegex {F : Type} (lib : ByteLib F) (pattern flags : ByteString) :
    Except String (filterExpression F) :=
  if pattern = [] then .error "regex pattern is empty"
  else
    match compileRegex lib pattern flags with
    | none => .error "invalid regex"
    | some compiled =>
      .ok { kind := "regex", path := [Value.str (ascii "message")], regex := some compiled }

def parseRegexShorthand {F : Type} (lib : ByteLib F) (expr : ByteString) :
    Except String (filterExpression F) :=
  let trimmed := TrimSpace expr
  if !HasPrefix trimmed (ascii "/") then .ok {}
  else if trimmed = ascii "/" then .error "regex pattern is empty"
  else
    match slice trimmed 1 trimmed.length with
    | .error err => .error err
    | .ok pattern =>
      match findLastUnescapedSlash trimmed with
      | .error err => .error err
      | .ok lastSlash =>
        if lastSlash > 0 then
          match slice trimmed (lastSlash + 1) trimmed.length with
          | .error err => .error err
          | .ok tail =>
            if matchFlags tail then
              match slice trimmed 1 lastSlash with
              | .error err => .error err
              | .ok inner => buildRegex lib inner tail
            else buildRegex lib pattern []
        else buildRegex lib pattern []

/-- The end of `parseFilterExpression`, from the result of
`parsePathExpression`. -/
def parseComparison {F : Type} (lib : ByteLib F) (pathResult : pathParseResult F) :
    Except String (filterExpression F) :=
  let rest := TrimSpace pathResult.rest
  let stripped : Except String ByteString :=
    if HasPrefix rest (ascii "?") then
      match slice rest 1 rest.length with
      | .error err => .error err
      | .ok after => .ok (TrimSpace after)
    else .ok rest
  match stripped with
  | .error err => .error err
  | .ok rest =>
    if rest = [] then .ok { kind := "exists", path := pathResult.path }
    else
      match parseOperatorAndValue lib rest with
      | .error err => .error err
      | .ok opResult =>
        .ok { kind := "compare", path := pathResult.path, operator := opResult.operator,
              value := opResult.value }

def parseFilterExpression {F : Type} (lib : ByteLib F) (input : ByteString) :
    Except String (filterExpression F) :=
  let raw := TrimSpace input
  if raw = [] then .error "filter is empty"
  else if HasPrefix (lib.ToLower raw) (ascii "select(") then
    .error "select syntax is not supported"
  else
    match parseMessageContainsShorthand raw with
    | .error err => .error err
    | .ok (some expr) => .ok expr
    | .ok none =>
      match parseRegexShorthand lib raw with
      | .error err => .error err
      | .ok expr =>
        if expr.kind ≠ "" then .ok expr
        else
          match parsePathExpression lib raw with
          | .error err => .error err
          | .ok pathResult => parseComparison lib pathResult

/-- A library on which the parser over bytes can be run: it lowers the ASCII
letters and leaves every other byte, accepts no number and compiles every
pattern, so it stands for Go on ASCII input in which no number is read.  The
theorems hold for every library; this one only supplies concrete inputs, whose
results do not depend on what it does to other bytes. -/
def demoByteLib : ByteLib Int :=
  { ToLower := fun s => s.map fun b => if byte 'A' ≤ b ∧ b ≤ byte 'Z' then b + 32 else b
    parseFloat := fun _ => none
    Atoi := fun _ => 0
    regexpCompiles := fun _ => true }

/-- A result that is no crash, in the words of the specification: a value of
which `post` holds, or one of the errors the source makes (never the panic of
an index or a slice out of range, never a loop out of fuel). -/
def Safe {α : Type} (post : α → Prop) : Except String α → Prop
  | .ok a => post a
  | .error msg => msg ∈ parserMessages

end Bytewise

/-! ## Theorems -/

/-! ### The evaluator: conjunction of the filters (C1) -/

theorem passesFilterLoop_iff {F : Type} (lib : GoLib F) (scope : List (GoString × Value F))
    (filters : List (filterExpression F)) :
    passesFilterLoop lib scope filters = true ↔
      ∀ expr ∈ filters, evaluateFilterExpression lib expr scope = true := by
  induction filters with
  | nil => simp [passesFilterLoop]
  | cons expr filters ih =>
    cases h : evaluateFilterExpression lib expr scope <;> simp [passesFilterLoop, h, ih]

/-- C1: `passesFilterExpressions` is true exactly when every expression of the
list evaluates to true against the scope built from the entry, and it is true
for the empty list. -/
theorem passesFilterExpressions_iff_all {F : Type} (lib : GoLib F) (entry : LogEntry F)
    (filters : List (filterExpression F)) :
    (passesFilterExpressions lib entry filters = true ↔
      ∀ expr ∈ filters, evaluateFilterExpression lib expr (buildFilterScope entry) = true) ∧
    passesFilterExpressions lib entry [] = true := by
  refine ⟨?_, by simp [passesFilterExpressions]⟩
  cases filters with
  | nil => simp [passesFilterExpressions]
  | cons expr filters =>
    simp only [passesFilterExpressions, List.length_cons, Nat.succ_ne_zero, if_false]
    exact passesFilterLoop_iff lib (buildFilterScope entry) (expr :: filters)

/-! ### The filter set: all or nothing (C2) -/

/-- The loop of `parseFilterExpressions` from any accumulator: on a failing
string nothing is returned, otherwise the results are appended in order. -/
theorem parseFilterExpressionsLoop_spec {F : Type} (lib : GoLib F) (filters : List GoString)
    (acc : List (filterExpression F)) :
    let nonBlank := (filters.map TrimSpace).filter (fun t => t ≠ [])
    let result := parseFilterExpressionsLoop lib filters acc
    ((∃ t ∈ nonBlank, ∃ err, parseFilterExpression lib t = .error err) →
        result.1 = [] ∧ ∃ t ∈ nonBlank, ∃ err,
          parseFilterExpression lib t = .error err ∧ result.2 = some (t, err)) ∧
    ((∀ t ∈ nonBlank, ∀ err, parseFilterExpression lib t ≠ .error err) →
        result.2 = none ∧ ∃ exprs, result.1 = acc ++ exprs ∧
          exprs.map Except.ok = nonBlank.map (parseFilterExpression lib)) := by
  induction filters generalizing acc with
  | nil => simp [parseFilterExpressionsLoop]
  | cons raw filters ih =>
    by_cases hb : TrimSpace raw = []
    · simpa [parseFilterExpressionsLoop, hb] using ih acc
    · cases hp : parseFilterExpression lib (TrimSpace raw) with
      | error err =>
        simp [parseFilterExpressionsLoop, hb, hp]
      | ok expr =>
        have ih' := ih (acc ++ [expr])
        simp only [parseFilterExpressionsLoop, hb, hp, if_false, List.map_cons, decide_not,
          List.filter_cons, decide_False, Bool.not_false, if_true, List.mem_cons] at ih' ⊢
        constructor
        · rintro ⟨t, ht, err, herr⟩
          rcases ht with rfl | ht
          · rw [hp] at herr; cases herr
          · obtain ⟨h1, t', ht', err', h2, h3⟩ := ih'.1 ⟨t, ht, err, herr⟩
            exact ⟨h1, t', Or.inr ht', err', h2, h3⟩
        · intro hall
          obtain ⟨h1, exprs, h2, h3⟩ := ih'.2 (fun t ht err => hall t (Or.inr ht) err)
          exact ⟨h1, expr :: exprs, by simpa using h2, by simp [h3, hp]⟩

/-- C2: `parseFilterExpressions` either fails, returning no expression at all,
which happens exactly when some non-blank string of the list fails
`parseFilterExpression`, or succeeds and returns one expression per non-blank
string, in input order, each the result of `parseFilterExpression` on the
trimmed string; blank strings contribute nothing. -/
theorem parseFilterExpressions_all_or_nothing {F : Type} (lib : GoLib F)
    (filters : List GoString) :
    let nonBlank := (filters.map TrimSpace).filter (fun t => t ≠ [])
    let result := parseFilterExpressions lib filters
    (result.2 ≠ none ↔ ∃ t ∈ nonBlank, ∃ err, parseFilterExpression lib t = .error err) ∧
    (result.2 ≠ none → result.1 = [] ∧ ∃ t ∈ nonBlank, ∃ err,
        parseFilterExpression lib t = .error err ∧ result.2 = some (t, err)) ∧
    (result.2 = none →
        result.1.map Except.ok = nonBlank.map (parseFilterExpression lib) ∧
        result.1.length = nonBlank.length) := by
  intro nonBlank result
  have hloop : result = parseFilterExpressionsLoop lib filters [] := by
    cases filters with
    | nil => simp [result, parseFilterExpressions, parseFilterExpressionsLoop]
    | cons a l => simp [result, parseFilterExpressions]
  have hspec := parseFilterExpressionsLoop_spec lib filters []
  simp only [← hloop] at hspec
  by_cases hex : ∃ t ∈ nonBlank, ∃ err, parseFilterExpression lib t = .error err
  · obtain ⟨h1, t, ht, err, h2, h3⟩ := hspec.1 hex
    have hne : result.2 ≠ none := by rw [h3]; simp
    exact ⟨⟨fun _ => hex, fun _ => hne⟩, fun _ => ⟨h1, t, ht, err, h2, h3⟩,
      fun h => absurd h hne⟩
  · have hall : ∀ t ∈ nonBlank, ∀ err, parseFilterExpression lib t ≠ .error err :=
      fun t ht err h => hex ⟨t, ht, err, h⟩
    obtain ⟨h1, exprs, h2, h3⟩ := hspec.2 hall
    simp only [List.nil_append] at h2
    refine ⟨⟨fun h => absurd h1 h, fun h => absurd h hex⟩, fun h => absurd h1 h, fun _ => ?_⟩
    rw [h2]
    refine ⟨h3, ?_⟩
    have := congrArg List.length h3
    simpa [nonBlank] using this

/-! ### The store (C3, C4) -/

theorem wrapInt64_of_range (x : Int) (h1 : -(2 ^ 63) ≤ x) (h2 : x < 2 ^ 63) :
    wrapInt64 x = x := by
  unfold wrapInt64
  norm_num at h1 h2 ⊢
  omega

theorem assignIDs_length {F : Type} (base : Int) (es : List (LogEntry F)) :
    (assignIDs base es).length = es.length := by
  induction es generalizing base with
  | nil => rfl
  | cons e es ih => simp [assignIDs, ih]

theorem assignIDs_getElem {F : Type} (base : Int) (es : List (LogEntry F)) (i : Nat)
    (h : i < es.length) (h2 : i < (assignIDs base es).length) :
    (assignIDs base es)[i] = { es[i] with ID := base + 1 + i } := by
  induction es generalizing base i with
  | nil => simp at h
  | cons e es ih =>
    cases i with
    | zero => simp [assignIDs]
    | succ i =>
      simp only [assignIDs, List.getElem_cons_succ]
      rw [ih (base + 1) i (by simpa using h)]
      push_cast
      ring_nf

theorem LogStore_Add_spec {F : Type} (s : LogStore F) (e : LogEntry F)
    (hmax : 1 ≤ s.max) (h0 : 0 ≤ s.nextID) (h1 : s.nextID + 1 < 2 ^ 63) :
    (s.Add e).2 = { e with ID := s.nextID + 1 } ∧
    (s.Add e).1.nextID = s.nextID + 1 ∧
    (s.Add e).1.max = s.max ∧
    (s.Add e).1.entries =
      (s.entries ++ [{ e with ID := s.nextID + 1 }]).drop (s.entries.length + 1 - s.max.toNat) := by
  have hw : wrapInt64 (s.nextID + 1) = s.nextID + 1 :=
    wrapInt64_of_range _ (by norm_num; omega) h1
  simp only [LogStore.Add, hw, List.length_append, List.length_singleton, true_and]
  by_cases hgt : ((s.entries.length + 1 : Nat) : Int) > s.max
  · rw [if_pos hgt]
    congr 1
    omega
  · rw [if_neg hgt]
    have : s.entries.length + 1 - s.max.toNat = 0 := by omega
    rw [this, List.drop_zero]

theorem addAll_spec {F : Type} (es : List (LogEntry F)) (s : LogStore F)
    (hmax : 1 ≤ s.max) (h0 : 0 ≤ s.nextID) (h1 : s.nextID + es.length < 2 ^ 63)
    (hE : s.entries.length ≤ s.max.toNat) :
    (addAll s es).2 = assignIDs s.nextID es ∧
    (addAll s es).1.max = s.max ∧
    (addAll s es).1.entries =
      (s.entries ++ assignIDs s.nextID es).drop (s.entries.length + es.length - s.max.toNat) := by
  induction es generalizing s with
  | nil =>
    have : s.entries.length - s.max.toNat = 0 := by omega
    simp [addAll, assignIDs, this]
  | cons e es ih =>
    have hlen : ((e :: es).length : Int) = es.length + 1 := by simp
    obtain ⟨a1, a2, a3, a4⟩ := LogStore_Add_spec s e hmax h0 (by omega)
    have hE' : (s.Add e).1.entries.length ≤ (s.Add e).1.max.toNat := by
      rw [a4, a3]; simp only [List.length_drop, List.length_append, List.length_singleton]; omega
    obtain ⟨b1, b2, b3⟩ := ih (s.Add e).1 (by rw [a3]; exact hmax) (by rw [a2]; omega)
      (by rw [a2]; omega) hE'
    refine ⟨?_, ?_, ?_⟩
    · simp only [addAll, assignIDs, b1, a1, a2]
    · simp only [addAll, b2, a3]
    · have hd : s.entries.length + 1 - s.max.toNat ≤
          (s.entries ++ [{ e with ID := s.nextID + 1 }]).length := by
        simp
      have hl : (s.Add e).1.entries.length =
          s.entries.length + 1 - (s.entries.length + 1 - s.max.toNat) := by
        rw [a4]; simp
      simp only [addAll, b3, a2, a3, hl, assignIDs, List.length_cons]
      rw [a4, ← List.drop_append_of_le_length hd, List.drop_drop, List.append_assoc,
        List.singleton_append]
      congr 1
      omega

theorem NewLogStore_addAll {F : Type} (max : Int) (es : List (LogEntry F))
    (hlen : (es.length : Int) < 2 ^ 63) :
    (addAll (NewLogStore max) es).2 = assignIDs 0 es ∧
    (addAll (NewLogStore max) es).1.entries =
      (assignIDs 0 es).drop (es.length - (if max < 1 then 1 else max).toNat) := by
  have h := addAll_spec es (NewLogStore (F := F) max)
    (by simp only [NewLogStore]; split <;> omega) (by simp [NewLogStore])
    (by simpa [NewLogStore] using hlen) (by simp [NewLogStore])
  simpa [NewLogStore] using And.intro h.1 h.2.2

theorem assignIDs_ID_gt {F : Type} (base : Int) (es : List (LogEntry F)) :
    ∀ x ∈ assignIDs base es, base < x.ID := by
  induction es generalizing base with
  | nil => simp [assignIDs]
  | cons e es ih =>
    intro x hx
    simp only [assignIDs, List.mem_cons] at hx
    rcases hx with rfl | hx
    · simp
    · have := ih (base + 1) x hx
      omega

theorem assignIDs_pairwise {F : Type} (base : Int) (es : List (LogEntry F)) :
    (assignIDs base es).Pairwise (fun a b => a.ID < b.ID) := by
  induction es generalizing base with
  | nil => simp [assignIDs]
  | cons e es ih =>
    simp only [assignIDs, List.pairwise_cons]
    exact ⟨fun x hx => by simpa using assignIDs_ID_gt (base + 1) es x hx, ih (base + 1)⟩

/-- C3: after adding the entries `es` to a fresh store of capacity `max ≥ 1`,
`List()` returns the last `min(n, max)` of them in insertion order; when
`n = max + k` these are the entries `e_(k+1) .. e_(max+k)` carrying the IDs
`k+1 .. max+k`, strictly increasing.  (The counter is an `int64`: the run is
shorter than `2^63`.) -/
theorem store_keeps_last_max {F : Type} (max : Int) (es : List (LogEntry F))
    (hmax : 1 ≤ max) (hlen : (es.length : Int) < 2 ^ 63) :
    ((addAll (NewLogStore max) es).1.List =
        (assignIDs 0 es).drop (es.length - max.toNat)) ∧
    ((addAll (NewLogStore max) es).1.List.length = min es.length max.toNat) ∧
    (∀ k : Nat, es.length = max.toNat + k →
      (addAll (NewLogStore max) es).1.List = (assignIDs 0 es).drop k ∧
      (addAll (NewLogStore max) es).1.List.length = max.toNat ∧
      ∀ (i : Nat) (h : i < (addAll (NewLogStore max) es).1.List.length)
        (h2 : k + i < es.length),
        (addAll (NewLogStore max) es).1.List[i] =
          { es[k + i] with ID := (k : Int) + 1 + i }) ∧
    (addAll (NewLogStore max) es).1.List.Pairwise (fun a b => a.ID < b.ID) := by
  have hout : (addAll (NewLogStore max) es).1.List =
      (assignIDs 0 es).drop (es.length - max.toNat) := by
    have h := (NewLogStore_addAll max es hlen).2
    rw [if_neg (by omega)] at h
    exact h
  refine ⟨hout, ?_, ?_, ?_⟩
  · rw [hout, List.length_drop, assignIDs_length]; omega
  · intro k hk
    have hk' : es.length - max.toNat = k := by omega
    rw [hk'] at hout
    refine ⟨hout, ?_, ?_⟩
    · rw [hout, List.length_drop, assignIDs_length]; omega
    · intro i h h2
      simp only [hout, List.getElem_drop]
      rw [assignIDs_getElem 0 es (k + i) h2]
      push_cast
      ring_nf
  · rw [hout]
    exact (assignIDs_pairwise 0 es).sublist (List.drop_sublist _ _)

theorem store_keeps_last_max_witness :
    (addAll (NewLogStore (F := Int) 2)
        [{ Msg := "a".toList }, { Msg := "b".toList, ID := 9 }, { Msg := "c".toList }]).1.List =
      (assignIDs 0 [{ Msg := "a".toList }, { Msg := "b".toList, ID := 9 },
        { Msg := "c".toList }]).drop (3 - 2) :=
  (store_keeps_last_max (F := Int) 2
    [{ Msg := "a".toList }, { Msg := "b".toList, ID := 9 }, { Msg := "c".toList }]
    (by decide) (by norm_num)).1

/-- C4: in a run of `Add` calls on a fresh store, call `i` (from 1) returns
its argument with ID `i` and every other field unchanged, whatever ID the
argument carried and whatever the capacity; the returned IDs are strictly
increasing, hence never repeated.  (The counter is an `int64`: the run is
shorter than `2^63`.) -/
theorem add_returns_sequential_ids {F : Type} (max : Int) (es : List (LogEntry F))
    (hlen : (es.length : Int) < 2 ^ 63) :
    ((addAll (NewLogStore max) es).2.length = es.length) ∧
    (∀ (i : Nat) (h : i < es.length) (h2 : i < (addAll (NewLogStore max) es).2.length),
      (addAll (NewLogStore max) es).2[i] = { es[i] with ID := (i : Int) + 1 }) ∧
    ((addAll (NewLogStore max) es).2.Pairwise (fun a b => a.ID < b.ID)) ∧
    ((addAll (NewLogStore max) es).2.map (fun e => e.ID)).Nodup := by
  have hret := (NewLogStore_addAll max es hlen).1
  refine ⟨?_, ?_, ?_, ?_⟩
  · rw [hret, assignIDs_length]
  · intro i h h2
    simp only [hret]
    rw [assignIDs_getElem 0 es i h]
    ring_nf
  · rw [hret]; exact assignIDs_pairwise 0 es
  · rw [hret, List.Nodup, List.pairwise_map]
    exact (assignIDs_pairwise 0 es).imp (fun h => ne_of_lt h)

theorem add_returns_sequential_ids_witness :
    (addAll (NewLogStore (F := Int) 1)
        [{ Msg := "a".toList, ID := 5 }, { Msg := "b".toList, ID := 5 }]).2.map (fun e => e.ID)
      = [1, 2] ∧
    ((addAll (NewLogStore (F := Int) 1)
        [{ Msg := "a".toList, ID := 5 }, { Msg := "b".toList, ID := 5 }]).2.map
          (fun e => e.ID)).Nodup :=
  ⟨by decide, (add_returns_sequential_ids (F := Int) 1
    [{ Msg := "a".toList, ID := 5 }, { Msg := "b".toList, ID := 5 }] (by norm_num)).2.2.2⟩

/-! ### Strings -/

theorem TrimSpace_eq_self {s : GoString}
    (h1 : ∀ c, s.head? = some c → isSpace c = false)
    (h2 : ∀ c, s.getLast? = some c → isSpace c = false) : TrimSpace s = s := by
  unfold TrimSpace
  have hd : s.dropWhile isSpace = s := by
    cases s with
    | nil => rfl
    | cons c r => simp [List.dropWhile, h1 c rfl]
  rw [hd, List.rdropWhile_eq_self_iff]
  intro hl
  have := h2 (s.getLast hl) (List.getLast?_eq_getLast s hl)
  simp [this]

theorem TrimSpace_head {s : GoString} {c : Char} (h : (TrimSpace s).head? = some c) :
    isSpace c = false := by
  unfold TrimSpace at h
  have hpre : (s.dropWhile isSpace).rdropWhile isSpace <+: s.dropWhile isSpace :=
    List.rdropWhile_prefix _ _
  obtain ⟨t, ht⟩ := hpre
  cases hr : (s.dropWhile isSpace).rdropWhile isSpace with
  | nil => rw [hr] at h; simp at h
  | cons a r =>
    rw [hr] at h ht
    simp only [List.head?_cons, Option.some.injEq] at h
    subst h
    have hne : s.dropWhile isSpace ≠ [] := by rw [← ht]; simp
    have := List.head_dropWhile_not isSpace s hne
    simp only [← ht, List.cons_append, List.head_cons] at this
    simpa using this

theorem TrimSpace_getLast {s : GoString} {c : Char} (h : (TrimSpace s).getLast? = some c) :
    isSpace c = false := by
  unfold TrimSpace at h
  have hne : (s.dropWhile isSpace).rdropWhile isSpace ≠ [] := by
    intro h0; rw [h0] at h; simp at h
  have := List.rdropWhile_last_not isSpace (s.dropWhile isSpace) hne
  rw [List.getLast?_eq_getLast _ hne] at h
  simp only [Option.some.injEq] at h
  subst h
  simpa using this

theorem TrimSpace_idem (s : GoString) : TrimSpace (TrimSpace s) = TrimSpace s :=
  TrimSpace_eq_self (fun _ h => TrimSpace_head h) (fun _ h => TrimSpace_getLast h)

/-! ### The message shorthand (C5) -/

theorem len_ge_length (s : GoString) : s.length ≤ len s := by
  induction s with
  | nil => simp [len]
  | cons c r ih =>
    have := Char.utf8Size_pos c
    simp only [len, List.map_cons, List.sum_cons, List.length_cons] at ih ⊢
    omega

theorem HasPrefix_singleton (s : GoString) (c : Char) :
    HasPrefix s [c] = true ↔ s.head? = some c := by
  cases s with
  | nil => simp [HasPrefix, List.isPrefixOf]
  | cons a r =>
    simp [HasPrefix, List.isPrefixOf]
    exact eq_comm

/-- The value the shorthand stores for a trimmed string `t`: `t` without its
first and last character when `t` is longer than one character and both are
the same quote, `t` itself otherwise. -/
theorem shorthand_value_cond (t : GoString) :
    (len t > 1 ∧
      ((t.head? = some '"' ∧ t.getLast? = some '"') ∨
       (t.head? = some '\'' ∧ t.getLast? = some '\''))) ↔
    (t.length > 1 ∧
      ((t.head? = some '"' ∧ t.getLast? = some '"') ∨
       (t.head? = some '\'' ∧ t.getLast? = some '\''))) := by
  constructor
  · rintro ⟨hl, hq⟩
    refine ⟨?_, hq⟩
    cases t with
    | nil => simp [len] at hl
    | cons a r =>
      cases r with
      | nil =>
        exfalso
        rcases hq with ⟨h, _⟩ | ⟨h, _⟩ <;>
        · simp only [List.head?_cons, Option.some.injEq] at h
          subst h
          revert hl
          decide
      | cons b r => simp
  · rintro ⟨hl, hq⟩
    exact ⟨lt_of_lt_of_le hl (len_ge_length t), hq⟩

theorem parseMessageContainsShorthand_of_trimmed {F : Type} (t : GoString)
    (ht : TrimSpace t = t) (hne : t ≠ []) (hdot : t.head? ≠ some '.')
    (hslash : t.head? ≠ some '/') :
    parseMessageContainsShorthand (F := F) t =
      some { kind := "compare", path := [Value.str "message".toList],
             operator := "contains".toList,
             value := Value.str
               (if t.length > 1 ∧
                   ((t.head? = some '"' ∧ t.getLast? = some '"') ∨
                    (t.head? = some '\'' ∧ t.getLast? = some '\'')) then
                  (t.drop 1).dropLast
                else t) } := by
  have h1 : HasPrefix t ".".toList = false := by
    rw [Bool.eq_false_iff]; intro h
    exact hdot ((HasPrefix_singleton t '.').1 h)
  have h2 : HasPrefix t "/".toList = false := by
    rw [Bool.eq_false_iff]; intro h
    exact hslash ((HasPrefix_singleton t '/').1 h)
  unfold parseMessageContainsShorthand
  simp only [ht, hne, h1, h2, false_or, Bool.false_eq_true, if_false]
  by_cases hc : t.length > 1 ∧
      ((t.head? = some '"' ∧ t.getLast? = some '"') ∨
       (t.head? = some '\'' ∧ t.getLast? = some '\''))
  · rw [if_pos ((shorthand_value_cond t).2 hc), if_pos hc]
  · rw [if_neg (fun h => hc ((shorthand_value_cond t).1 h)), if_neg hc]

/-- C5: a non-blank filter string whose trimmed form `t` starts neither with
`.` nor with `/` (nor with `select(` in any letter case) parses to the compare
expression on path `["message"]` with operator `contains` and value `v`, where
`v` is `t` without its first and last character when `t` is longer than one
character and both are the same quote, and `t` otherwise; nothing is asked of
the other characters of `t`. -/
theorem parseFilterExpression_message_shorthand {F : Type} (lib : GoLib F) (s : GoString)
    (hne : TrimSpace s ≠ [])
    (hdot : (TrimSpace s).head? ≠ some '.')
    (hslash : (TrimSpace s).head? ≠ some '/')
    (hselect : HasPrefix (ToLower lib (TrimSpace s)) "select(".toList = false) :
    parseFilterExpression lib s =
      .ok { kind := "compare", path := [Value.str "message".toList],
            operator := "contains".toList,
            value := Value.str
              (if (TrimSpace s).length > 1 ∧
                  (((TrimSpace s).head? = some '"' ∧ (TrimSpace s).getLast? = some '"') ∨
                   ((TrimSpace s).head? = some '\'' ∧ (TrimSpace s).getLast? = some '\'')) then
                 ((TrimSpace s).drop 1).dropLast
               else TrimSpace s) } := by
  unfold parseFilterExpression
  simp only [hne, hselect, if_false, Bool.false_eq_true]
  rw [parseMessageContainsShorthand_of_trimmed (TrimSpace s) (TrimSpace_idem s) hne hdot hslash]

theorem parseFilterExpression_message_shorthand_witness :
    parseFilterExpression demoLib "  'disk = full' ".toList =
      .ok { kind := "compare", path := [Value.str "message".toList],
            operator := "contains".toList, value := Value.str "disk = full".toList } :=
  (parseFilterExpression_message_shorthand demoLib "  'disk = full' ".toList
    (by decide) (by decide) (by decide) (by decide)).trans (by rfl)

/-! ### The bare word and its long form (C6) -/

theorem isWordChar_toNat {c : Char} (h : isWordChar c = true) :
    (48 ≤ c.toNat ∧ c.toNat ≤ 57) ∨ (65 ≤ c.toNat ∧ c.toNat ≤ 90) ∨
    (97 ≤ c.toNat ∧ c.toNat ≤ 122) ∨ c.toNat = 95 := by
  simp only [isWordChar, Bool.or_eq_true, Bool.and_eq_true, decide_eq_true_eq, beq_iff_eq] at h
  rcases h with ((h | h) | h) | h
  · exact Or.inl h
  · exact Or.inr (Or.inl h)
  · exact Or.inr (Or.inr (Or.inl h))
  · subst h; exact Or.inr (Or.inr (Or.inr (by decide)))

theorem isWordChar_not_space {c : Char} (h : isWordChar c = true) : isSpace c = false := by
  have := isWordChar_toNat h
  simp only [isSpace, Bool.or_eq_false_iff, Bool.and_eq_false_iff, decide_eq_false_iff_not,
    beq_eq_false_iff_ne, ne_eq]
  omega

theorem isWordChar_ne {c d : Char} (h : isWordChar c = true) (hd : isWordChar d = false) :
    c ≠ d := by
  rintro rfl
  rw [h] at hd
  cases hd

theorem toLowerRune_word_ne_paren {F : Type} (lib : GoLib F) {c : Char}
    (h : isWordChar c = true) : toLowerRune lib c ≠ '(' := by
  have hn := isWordChar_toNat h
  unfold toLowerRune
  have h128 : c.toNat < 128 := by omega
  rw [if_pos h128]
  split
  · rename_i hu
    obtain ⟨h1, h2⟩ := hu
    generalize c.toNat = n at h1 h2
    interval_cases n <;> decide
  · intro heq
    rw [heq] at h
    revert h
    decide

theorem HasPrefix_ToLower_select_of_word {F : Type} (lib : GoLib F) (w : GoString)
    (hw : ∀ c ∈ w, isWordChar c = true) :
    HasPrefix (ToLower lib w) "select(".toList = false := by
  rw [Bool.eq_false_iff]
  intro h
  rw [HasPrefix, List.isPrefixOf_iff_prefix] at h
  obtain ⟨t, ht⟩ := h
  have hmem : '(' ∈ ToLower lib w := by
    rw [← ht]; simp
  simp only [ToLower, List.mem_map] at hmem
  obtain ⟨c, hc, hcl⟩ := hmem
  exact toLowerRune_word_ne_paren lib (hw c hc) hcl

theorem parseQuotedLoop_plain (q : Char) (hq : q ≠ '\\') (w rest acc : GoString)
    (hw : ∀ c ∈ w, c ≠ '\\' ∧ c ≠ q) :
    parseQuotedLoop q (w ++ q :: rest) acc = .ok (acc ++ w, rest) := by
  induction w generalizing acc with
  | nil =>
    cases rest with
    | nil => simp [parseQuotedLoop]
    | cons n r => simp [parseQuotedLoop, hq]
  | cons c w ih =>
    have hc := hw c (List.mem_cons_self _ _)
    have ih' := ih (acc ++ [c]) (fun d hd => hw d (List.mem_cons_of_mem _ hd))
    cases hx : w ++ q :: rest with
    | nil => simp at hx
    | cons n r =>
      rw [hx] at ih'
      simp only [List.cons_append, hx, parseQuotedLoop, hc.1, hc.2, false_and, if_false, ih']
      simp

theorem afterPathSegment_space (x : GoString) :
    afterPathSegment (' ' :: x) = .stop (' ' :: x) := by
  rfl

theorem TrimSpace_cons_space (c : Char) (x : GoString) (hc : isSpace c = true) :
    TrimSpace (c :: x) = TrimSpace x := by
  simp [TrimSpace, List.dropWhile, hc]

theorem isIdentifierChar_ne {c d : Char} (h : isIdentifierChar c = true)
    (hd : isIdentifierChar d = false) : c ≠ d := by
  rintro rfl
  rw [h] at hd
  cases hd

theorem takeWhile_append_stop {p : Char → Bool} (tok x : GoString)
    (htok : ∀ c ∈ tok, p c = true) (hx : ∀ c, x.head? = some c → p c = false) :
    (tok ++ x).takeWhile p = tok ∧ (tok ++ x).dropWhile p = x := by
  have h1 : x.takeWhile p = [] := by
    cases x with
    | nil => rfl
    | cons a r => simp [List.takeWhile, hx a rfl]
  have h2 : x.dropWhile p = x := by
    cases x with
    | nil => rfl
    | cons a r => simp [List.dropWhile, hx a rfl]
  constructor
  · rw [List.takeWhile_append_of_pos htok, h1, List.append_nil]
  · rw [List.dropWhile_append_of_pos htok, h2]

theorem parsePathSegment_identifier {F : Type} (tok x : GoString) (hne : tok ≠ [])
    (htok : ∀ c ∈ tok, isIdentifierChar c = true)
    (hx : ∀ c, x.head? = some c → isIdentifierChar c = false) :
    parsePathSegment (F := F) (tok ++ x) = .segment (.str tok) x := by
  obtain ⟨h1, h2⟩ := takeWhile_append_stop tok x htok hx
  cases tok with
  | nil => exact absurd rfl hne
  | cons c t =>
    have hc := htok c (List.mem_cons_self _ _)
    have n1 : c ≠ '.' := isIdentifierChar_ne hc (by decide)
    have n2 : c ≠ '[' := isIdentifierChar_ne hc (by decide)
    have n3 : c ≠ '\'' := isIdentifierChar_ne hc (by decide)
    have n4 : c ≠ '"' := isIdentifierChar_ne hc (by decide)
    simp only [List.cons_append] at h1 h2 ⊢
    simp only [parsePathSegment, skipChar, n1, n2, n3, n4, or_self, if_false, hc, Bool.not_true,
      Bool.false_eq_true, h1, h2]

theorem skipChar_of_ne (ch : Char) (s : GoString) (h : s.head? ≠ some ch) :
    skipChar ch s = s := by
  cases s with
  | nil => rfl
  | cons c r =>
    have hc : c ≠ ch := fun e => h (by simp [e])
    simp [skipChar, hc]

theorem parsePathSegment_dot {F : Type} (s : GoString) (h : s.head? ≠ some '.') :
    parsePathSegment (F := F) ('.' :: s) = parsePathSegment s := by
  unfold parsePathSegment
  rw [skipChar_of_ne '.' s h]
  simp [skipChar]

theorem parsePathExpression_message {F : Type} (x : GoString) :
    parsePathExpression (F := F) ('.' :: ("message".toList ++ ' ' :: x)) =
      .ok ⟨[Value.str "message".toList], ' ' :: x⟩ := by
  unfold parsePathExpression
  simp only []
  unfold parsePathLoop
  rw [parsePathSegment_identifier "message".toList (' ' :: x) (by decide) (by decide)
    (by intro c hc; simp only [List.head?_cons, Option.some.injEq] at hc; subst hc; decide)]
  simp [afterPathSegment_space]

theorem matchWordOperator_contains (x : GoString) (hx : ∀ c, x.head? = some c → isWordChar c = false) :
    matchWordOperator ("contains".toList ++ x) = some ("contains".toList, x) := by
  have hp : "contains".toList.isPrefixOf ("contains".toList ++ x) = true := by
    rw [List.isPrefixOf_iff_prefix]; exact List.prefix_append _ _
  have hd : ("contains".toList ++ x).drop "contains".toList.length = x := List.drop_left _ _
  unfold matchWordOperator matchWord
  rw [if_pos hp, hd]
  cases x with
  | nil => rfl
  | cons c r => simp [hx c rfl]

theorem parseValueLiteral_quoted {F : Type} (lib : GoLib F) (w : GoString)
    (hw : ∀ c ∈ w, c ≠ '\\' ∧ c ≠ '"') :
    parseValueLiteral lib ('"' :: (w ++ ['"'])) = .ok (Value.str w) := by
  have ht : TrimSpace ('"' :: (w ++ ['"'])) = '"' :: (w ++ ['"']) := by
    apply TrimSpace_eq_self
    · intro c hc; simp only [List.head?_cons, Option.some.injEq] at hc; subst hc; decide
    · intro c hc
      rw [← List.cons_append, List.getLast?_concat] at hc
      simp only [Option.some.injEq] at hc
      subst hc; decide
  unfold parseValueLiteral
  simp only [ht, List.cons_ne_nil, if_false, true_or, if_true, parseQuotedString]
  rw [parseQuotedLoop_plain '"' (by decide) w [] [] hw]
  simp [TrimSpace]

theorem parseOperatorAndValue_contains_quoted {F : Type} (lib : GoLib F) (w : GoString)
    (hw : ∀ c ∈ w, c ≠ '\\' ∧ c ≠ '"') :
    parseOperatorAndValue lib ("contains".toList ++ ' ' :: '"' :: (w ++ ['"'])) =
      .ok ⟨"contains".toList, Value.str w⟩ := by
  have ht : TrimSpace ("contains".toList ++ ' ' :: '"' :: (w ++ ['"'])) =
      "contains".toList ++ ' ' :: '"' :: (w ++ ['"']) := by
    apply TrimSpace_eq_self
    · intro c hc
      have : c = 'c' := by simpa using hc.symm
      subst this; decide
    · intro c hc
      have e : "contains".toList ++ ' ' :: '"' :: (w ++ ['"']) =
          ("contains".toList ++ ' ' :: '"' :: w) ++ ['"'] := by simp
      rw [e, List.getLast?_concat] at hc
      simp only [Option.some.injEq] at hc
      subst hc; decide
  have hm := matchWordOperator_contains (' ' :: '"' :: (w ++ ['"']))
    (by intro c hc; simp only [List.head?_cons, Option.some.injEq] at hc; subst hc; decide)
  have hl : ToLower lib "contains".toList = "contains".toList := by rfl
  unfold parseOperatorAndValue
  simp only [ht, hm, hl]
  rw [TrimSpace_cons_space ' ' _ (by decide)]
  have ht2 : TrimSpace ('"' :: (w ++ ['"'])) = '"' :: (w ++ ['"']) := by
    apply TrimSpace_eq_self
    · intro c hc; simp only [List.head?_cons, Option.some.injEq] at hc; subst hc; decide
    · intro c hc
      rw [← List.cons_append, List.getLast?_concat] at hc
      simp only [Option.some.injEq] at hc
      subst hc; decide
  rw [ht2, parseValueLiteral_quoted lib w hw]
  simp

/-- C6: for every non-empty word `w` of letters, digits and underscores, the
bare word `w` and the long form `.message contains "w"` both parse, and to the
same expression: compare, path `["message"]`, operator `contains`, value the
string `w`. -/
theorem bare_word_equals_message_contains {F : Type} (lib : GoLib F) (w : GoString)
    (hne : w ≠ []) (hw : ∀ c ∈ w, isWordChar c = true) :
    parseFilterExpression lib w =
      .ok { kind := "compare", path := [Value.str "message".toList],
            operator := "contains".toList, value := Value.str w } ∧
    parseFilterExpression lib (".message contains \"".toList ++ w ++ "\"".toList) =
      .ok { kind := "compare", path := [Value.str "message".toList],
            operator := "contains".toList, value := Value.str w } := by
  have hhead : ∀ c, w.head? = some c → isWordChar c = true :=
    fun c hc => hw c (List.mem_of_mem_head? hc)
  have hlast : ∀ c, w.getLast? = some c → isWordChar c = true :=
    fun c hc => hw c (List.mem_of_mem_getLast? hc)
  constructor
  · have ht : TrimSpace w = w :=
      TrimSpace_eq_self (fun c hc => isWordChar_not_space (hhead c hc))
        (fun c hc => isWordChar_not_space (hlast c hc))
    have hq : ¬ (w.length > 1 ∧
        ((w.head? = some '"' ∧ w.getLast? = some '"') ∨
         (w.head? = some '\'' ∧ w.getLast? = some '\''))) := by
      rintro ⟨_, ⟨h, _⟩ | ⟨h, _⟩⟩
      · exact absurd (hhead _ h) (by decide)
      · exact absurd (hhead _ h) (by decide)
    unfold parseFilterExpression
    simp only [ht, hne, HasPrefix_ToLower_select_of_word lib w hw, if_false, Bool.false_eq_true]
    rw [parseMessageContainsShorthand_of_trimmed w ht hne
      (fun h => absurd (hhead _ h) (by decide)) (fun h => absurd (hhead _ h) (by decide)),
      if_neg hq]
  · have hplain : ∀ c ∈ w, c ≠ '\\' ∧ c ≠ '"' := fun c hc =>
      ⟨isWordChar_ne (hw c hc) (by decide), isWordChar_ne (hw c hc) (by decide)⟩
    have e : ".message contains \"".toList ++ w ++ "\"".toList =
        '.' :: ("message".toList ++ ' ' :: ("contains".toList ++ ' ' :: '"' :: (w ++ ['"']))) := by
      simp
    rw [e]
    have ht : TrimSpace ('.' :: ("message".toList ++ ' ' ::
        ("contains".toList ++ ' ' :: '"' :: (w ++ ['"'])))) =
        '.' :: ("message".toList ++ ' ' :: ("contains".toList ++ ' ' :: '"' :: (w ++ ['"']))) := by
      apply TrimSpace_eq_self
      · intro c hc; simp only [List.head?_cons, Option.some.injEq] at hc; subst hc; decide
      · intro c hc
        have e2 : '.' :: ("message".toList ++ ' ' ::
            ("contains".toList ++ ' ' :: '"' :: (w ++ ['"']))) =
            ('.' :: ("message".toList ++ ' ' :: ("contains".toList ++ ' ' :: '"' :: w))) ++ ['"'] := by
          simp
        rw [e2, List.getLast?_concat] at hc
        simp only [Option.some.injEq] at hc
        subst hc; decide
    have hsel : HasPrefix (ToLower lib ('.' :: ("message".toList ++ ' ' ::
        ("contains".toList ++ ' ' :: '"' :: (w ++ ['"']))))) "select(".toList = false := by
      rfl
    have hshort : parseMessageContainsShorthand (F := F) ('.' :: ("message".toList ++ ' ' ::
        ("contains".toList ++ ' ' :: '"' :: (w ++ ['"'])))) = none := by
      unfold parseMessageContainsShorthand
      rw [ht]
      simp [HasPrefix]
    have hregex : parseRegexShorthand lib ('.' :: ("message".toList ++ ' ' ::
        ("contains".toList ++ ' ' :: '"' :: (w ++ ['"'])))) = .ok {} := by
      unfold parseRegexShorthand
      rw [ht]
      simp [HasPrefix]
    unfold parseFilterExpression
    simp only [ht, hsel, hshort, hregex, parsePathExpression_message]
    rw [TrimSpace_cons_space ' ' _ (by decide)]
    have ht3 : TrimSpace ("contains".toList ++ ' ' :: '"' :: (w ++ ['"'])) =
        "contains".toList ++ ' ' :: '"' :: (w ++ ['"']) := by
      apply TrimSpace_eq_self
      · intro c hc
        have : c = 'c' := by simpa using hc.symm
        subst this; decide
      · intro c hc
        have e3 : "contains".toList ++ ' ' :: '"' :: (w ++ ['"']) =
            ("contains".toList ++ ' ' :: '"' :: w) ++ ['"'] := by simp
        rw [e3, List.getLast?_concat] at hc
        simp only [Option.some.injEq] at hc
        subst hc; decide
    have hq2 : HasPrefix ("contains".toList ++ ' ' :: '"' :: (w ++ ['"'])) "?".toList = false := by
      rfl
    rw [ht3]
    simp only [hq2, Bool.false_eq_true, if_false, parseOperatorAndValue_contains_quoted lib w hplain]
    simp

theorem bare_word_equals_message_contains_witness :
    parseFilterExpression demoLib "error".toList =
      .ok { kind := "compare", path := [Value.str "message".toList],
            operator := "contains".toList, value := Value.str "error".toList } ∧
    parseFilterExpression demoLib
        (".message contains \"".toList ++ "error".toList ++ "\"".toList) =
      .ok { kind := "compare", path := [Value.str "message".toList],
            operator := "contains".toList, value := Value.str "error".toList } :=
  bare_word_equals_message_contains demoLib "error".toList (by decide) (by decide)

/-! ### The regex shorthand (C7) -/

theorem findLastUnescapedSlashFrom_spec (t : GoString) (n : Nat) :
    (findLastUnescapedSlashFrom t n = -1 ∧ ∀ j, j < n → isUnescapedSlashAt t j = false) ∨
    (∃ k : Nat, findLastUnescapedSlashFrom t n = k ∧ k < n ∧ isUnescapedSlashAt t k = true ∧
      ∀ j, k < j → j < n → isUnescapedSlashAt t j = false) := by
  induction n with
  | zero => left; simp [findLastUnescapedSlashFrom]
  | succ i ih =>
    unfold findLastUnescapedSlashFrom
    by_cases h : t[i]? = some '/' ∧ (i = 0 ∨ t[i - 1]? ≠ some '\\')
    · right
      refine ⟨i, by rw [if_pos h], Nat.lt_succ_self i, by simp [isUnescapedSlashAt, h], ?_⟩
      intro j h1 h2; omega
    · rw [if_neg h]
      have hi : isUnescapedSlashAt t i = false := by simp only [isUnescapedSlashAt, h, decide_False]
      rcases ih with ⟨h1, h2⟩ | ⟨k, h1, h2, h3, h4⟩
      · left
        refine ⟨h1, fun j hj => ?_⟩
        rcases Nat.lt_succ_iff_lt_or_eq.1 hj with hj | rfl
        · exact h2 j hj
        · exact hi
      · right
        refine ⟨k, h1, Nat.lt_succ_of_lt h2, h3, fun j hj1 hj2 => ?_⟩
        rcases Nat.lt_succ_iff_lt_or_eq.1 hj2 with hj | rfl
        · exact h4 j hj1 hj
        · exact hi

theorem isUnescapedSlashAt_lt_length {t : GoString} {j : Nat}
    (h : isUnescapedSlashAt t j = true) : j < t.length := by
  simp only [isUnescapedSlashAt, decide_eq_true_eq] at h
  by_contra hn
  rw [List.getElem?_eq_none (by omega)] at h
  exact absurd h.1 (by simp)

theorem findLastUnescapedSlash_spec (t : GoString) (h : t.head? = some '/') :
    ∃ k : Nat, findLastUnescapedSlash t = k ∧ k < t.length ∧ isUnescapedSlashAt t k = true ∧
      ∀ j, k < j → isUnescapedSlashAt t j = false := by
  have h0 : isUnescapedSlashAt t 0 = true := by
    cases t with
    | nil => simp at h
    | cons c r =>
      simp only [List.head?_cons, Option.some.injEq] at h
      simp [isUnescapedSlashAt, h]
  have hlen := isUnescapedSlashAt_lt_length h0
  rcases findLastUnescapedSlashFrom_spec t t.length with ⟨_, h2⟩ | ⟨k, h1, h2, h3, h4⟩
  · rw [h2 0 hlen] at h0; cases h0
  · refine ⟨k, h1, h2, h3, fun j hj => ?_⟩
    by_cases hjl : j < t.length
    · exact h4 j hj hjl
    · by_contra hc
      exact hjl (isUnescapedSlashAt_lt_length (by simpa using hc))

theorem matchFlags_drop_false (t : GoString) (j k : Nat) (hjk : j < k)
    (hk : t[k]? = some '/') : matchFlags (t.drop (j + 1)) = false := by
  have hmem : '/' ∈ t.drop (j + 1) := by
    have : (t.drop (j + 1))[k - (j + 1)]? = some '/' := by
      rw [List.getElem?_drop]
      have : j + 1 + (k - (j + 1)) = k := by omega
      rw [this, hk]
    exact List.getElem?_mem this
  rw [Bool.eq_false_iff]
  intro hall
  simp only [matchFlags, List.all_eq_true] at hall
  have := hall '/' hmem
  revert this
  decide


theorem regexShorthandParts_eq (t : GoString) (k : Nat) (hk : findLastUnescapedSlash t = k) :
    regexShorthandParts t =
      if 0 < k ∧ matchFlags (t.drop (k + 1)) = true then ((t.take k).drop 1, t.drop (k + 1))
      else (t.drop 1, []) := by
  unfold regexShorthandParts
  simp only [hk, Int.toNat_ofNat, Nat.cast_pos]
  by_cases h1 : 0 < k
  · by_cases h2 : matchFlags (t.drop (k + 1)) = true
    · simp [h1, h2]
    · simp [h1, h2]
  · simp [h1]

theorem specRegexParts_eq (t : GoString) (k : Nat) (hk1 : isUnescapedSlashAt t k = true)
    (hk2 : ∀ j, k < j → isUnescapedSlashAt t j = false) :
    specRegexParts t =
      if 0 < k ∧ matchFlags (t.drop (k + 1)) = true then ((t.take k).drop 1, t.drop (k + 1))
      else (t.drop 1, []) := by
  have hkl := isUnescapedSlashAt_lt_length hk1
  have hkc : t[k]? = some '/' := by
    simp only [isUnescapedSlashAt, decide_eq_true_eq] at hk1
    exact hk1.1
  unfold specRegexParts specTerminatingSlash
  cases hf : (List.range t.length).reverse.find? (fun k =>
      decide (0 < k) && isUnescapedSlashAt t k && matchFlags (t.drop (k + 1))) with
  | none =>
    simp only []
    rw [List.find?_eq_none] at hf
    have := hf k (by simp [hkl])
    rw [if_neg]
    rintro ⟨h1, h2⟩
    simp [h1, hk1, h2] at this
  | some j =>
    simp only []
    have hp := List.find?_some hf
    simp only [Bool.and_eq_true, decide_eq_true_eq] at hp
    obtain ⟨⟨hj0, hj1⟩, hj2⟩ := hp
    have hjk : j = k := by
      rcases Nat.lt_trichotomy j k with h | h | h
      · rw [matchFlags_drop_false t j k h hkc] at hj2; cases hj2
      · exact h
      · rw [hk2 j h] at hj1; cases hj1
    subst hjk
    rw [if_pos ⟨hj0, hj2⟩]

/-- C7: for a trimmed string `t` that starts with `/`, with `k` the index
`findLastUnescapedSlash` returns: `k` is the largest index of an unescaped
slash; the pattern is `t[1..k)` and the flags `t[k+1..]` when `k > 0` and
`t[k+1..]` consists of characters among `g,i,m,s,u,y`, and otherwise the
pattern is `t[1..]` without flags; `parseRegexShorthand` fails with
`regex pattern is empty` exactly when that pattern is empty, and otherwise
returns the regex expression on path `["message"]` when the pattern compiles
(`invalid regex` when not); the split is the one of the specification (the
last unescaped `/` whose remainder is a flag string); and `/fail(ed)?/i` gives
pattern `fail(ed)?` with flag `i`. -/
theorem regex_shorthand_split {F : Type} (lib : GoLib F) (t : GoString)
    (htrim : TrimSpace t = t) (hslash : t.head? = some '/') :
    ∃ k : Nat, findLastUnescapedSlash t = (k : Int) ∧
      (isUnescapedSlashAt t k = true ∧ ∀ j, k < j → isUnescapedSlashAt t j = false) ∧
      (regexShorthandParts t =
        if 0 < k ∧ matchFlags (t.drop (k + 1)) = true then ((t.take k).drop 1, t.drop (k + 1))
        else (t.drop 1, [])) ∧
      (parseRegexShorthand lib t = .error "regex pattern is empty" ↔
        (regexShorthandParts t).1 = []) ∧
      ((regexShorthandParts t).1 ≠ [] →
        parseRegexShorthand lib t =
          match compileRegex lib (regexShorthandParts t).1 (regexShorthandParts t).2 with
          | some compiled =>
            .ok { kind := "regex", path := [Value.str "message".toList], regex := some compiled }
          | none => .error "invalid regex") ∧
      regexShorthandParts t = specRegexParts t ∧
      regexShorthandParts "/fail(ed)?/i".toList = ("fail(ed)?".toList, "i".toList) := by
  obtain ⟨k, hk, _, hk1, hk2⟩ := findLastUnescapedSlash_spec t hslash
  have hparts := regexShorthandParts_eq t k hk
  have hpre : HasPrefix t "/".toList = true := (HasPrefix_singleton t '/').2 hslash
  have hmain : parseRegexShorthand lib t =
      if (regexShorthandParts t).1 = [] then .error "regex pattern is empty"
      else
        match compileRegex lib (regexShorthandParts t).1 (regexShorthandParts t).2 with
        | some compiled =>
          .ok { kind := "regex", path := [Value.str "message".toList], regex := some compiled }
        | none => .error "invalid regex" := by
    unfold parseRegexShorthand
    simp only [htrim, hpre, Bool.not_true, Bool.false_eq_true, if_false]
    by_cases h1 : t = "/".toList
    · subst h1
      rw [if_pos rfl, if_pos (by rfl)]
    · rw [if_neg h1]
      by_cases hp : (regexShorthandParts t).1 = []
      · simp only [hp, if_true]
      · simp only [hp, if_false]
        cases compileRegex lib (regexShorthandParts t).1 (regexShorthandParts t).2 <;> rfl
  refine ⟨k, hk, ⟨hk1, hk2⟩, hparts, ?_, ?_, ?_, by rfl⟩
  · rw [hmain]
    by_cases hp : (regexShorthandParts t).1 = []
    · simp [hp]
    · simp only [hp, if_false, iff_false]
      cases compileRegex lib (regexShorthandParts t).1 (regexShorthandParts t).2 with
      | none => simp
      | some c => simp
  · intro hp
    rw [hmain, if_neg hp]
  · rw [hparts, specRegexParts_eq t k hk1 hk2]

theorem regex_shorthand_split_witness :
    ∃ k : Nat, findLastUnescapedSlash "/fail(ed)?/i".toList = (k : Int) ∧
      (isUnescapedSlashAt "/fail(ed)?/i".toList k = true ∧
        ∀ j, k < j → isUnescapedSlashAt "/fail(ed)?/i".toList j = false) ∧
      (regexShorthandParts "/fail(ed)?/i".toList =
        if 0 < k ∧ matchFlags ("/fail(ed)?/i".toList.drop (k + 1)) = true then
          (("/fail(ed)?/i".toList.take k).drop 1, "/fail(ed)?/i".toList.drop (k + 1))
        else ("/fail(ed)?/i".toList.drop 1, [])) ∧
      (parseRegexShorthand demoLib "/fail(ed)?/i".toList = .error "regex pattern is empty" ↔
        (regexShorthandParts "/fail(ed)?/i".toList).1 = []) ∧
      ((regexShorthandParts "/fail(ed)?/i".toList).1 ≠ [] →
        parseRegexShorthand demoLib "/fail(ed)?/i".toList =
          match compileRegex demoLib (regexShorthandParts "/fail(ed)?/i".toList).1
            (regexShorthandParts "/fail(ed)?/i".toList).2 with
          | some compiled =>
            .ok { kind := "regex", path := [Value.str "message".toList], regex := some compiled }
          | none => .error "invalid regex") ∧
      regexShorthandParts "/fail(ed)?/i".toList = specRegexParts "/fail(ed)?/i".toList ∧
      regexShorthandParts "/fail(ed)?/i".toList = ("fail(ed)?".toList, "i".toList) :=
  regex_shorthand_split demoLib "/fail(ed)?/i".toList (by decide) (by decide)

/-! ### Rendering and parsing a path (C8) -/

theorem digitChar_toNat (d : Nat) (h : d < 10) : (Char.ofNat (48 + d)).toNat = 48 + d := by
  interval_cases d <;> decide

theorem digitsValue_append (l : GoString) (c : Char) :
    digitsValue (l ++ [c]) = digitsValue l * 10 + (c.toNat - 48) := by
  simp [digitsValue, List.foldl_append]

theorem natDigits_spec (fuel n : Nat) (h : n < fuel) :
    natDigits fuel n ≠ [] ∧ (∀ c ∈ natDigits fuel n, isDigit c = true) ∧
    digitsValue (natDigits fuel n) = n := by
  induction fuel generalizing n with
  | zero => omega
  | succ f ih =>
    unfold natDigits
    by_cases h10 : n < 10
    · rw [if_pos h10]
      refine ⟨by simp, ?_, ?_⟩
      · intro c hc
        simp only [List.mem_singleton] at hc
        subst hc
        simp only [isDigit, digitChar_toNat n h10, Bool.and_eq_true, decide_eq_true_eq]
        omega
      · simp [digitsValue, digitChar_toNat n h10]
    · rw [if_neg h10]
      obtain ⟨_, h2, h3⟩ := ih (n / 10) (by omega)
      have hm : n % 10 < 10 := Nat.mod_lt _ (by decide)
      refine ⟨by simp, ?_, ?_⟩
      · intro c hc
        simp only [List.mem_append, List.mem_singleton] at hc
        rcases hc with hc | hc
        · exact h2 c hc
        · subst hc
          simp only [isDigit, digitChar_toNat _ hm, Bool.and_eq_true, decide_eq_true_eq]
          omega
      · rw [digitsValue_append, h3, digitChar_toNat _ hm]
        omega

theorem isDigit_ne {c d : Char} (h : isDigit c = true) (hd : isDigit d = false) : c ≠ d := by
  rintro rfl
  rw [h] at hd
  cases hd

theorem matchInteger_of_digits (d : GoString) (hne : d ≠ []) (hd : ∀ c ∈ d, isDigit c = true) :
    matchInteger d = true ∧ Atoi d = clampInt64 (digitsValue d) := by
  cases d with
  | nil => exact absurd rfl hne
  | cons c r =>
    have hc : c ≠ '-' := isDigit_ne (hd c (List.mem_cons_self _ _)) (by decide)
    have hm : matchDigits (c :: r) = true := by
      simp only [matchDigits, List.isEmpty_cons, Bool.not_false, Bool.true_and, List.all_eq_true]
      exact hd
    constructor
    · unfold matchInteger
      split
      · rename_i heq
        simp only [List.cons.injEq] at heq
        exact absurd heq.1 hc
      · exact hm
    · unfold Atoi
      split
      · rename_i heq
        simp only [List.cons.injEq] at heq
        exact absurd heq.1 hc
      · rfl

theorem clampInt64_of_range (n : Int) (h1 : -(2 ^ 63) ≤ n) (h2 : n < 2 ^ 63) :
    clampInt64 n = n := by
  unfold clampInt64
  norm_num at h1 h2 ⊢
  omega

theorem Itoa_spec (n : Int) (h1 : -(2 ^ 63) ≤ n) (h2 : n < 2 ^ 63) :
    Itoa n ≠ [] ∧ (∀ c ∈ Itoa n, isDigit c = true ∨ c = '-') ∧
    matchInteger (Itoa n) = true ∧ Atoi (Itoa n) = n := by
  obtain ⟨d1, d2, d3⟩ := natDigits_spec (n.natAbs + 1) n.natAbs (Nat.lt_succ_self _)
  obtain ⟨m1, m2⟩ := matchInteger_of_digits _ d1 d2
  unfold Itoa
  by_cases hn : n < 0
  · rw [if_pos hn]
    refine ⟨by simp, ?_, ?_, ?_⟩
    · intro c hc
      simp only [List.mem_cons] at hc
      rcases hc with hc | hc
      · exact Or.inr hc
      · exact Or.inl (d2 c hc)
    · simp only [matchInteger, matchDigits, Bool.and_eq_true, Bool.not_eq_true',
        List.isEmpty_eq_false, List.all_eq_true]
      exact ⟨d1, d2⟩
    · simp only [Atoi, d3]
      rw [clampInt64_of_range] <;> omega
  · rw [if_neg hn]
    refine ⟨d1, fun c hc => Or.inl (d2 c hc), m1, ?_⟩
    rw [m2, d3, clampInt64_of_range] <;> omega

theorem parseQuotedLoop_escaped (key rest acc : GoString) :
    parseQuotedLoop '\'' (escapeKey key ++ '\'' :: rest) acc = .ok (acc ++ key, rest) := by
  induction key generalizing acc with
  | nil =>
    cases rest with
    | nil => simp [escapeKey, parseQuotedLoop]
    | cons n r => simp [escapeKey, parseQuotedLoop]
  | cons c key ih =>
    unfold escapeKey
    by_cases hc : c = '\\' ∨ c = '\''
    · rw [if_pos hc]
      have hnul : c ≠ Char.ofNat 0 := by
        rcases hc with rfl | rfl <;> decide
      simp only [List.cons_append, parseQuotedLoop, hnul, ne_eq, not_false_eq_true, and_self,
        if_true]
      exact (ih (acc ++ [c])).trans (by simp)
    · rw [if_neg hc]
      have h1 : c ≠ '\\' := fun e => hc (Or.inl e)
      have h2 : c ≠ '\'' := fun e => hc (Or.inr e)
      have ih' := ih (acc ++ [c])
      cases hx : escapeKey key ++ '\'' :: rest with
      | nil => simp at hx
      | cons n r =>
        rw [hx] at ih'
        simp only [List.cons_append, hx, parseQuotedLoop, h1, h2, false_and, if_false, ih']
        simp

theorem dropWhile_head_false {p : Char → Bool} (s : GoString)
    (h : ∀ c, s.head? = some c → p c = false) : s.dropWhile p = s := by
  cases s with
  | nil => rfl
  | cons a r => simp [List.dropWhile, h a rfl]

theorem parseBracketSegment_quoted {F : Type} (key x : GoString) :
    parseBracketSegment (F := F) ('\'' :: (escapeKey key ++ '\'' :: ']' :: x)) =
      .ok (Value.str key, x) := by
  unfold parseBracketSegment
  have h1 : ('\'' :: (escapeKey key ++ '\'' :: ']' :: x)).dropWhile isWhitespace =
      '\'' :: (escapeKey key ++ '\'' :: ']' :: x) := by
    simp [List.dropWhile, isWhitespace]
  have h2 : (']' :: x).dropWhile isWhitespace = ']' :: x := by
    simp [List.dropWhile, isWhitespace]
  simp only [h1, or_true, if_true, parseQuotedString, parseQuotedLoop_escaped, List.nil_append, h2]

theorem parseBracketSegment_index {F : Type} (n : Int) (x : GoString)
    (h1 : -(2 ^ 63) ≤ n) (h2 : n < 2 ^ 63) :
    parseBracketSegment (F := F) (Itoa n ++ ']' :: x) = .ok (Value.int n, x) := by
  obtain ⟨i1, i2, i3, i4⟩ := Itoa_spec n h1 h2
  have hws : ∀ c ∈ Itoa n, isWhitespace c = false ∧ c ≠ ']' ∧ c ≠ '"' ∧ c ≠ '\'' := by
    intro c hc
    rcases i2 c hc with h | rfl
    · refine ⟨?_, isDigit_ne h (by decide), isDigit_ne h (by decide), isDigit_ne h (by decide)⟩
      cases hw : isWhitespace c with
      | false => rfl
      | true =>
        simp only [isWhitespace, Bool.or_eq_true, beq_iff_eq] at hw
        rcases hw with ((rfl | rfl) | rfl) | rfl <;> revert h <;> decide
    · decide
  cases hI : Itoa n with
  | nil => exact absurd hI i1
  | cons c r =>
    rw [hI] at hws i3 i4
    have hc := hws c (List.mem_cons_self _ _)
    have htok := takeWhile_append_stop (p := fun ch => !isWhitespace ch && ch != ']')
      (c :: r) (']' :: x)
      (by intro d hd; have := hws d hd; simp [this.1, this.2.1])
      (by intro d hd; simp only [List.head?_cons, Option.some.injEq] at hd; subst hd; decide)
    have h3 : (']' :: x).dropWhile isWhitespace = ']' :: x := by
      simp [List.dropWhile, isWhitespace]
    unfold parseBracketSegment
    have h0 : (c :: r ++ ']' :: x).dropWhile isWhitespace = c :: r ++ ']' :: x := by
      simp [List.dropWhile, hc.1]
    simp only [h0]
    simp only [List.cons_append] at htok ⊢
    simp only [hc.2.2.1, hc.2.2.2, or_self, if_false, htok.1, htok.2, List.cons_ne_nil, i3,
      if_true, i4, h3]

theorem isIdentifierKey_spec {key : GoString} (h : isIdentifierKey key = true) :
    key ≠ [] ∧ ∀ c ∈ key, isIdentifierChar c = true := by
  simp only [isIdentifierKey, Bool.and_eq_true, Bool.not_eq_true', List.isEmpty_eq_false,
    List.all_eq_true] at h
  exact h

theorem renderSegment_parse {F : Type} (v : Value F) (x : GoString) (hv : isPathSegment v)
    (hx : ∀ c, x.head? = some c → c = '.' ∨ c = '[') :
    parsePathSegment (renderSegment v ++ x) = .segment v x := by
  cases v with
  | null => exact absurd hv (by simp [isPathSegment])
  | bool b => exact absurd hv (by simp [isPathSegment])
  | num f => exact absurd hv (by simp [isPathSegment])
  | list xs => exact absurd hv (by simp [isPathSegment])
  | map kvs => exact absurd hv (by simp [isPathSegment])
  | int n =>
    obtain ⟨h1, h2⟩ := hv
    have e : renderSegment (Value.int n : Value F) ++ x = '[' :: (Itoa n ++ ']' :: x) := by
      simp [renderSegment]
    rw [e]
    unfold parsePathSegment
    simp only [skipChar, show ¬ ('[' = '.') by decide, if_false, if_true,
      parseBracketSegment_index n x h1 h2]
  | str key =>
    simp only [renderSegment]
    by_cases hk : isIdentifierKey key = true
    · rw [if_pos hk]
      obtain ⟨k1, k2⟩ := isIdentifierKey_spec hk
      have hx' : ∀ c, x.head? = some c → isIdentifierChar c = false := by
        intro c hc
        rcases hx c hc with rfl | rfl <;> decide
      have hhead : (key ++ x).head? ≠ some '.' := by
        cases key with
        | nil => exact absurd rfl k1
        | cons c r =>
          simp only [List.cons_append, List.head?_cons, ne_eq, Option.some.injEq]
          exact isIdentifierChar_ne (k2 c (List.mem_cons_self _ _)) (by decide)
      rw [List.cons_append, parsePathSegment_dot _ hhead,
        parsePathSegment_identifier key x k1 k2 hx']
    · rw [if_neg hk]
      have e : '[' :: '\'' :: (escapeKey key ++ ['\'', ']']) ++ x =
          '[' :: '\'' :: (escapeKey key ++ '\'' :: ']' :: x) := by simp
      rw [e]
      unfold parsePathSegment
      simp only [skipChar, show ¬ ('[' = '.') by decide, if_false, if_true,
        parseBracketSegment_quoted]

theorem renderSegment_head {F : Type} (v : Value F) (hv : isPathSegment v) :
    (renderSegment v).head? = some '.' ∨ (renderSegment v).head? = some '[' := by
  cases v with
  | null => exact absurd hv (by simp [isPathSegment])
  | bool b => exact absurd hv (by simp [isPathSegment])
  | num f => exact absurd hv (by simp [isPathSegment])
  | list xs => exact absurd hv (by simp [isPathSegment])
  | map kvs => exact absurd hv (by simp [isPathSegment])
  | int n => right; simp [renderSegment]
  | str key =>
    simp only [renderSegment]
    split
    · left; simp
    · right; simp

theorem renderSegments_head {F : Type} (path : List (Value F))
    (hp : ∀ v ∈ path, isPathSegment v) :
    ∀ c, (renderSegments path).head? = some c → c = '.' ∨ c = '[' := by
  intro c hc
  cases path with
  | nil => simp [renderSegments] at hc
  | cons v rest =>
    have hv := renderSegment_head v (hp v (List.mem_cons_self _ _))
    simp only [renderSegments] at hc
    cases hr : renderSegment v with
    | nil => rw [hr] at hv; simp at hv
    | cons a r =>
      rw [hr] at hv hc
      simp only [List.cons_append, List.head?_cons, Option.some.injEq] at hv hc
      subst hc
      exact hv

theorem afterPathSegment_segments (x : GoString) (hx : ∀ c, x.head? = some c → c = '.' ∨ c = '[') :
    afterPathSegment x = if x = [] then .stop [] else .again x := by
  cases x with
  | nil => rfl
  | cons c r =>
    have hc := hx c rfl
    have hq : c ≠ '?' := by rcases hc with rfl | rfl <;> decide
    simp only [afterPathSegment, skipChar, hq, if_false, hc, if_true, List.cons_ne_nil]

theorem parsePathLoop_step {F : Type} (f : Nat) (s x : GoString) (acc : List (Value F))
    (v : Value F) (hs : parsePathSegment s = .segment v x)
    (hx : ∀ c, x.head? = some c → c = '.' ∨ c = '[') :
    parsePathLoop (f + 1) s acc =
      if x = [] then .ok ⟨acc ++ [v], []⟩ else parsePathLoop f x (acc ++ [v]) := by
  have hne : s ≠ [] := by
    rintro rfl
    simp [parsePathSegment, skipChar] at hs
  rw [parsePathLoop, if_neg hne, hs]
  simp only [afterPathSegment_segments x hx]
  by_cases h : x = []
  · simp [h]
  · simp [h]

theorem renderSegment_ne_nil {F : Type} (v : Value F) (hv : isPathSegment v) :
    renderSegment v ≠ [] := by
  intro h
  have := renderSegment_head v hv
  rw [h] at this
  simp at this

theorem parsePathLoop_render {F : Type} (path : List (Value F)) (acc : List (Value F))
    (fuel : Nat) (hp : ∀ v ∈ path, isPathSegment v)
    (hf : path.length < fuel) :
    parsePathLoop fuel (renderSegments path) acc = .ok ⟨acc ++ path, []⟩ := by
  induction path generalizing acc fuel with
  | nil =>
    cases fuel with
    | zero => omega
    | succ f => simp [renderSegments, parsePathLoop]
  | cons v rest ih =>
    have hv := hp v (List.mem_cons_self _ _)
    have hrest : ∀ u ∈ rest, isPathSegment u := fun u hu => hp u (List.mem_cons_of_mem _ hu)
    cases fuel with
    | zero => omega
    | succ f =>
      simp only [List.length_cons] at hf
      simp only [renderSegments]
      rw [parsePathLoop_step f _ _ acc v
        (renderSegment_parse v _ hv (renderSegments_head rest hrest))
        (renderSegments_head rest hrest)]
      by_cases h : renderSegments rest = []
      · rw [if_pos h]
        cases rest with
        | nil => rfl
        | cons u r =>
          have := renderSegment_ne_nil u (hrest u (List.mem_cons_self _ _))
          simp only [renderSegments, List.append_eq_nil] at h
          exact absurd h.1 this
      · rw [if_neg h, ih (acc ++ [v]) f hrest (by omega)]
        simp

theorem isIdentifierChar_not_space {c : Char} (h : isIdentifierChar c = true) :
    isSpace c = false := by
  simp only [isIdentifierChar, Bool.or_eq_true, Bool.and_eq_true, decide_eq_true_eq,
    beq_iff_eq] at h
  rcases h with ((((h | h) | h) | h) | h) | h
  · simp only [isSpace, Bool.or_eq_false_iff, Bool.and_eq_false_iff, decide_eq_false_iff_not,
      beq_eq_false_iff_ne, ne_eq]
    omega
  · simp only [isSpace, Bool.or_eq_false_iff, Bool.and_eq_false_iff, decide_eq_false_iff_not,
      beq_eq_false_iff_ne, ne_eq]
    omega
  · simp only [isSpace, Bool.or_eq_false_iff, Bool.and_eq_false_iff, decide_eq_false_iff_not,
      beq_eq_false_iff_ne, ne_eq]
    omega
  · subst h; decide
  · subst h; decide
  · subst h; decide

theorem getLast?_append_some {l l' : GoString} {c : Char}
    (h : (l ++ l').getLast? = some c) :
    l'.getLast? = some c ∨ (l' = [] ∧ l.getLast? = some c) := by
  rw [List.getLast?_append] at h
  cases hl : l'.getLast? with
  | none =>
    rw [hl] at h
    exact Or.inr ⟨List.getLast?_eq_none_iff.1 hl, by simpa using h⟩
  | some d =>
    rw [hl] at h
    exact Or.inl (by simpa using h)

theorem getLast?_cons_some {a c : Char} {l : GoString} (h : (a :: l).getLast? = some c) :
    (l = [] ∧ c = a) ∨ l.getLast? = some c := by
  have e : a :: l = [a] ++ l := rfl
  rw [e] at h
  rcases getLast?_append_some h with h | ⟨h1, h2⟩
  · exact Or.inr h
  · left
    refine ⟨h1, ?_⟩
    simpa using h2.symm

theorem renderSegment_getLast {F : Type} (v : Value F) (hv : isPathSegment v) :
    ∀ c, (renderSegment v).getLast? = some c → isSpace c = false := by
  intro c hc
  cases v with
  | null => exact absurd hv (by simp [isPathSegment])
  | bool b => exact absurd hv (by simp [isPathSegment])
  | num f => exact absurd hv (by simp [isPathSegment])
  | list xs => exact absurd hv (by simp [isPathSegment])
  | map kvs => exact absurd hv (by simp [isPathSegment])
  | int n =>
    have e : renderSegment (Value.int n : Value F) = ('[' :: Itoa n) ++ [']'] := by
      simp [renderSegment]
    rw [e, List.getLast?_concat] at hc
    simp only [Option.some.injEq] at hc
    subst hc; decide
  | str key =>
    simp only [renderSegment] at hc
    by_cases hk : isIdentifierKey key = true
    · rw [if_pos hk] at hc
      obtain ⟨k1, k2⟩ := isIdentifierKey_spec hk
      rcases getLast?_cons_some hc with ⟨h1, _⟩ | h
      · exact absurd h1 k1
      · exact isIdentifierChar_not_space (k2 c (List.mem_of_mem_getLast? h))
    · rw [if_neg hk] at hc
      have e : '[' :: '\'' :: (escapeKey key ++ ['\'', ']']) =
          ('[' :: '\'' :: (escapeKey key ++ ['\''])) ++ [']'] := by simp
      rw [e, List.getLast?_concat] at hc
      simp only [Option.some.injEq] at hc
      subst hc; decide

theorem renderSegments_getLast {F : Type} (path : List (Value F))
    (hp : ∀ v ∈ path, isPathSegment v) :
    ∀ c, (renderSegments path).getLast? = some c → isSpace c = false := by
  induction path with
  | nil => intro c hc; simp [renderSegments] at hc
  | cons v rest ih =>
    intro c hc
    simp only [renderSegments] at hc
    rcases getLast?_append_some hc with h | ⟨_, h⟩
    · exact ih (fun u hu => hp u (List.mem_cons_of_mem _ hu)) c h
    · exact renderSegment_getLast v (hp v (List.mem_cons_self _ _)) c h

theorem TrimSpace_dot_render {F : Type} (path : List (Value F))
    (hp : ∀ v ∈ path, isPathSegment v) :
    TrimSpace ('.' :: renderSegments path) = '.' :: renderSegments path := by
  apply TrimSpace_eq_self
  · intro c hc
    simp only [List.head?_cons, Option.some.injEq] at hc
    subst hc; decide
  · intro c hc
    rcases getLast?_cons_some hc with ⟨_, rfl⟩ | h
    · decide
    · exact renderSegments_getLast path hp c h

theorem parsePathLoop_dot {F : Type} (f : Nat) (s : GoString) (acc : List (Value F))
    (h : s.head? ≠ some '.') :
    parsePathLoop (f + 1) ('.' :: s) acc = parsePathLoop (f + 1) s acc := by
  rw [parsePathLoop, parsePathLoop, if_neg (List.cons_ne_nil _ _), parsePathSegment_dot s h]
  by_cases hs : s = []
  · subst hs
    rfl
  · rw [if_neg hs]

/-- A string `.s` that is its own trimmed form and whose path loop reads the
whole of `s` parses to the exists expression on the path read. -/
theorem parseFilterExpression_of_path {F : Type} (lib : GoLib F) (s : GoString)
    (path : List (Value F)) (ht : TrimSpace ('.' :: s) = '.' :: s)
    (hloop : parsePathLoop (s.length + 1) s [] = .ok ⟨path, []⟩) :
    parseFilterExpression lib ('.' :: s) = .ok { kind := "exists", path := path } := by
  have hsel : HasPrefix (ToLower lib ('.' :: s)) "select(".toList = false := by rfl
  have hshort : parseMessageContainsShorthand (F := F) ('.' :: s) = none := by
    unfold parseMessageContainsShorthand
    rw [ht]
    simp [HasPrefix]
  have hregex : parseRegexShorthand lib ('.' :: s) = .ok {} := by
    unfold parseRegexShorthand
    rw [ht]
    simp [HasPrefix]
  have hpath : parsePathExpression (F := F) ('.' :: s) = .ok ⟨path, []⟩ := by
    simp only [parsePathExpression, hloop]
  have ht0 : TrimSpace [] = [] := by rfl
  have hq : HasPrefix [] "?".toList = false := by rfl
  unfold parseFilterExpression
  simp only [ht, hsel, hshort, hregex, hpath, ht0, hq]
  simp

theorem renderSegment_length {F : Type} (v : Value F) (hv : isPathSegment v) :
    2 ≤ (renderSegment v).length := by
  cases v with
  | null => exact absurd hv (by simp [isPathSegment])
  | bool b => exact absurd hv (by simp [isPathSegment])
  | num f => exact absurd hv (by simp [isPathSegment])
  | list xs => exact absurd hv (by simp [isPathSegment])
  | map kvs => exact absurd hv (by simp [isPathSegment])
  | int n => simp [renderSegment]
  | str key =>
    simp only [renderSegment]
    split
    · rename_i hk
      have := List.length_pos.2 (isIdentifierKey_spec hk).1
      simp only [List.length_cons]
      omega
    · simp

theorem renderSegments_length {F : Type} (path : List (Value F))
    (hp : ∀ v ∈ path, isPathSegment v) :
    2 * path.length ≤ (renderSegments path).length := by
  induction path with
  | nil => simp
  | cons v rest ih =>
    have h1 := renderSegment_length v (hp v (List.mem_cons_self _ _))
    have h2 := ih (fun u hu => hp u (List.mem_cons_of_mem _ hu))
    simp only [renderSegments, List.length_append, List.length_cons]
    omega

theorem renderSegments_tail_head {F : Type} (path : List (Value F))
    (hp : ∀ v ∈ path, isPathSegment v) (s : GoString)
    (h : renderSegments path = '.' :: s) : s.head? ≠ some '.' := by
  cases path with
  | nil => simp [renderSegments] at h
  | cons v rest =>
    have hv := hp v (List.mem_cons_self _ _)
    simp only [renderSegments] at h
    cases v with
    | null => exact absurd hv (by simp [isPathSegment])
    | bool b => exact absurd hv (by simp [isPathSegment])
    | num f => exact absurd hv (by simp [isPathSegment])
    | list xs => exact absurd hv (by simp [isPathSegment])
    | map kvs => exact absurd hv (by simp [isPathSegment])
    | int n => simp [renderSegment] at h
    | str key =>
      simp only [renderSegment] at h
      by_cases hk : isIdentifierKey key = true
      · rw [if_pos hk] at h
        obtain ⟨k1, k2⟩ := isIdentifierKey_spec hk
        simp only [List.cons_append, List.cons.injEq, true_and] at h
        cases key with
        | nil => exact absurd rfl k1
        | cons c r =>
          rw [← h]
          simp only [List.cons_append, List.head?_cons, ne_eq, Option.some.injEq]
          exact isIdentifierChar_ne (k2 c (List.mem_cons_self _ _)) (by decide)
      · rw [if_neg hk] at h
        simp at h

/-- C8: parsing inverts rendering.  For every path of string keys and `int`
indices, the string that starts with `.` and writes each index `n` as `[n]`,
each identifier key (a non-empty run of letters, digits, `_`, `@`, `-`) as
`.key` and every other key as `['key']` with backslash and quote escaped,
parses to the exists expression on exactly that path; this holds both when
the leading `.` is the one of the first `.key` and when it is written in
front of it.  The string `.a.b[0]['c']` gives `["a", "b", 0, "c"]`. -/
theorem path_render_roundtrip {F : Type} (lib : GoLib F) (path : List (Value F))
    (hp : ∀ v ∈ path, isPathSegment v) :
    parseFilterExpression lib (renderPath path) = .ok { kind := "exists", path := path } ∧
    parseFilterExpression lib ('.' :: renderSegments path) =
      .ok { kind := "exists", path := path } ∧
    parseFilterExpression lib ".a.b[0]['c']".toList =
      .ok { kind := "exists",
            path := [Value.str "a".toList, Value.str "b".toList, Value.int 0,
                     Value.str "c".toList] } := by
  have hlen := renderSegments_length path hp
  have hA : parseFilterExpression lib ('.' :: renderSegments path) =
      .ok { kind := "exists", path := path } := by
    apply parseFilterExpression_of_path lib _ path (TrimSpace_dot_render path hp)
    have := parsePathLoop_render path [] ((renderSegments path).length + 1) hp (by omega)
    simpa using this
  refine ⟨?_, hA, by rfl⟩
  unfold renderPath
  by_cases hd : (renderSegments path).head? = some '.'
  · rw [if_pos hd]
    cases hs : renderSegments path with
    | nil => rw [hs] at hd; simp at hd
    | cons c s =>
      rw [hs] at hd
      simp only [List.head?_cons, Option.some.injEq] at hd
      subst hd
      have hne : path ≠ [] := by
        rintro rfl
        simp [renderSegments] at hs
      have hpl : 0 < path.length := List.length_pos.2 hne
      have hsl : (renderSegments path).length = s.length + 1 := by rw [hs]; simp
      apply parseFilterExpression_of_path lib s path
      · apply TrimSpace_eq_self
        · intro c hc
          simp only [List.head?_cons, Option.some.injEq] at hc
          subst hc; decide
        · intro c hc
          rw [← hs] at hc
          exact renderSegments_getLast path hp c hc
      · rw [← parsePathLoop_dot s.length s [] (renderSegments_tail_head path hp s hs), ← hs]
        have := parsePathLoop_render path [] (s.length + 1) hp (by omega)
        simpa using this
  · rw [if_neg hd]
    exact hA

theorem path_render_roundtrip_witness :
    parseFilterExpression demoLib
        (renderPath (F := Int) [Value.str "a".toList, Value.str "b c".toList, Value.int (-7),
          Value.str "it's".toList]) =
      .ok { kind := "exists",
            path := [Value.str "a".toList, Value.str "b c".toList, Value.int (-7),
              Value.str "it's".toList] } :=
  (path_render_roundtrip demoLib
    [Value.str "a".toList, Value.str "b c".toList, Value.int (-7), Value.str "it's".toList]
    (by
      intro v hv
      simp only [List.mem_cons, List.mem_singleton, List.not_mem_nil, or_false] at hv
      rcases hv with rfl | rfl | rfl | rfl
      · trivial
      · trivial
      · exact ⟨by norm_num, by norm_num⟩
      · trivial)).1

/-! ### Word operators and letter case (C10) -/

/-- C10, the code at the failing input: the word operator written in upper
case is not recognised (the filter is rejected with `expected an operator`),
while the lower-case spelling of the same filter parses to the compare
expression; so does the mixed-case spelling fail. -/
theorem word_operator_upper_case_rejected {F : Type} (lib : GoLib F) :
    parseFilterExpression lib ".message CONTAINS \"x\"".toList =
      .error "expected an operator" ∧
    parseFilterExpression lib ".message StartsWith \"x\"".toList =
      .error "expected an operator" ∧
    parseFilterExpression lib ".message contains \"x\"".toList =
      .ok { kind := "compare", path := [Value.str "message".toList],
            operator := "contains".toList, value := Value.str "x".toList } := by
  refine ⟨by rfl, by rfl, by rfl⟩

/-! ### The optional-chaining marker (C9) -/

theorem parseQuotedLoop_local_aux (q : Char) (hq : q ≠ '\\') (n : Nat) :
    ∀ (s acc v next : GoString), s.length ≤ n → parseQuotedLoop q s acc = .ok (v, next) →
    ∃ a, a ≠ [] ∧ s = a ++ next ∧ ∀ x, parseQuotedLoop q (a ++ x) acc = .ok (v, x) := by
  induction n with
  | zero =>
    intro s acc v next hl h
    have : s = [] := List.length_eq_zero.1 (Nat.le_zero.1 hl)
    subst this
    simp [parseQuotedLoop] at h
  | succ n ih =>
    intro s acc v next hl h
    have hquote : ∀ (r x : GoString), parseQuotedLoop q (q :: x) r = .ok (r, x) := by
      intro r x
      cases x with
      | nil => simp [parseQuotedLoop]
      | cons m t => simp [parseQuotedLoop, hq]
    match s, h, hl with
    | [], h, _ => simp [parseQuotedLoop] at h
    | [ch], h, _ =>
      by_cases hc : ch = q
      · subst hc
        simp only [parseQuotedLoop, if_true, Except.ok.injEq, Prod.mk.injEq] at h
        obtain ⟨rfl, rfl⟩ := h
        exact ⟨[ch], by simp, by simp, fun x => hquote _ x⟩
      · simp [parseQuotedLoop, hc] at h
    | ch :: m :: rest, h, hl =>
      simp only [List.length_cons] at hl
      by_cases hesc : ch = '\\' ∧ m ≠ Char.ofNat 0
      · simp only [parseQuotedLoop, hesc, ne_eq, not_false_eq_true, and_self, if_true] at h
        obtain ⟨a, _, ha2, ha3⟩ := ih rest (acc ++ [m]) v next (by omega) h
        refine ⟨ch :: m :: a, by simp, by simp [ha2], fun x => ?_⟩
        simp only [List.cons_append, parseQuotedLoop, hesc, ne_eq, not_false_eq_true, and_self,
          if_true]
        exact ha3 x
      · by_cases hc : ch = q
        · subst hc
          simp only [parseQuotedLoop, hesc, if_false, if_true, Except.ok.injEq,
            Prod.mk.injEq] at h
          obtain ⟨rfl, rfl⟩ := h
          exact ⟨[ch], by simp, by simp, fun x => hquote _ x⟩
        · simp only [parseQuotedLoop, hesc, if_false, hc] at h
          obtain ⟨a, ha1, ha2, ha3⟩ := ih (m :: rest) (acc ++ [ch]) v next
            (by simp only [List.length_cons]; omega) h
          cases a with
          | nil => exact absurd rfl ha1
          | cons m' a' =>
            simp only [List.cons_append, List.cons.injEq] at ha2
            obtain ⟨rfl, ha2⟩ := ha2
            refine ⟨ch :: m :: a', by simp, by simp [ha2], fun x => ?_⟩
            simp only [List.cons_append, parseQuotedLoop, hesc, if_false, hc]
            exact ha3 x

theorem parseQuotedString_local (s v next : GoString)
    (hs : s.head? = some '"' ∨ s.head? = some '\'')
    (h : parseQuotedString s = .ok (v, next)) :
    ∃ a, a ≠ [] ∧ s = a ++ next ∧ a.head? = s.head? ∧
      ∀ x, parseQuotedString (a ++ x) = .ok (v, x) := by
  cases s with
  | nil => simp at hs
  | cons q r =>
    have hq : q ≠ '\\' := by
      simp only [List.head?_cons, Option.some.injEq] at hs
      rcases hs with rfl | rfl <;> decide
    simp only [parseQuotedString] at h
    obtain ⟨a, _, ha2, ha3⟩ := parseQuotedLoop_local_aux q hq r.length r [] v next (le_refl _) h
    refine ⟨q :: a, by simp, by simp [ha2], by simp, fun x => ?_⟩
    simp only [List.cons_append, parseQuotedString]
    exact ha3 x

theorem dropWhile_append_stop {p : Char → Bool} (w y : GoString)
    (hw : ∀ c ∈ w, p c = true) (hy : ∀ c, y.head? = some c → p c = false) :
    (w ++ y).dropWhile p = y :=
  (takeWhile_append_stop w y hw hy).2

theorem dropWhile_head {p : Char → Bool} (s : GoString) :
    ∀ c, (s.dropWhile p).head? = some c → p c = false := by
  intro c hc
  cases hd : s.dropWhile p with
  | nil => rw [hd] at hc; simp at hc
  | cons a r =>
    have hne : s.dropWhile p ≠ [] := by rw [hd]; simp
    have := List.head_dropWhile_not p s hne
    simp only [hd, List.head_cons] at this
    rw [hd] at hc
    simp only [List.head?_cons, Option.some.injEq] at hc
    subst hc
    simpa using this

theorem takeWhile_all {p : Char → Bool} (s : GoString) : ∀ c ∈ s.takeWhile p, p c = true :=
  fun _ hc => List.mem_takeWhile_imp hc

/-- The closing of a bracket segment: what stands between the value and the
text after `]`. -/
theorem bracket_close_local (n1 next : GoString)
    (h : n1.dropWhile isWhitespace = ']' :: next) :
    ∃ ws2, (∀ c ∈ ws2, isWhitespace c = true) ∧ n1 = ws2 ++ ']' :: next ∧
      ∀ x, (ws2 ++ ']' :: x).dropWhile isWhitespace = ']' :: x := by
  refine ⟨n1.takeWhile isWhitespace, takeWhile_all n1, ?_, fun x => ?_⟩
  · rw [← h, List.takeWhile_append_dropWhile]
  · exact dropWhile_append_stop _ _ (takeWhile_all n1)
      (by intro c hc; simp only [List.head?_cons, Option.some.injEq] at hc; subst hc; decide)

theorem parseBracketSegment_local {F : Type} (r : GoString) (v : Value F) (next : GoString)
    (h : parseBracketSegment r = .ok (v, next)) :
    ∃ a, a ≠ [] ∧ r = a ++ next ∧ ∀ x, parseBracketSegment (F := F) (a ++ x) = .ok (v, x) := by
  have hr : r = r.takeWhile isWhitespace ++ r.dropWhile isWhitespace :=
    (List.takeWhile_append_dropWhile _ _).symm
  have hws1 := takeWhile_all (p := isWhitespace) r
  have hhead := dropWhile_head (p := isWhitespace) r
  unfold parseBracketSegment at h
  simp only [] at h
  generalize r.takeWhile isWhitespace = ws1 at hr hws1
  generalize r.dropWhile isWhitespace = r1 at hr hhead h
  cases r1 with
  | nil => simp at h
  | cons c t =>
    have hc : isWhitespace c = false := hhead c rfl
    simp only [] at h
    by_cases hquote : c = '"' ∨ c = '\''
    · rw [if_pos hquote] at h
      cases hp : parseQuotedString (c :: t) with
      | error e => rw [hp] at h; simp at h
      | ok res =>
        obtain ⟨parsed, n1⟩ := res
        rw [hp] at h
        simp only [] at h
        obtain ⟨a1, ha1, ha2, ha3, ha4⟩ := parseQuotedString_local (c :: t) parsed n1
          (by simpa using hquote) hp
        split at h
        · rename_i nx hnx
          simp only [Except.ok.injEq, Prod.mk.injEq] at h
          obtain ⟨rfl, rfl⟩ := h
          obtain ⟨ws2, hw1, hw2, hw3⟩ := bracket_close_local n1 nx hnx
          refine ⟨ws1 ++ (a1 ++ (ws2 ++ [']'])), by simp [ha1], ?_, fun x => ?_⟩
          · rw [hr, ha2, hw2]; simp
          · cases a1 with
            | nil => exact absurd rfl ha1
            | cons c' a1' =>
              simp only [List.head?_cons, Option.some.injEq] at ha3
              subst ha3
              have hd : (ws1 ++ (c' :: a1' ++ (ws2 ++ [']'])) ++ x).dropWhile isWhitespace =
                  c' :: (a1' ++ (ws2 ++ ']' :: x)) := by
                have e : ws1 ++ (c' :: a1' ++ (ws2 ++ [']'])) ++ x =
                    ws1 ++ (c' :: (a1' ++ (ws2 ++ ']' :: x))) := by simp
                rw [e]
                exact dropWhile_append_stop _ _ hws1
                  (by intro d hd; simp only [List.head?_cons, Option.some.injEq] at hd
                      subst hd; exact hc)
              unfold parseBracketSegment
              simp only [hd, if_pos hquote]
              have := ha4 (ws2 ++ ']' :: x)
              simp only [List.cons_append] at this
              rw [this]
              simp only [hw3]
        · simp at h
    · rw [if_neg hquote] at h
      have hsplit : c :: t =
          (c :: t).takeWhile (fun ch => !isWhitespace ch && ch != ']') ++
          (c :: t).dropWhile (fun ch => !isWhitespace ch && ch != ']') :=
        (List.takeWhile_append_dropWhile _ _).symm
      have htokall := takeWhile_all (p := fun ch => !isWhitespace ch && ch != ']') (c :: t)
      generalize (c :: t).takeWhile (fun ch => !isWhitespace ch && ch != ']') = tok
        at hsplit htokall h
      generalize (c :: t).dropWhile (fun ch => !isWhitespace ch && ch != ']') = n1 at hsplit h
      by_cases htok : tok = []
      · rw [if_pos htok] at h; simp at h
      · rw [if_neg htok] at h
        have hval : ∀ n : GoString,
            (if matchInteger tok = true then
                (Except.ok (Value.int (Atoi tok), n) : Except String (Value F × GoString))
              else Except.ok (Value.str tok, n)) =
            Except.ok (if matchInteger tok = true then Value.int (Atoi tok) else Value.str tok,
              n) := by
          intro n
          split <;> rfl
        rw [hval] at h
        simp only [] at h
        split at h
        · rename_i nx hnx
          simp only [Except.ok.injEq, Prod.mk.injEq] at h
          obtain ⟨rfl, rfl⟩ := h
          obtain ⟨ws2, hw1, hw2, hw3⟩ := bracket_close_local n1 nx hnx
          refine ⟨ws1 ++ (tok ++ (ws2 ++ [']'])), by simp [htok], ?_, fun x => ?_⟩
          · rw [hr, hsplit, hw2]; simp
          · cases tok with
            | nil => exact absurd rfl htok
            | cons c' tok' =>
              have hcc : c' = c := by
                simp only [List.cons_append, List.cons.injEq] at hsplit
                exact hsplit.1.symm
              subst hcc
              have hd : (ws1 ++ (c' :: tok' ++ (ws2 ++ [']'])) ++ x).dropWhile isWhitespace =
                  c' :: (tok' ++ (ws2 ++ ']' :: x)) := by
                have e : ws1 ++ (c' :: tok' ++ (ws2 ++ [']'])) ++ x =
                    ws1 ++ (c' :: (tok' ++ (ws2 ++ ']' :: x))) := by simp
                rw [e]
                exact dropWhile_append_stop _ _ hws1
                  (by intro d hd; simp only [List.head?_cons, Option.some.injEq] at hd
                      subst hd; exact hc)
              have hstop : ∀ d, (ws2 ++ ']' :: x).head? = some d →
                  (fun ch => !isWhitespace ch && ch != ']') d = false := by
                intro d hd
                cases ws2 with
                | nil =>
                  simp only [List.nil_append, List.head?_cons, Option.some.injEq] at hd
                  subst hd; decide
                | cons w ws =>
                  simp only [List.cons_append, List.head?_cons, Option.some.injEq] at hd
                  subst hd
                  simp [hw1 w (List.mem_cons_self _ _)]
              obtain ⟨t1, t2⟩ := takeWhile_append_stop (c' :: tok') (ws2 ++ ']' :: x)
                htokall hstop
              simp only [List.cons_append] at t1 t2
              unfold parseBracketSegment
              simp only [hd, if_neg hquote, t1, t2, if_neg htok, hval, hw3]
        · simp at h

theorem parsePathSegment_local {F : Type} (s : GoString) (v : Value F) (next : GoString)
    (h : parsePathSegment s = .segment v next) :
    ∃ a, a ≠ [] ∧ s = a ++ next ∧
      ∀ x, (∀ c, x.head? = some c → isIdentifierChar c = true → next.head? = some c) →
        parsePathSegment (F := F) (a ++ x) = .segment v x := by
  -- the part after the optional dot
  have hskip : ∃ p0 s1, s = p0 ++ s1 ∧ skipChar '.' s = s1 ∧
      ∀ y, y.head? = s1.head? → s1 ≠ [] → skipChar '.' (p0 ++ y) = y := by
    cases s with
    | nil => exact ⟨[], [], rfl, rfl, fun y _ h => absurd rfl h⟩
    | cons c0 r0 =>
      by_cases hc0 : c0 = '.'
      · subst hc0
        exact ⟨['.'], r0, rfl, by simp [skipChar], fun y _ _ => by simp [skipChar]⟩
      · refine ⟨[], c0 :: r0, rfl, by simp [skipChar, hc0], fun y hy _ => ?_⟩
        apply skipChar_of_ne
        rw [List.nil_append, hy]
        simpa using hc0
  obtain ⟨p0, s1, hs, hsk, hskx⟩ := hskip
  unfold parsePathSegment at h
  simp only [hsk] at h
  cases s1 with
  | nil => simp at h
  | cons c r =>
    -- it suffices to find the part `a1` of `c :: r` that the segment takes
    suffices hmain : ∃ a1, a1.head? = some c ∧ c :: r = a1 ++ next ∧
        ∀ x, (∀ d, x.head? = some d → isIdentifierChar d = true → next.head? = some d) →
          parsePathSegment (F := F) (a1 ++ x) = .segment v x ∧
          skipChar '.' (a1 ++ x) = a1 ++ x by
      obtain ⟨a1, h1, h2, h3⟩ := hmain
      have ha1 : a1 ≠ [] := by rintro rfl; simp at h1
      refine ⟨p0 ++ a1, by simp [ha1], by rw [hs, h2, List.append_assoc], fun x hx => ?_⟩
      have hy : (a1 ++ x).head? = (c :: r).head? := by
        cases a1 with
        | nil => exact absurd rfl ha1
        | cons d a1' => simpa using h1
      obtain ⟨h3a, h3b⟩ := h3 x hx
      have := hskx (a1 ++ x) hy (List.cons_ne_nil _ _)
      rw [List.append_assoc]
      unfold parsePathSegment at h3a ⊢
      rw [this]
      rw [h3b] at h3a
      exact h3a
    simp only [] at h
    by_cases hb : c = '['
    · subst hb
      rw [if_pos rfl] at h
      cases hp : parseBracketSegment (F := F) r with
      | error e => rw [hp] at h; simp at h
      | ok res =>
        obtain ⟨val, nx⟩ := res
        rw [hp] at h
        simp only [SegmentStep.segment.injEq] at h
        obtain ⟨rfl, rfl⟩ := h
        obtain ⟨a, _, ha2, ha3⟩ := parseBracketSegment_local r val nx hp
        refine ⟨'[' :: a, rfl, by rw [ha2]; simp, fun x _ => ?_⟩
        simp only [List.cons_append, parsePathSegment, skipChar,
          show ¬ ('[' = '.') by decide, if_false, if_true, ha3 x, and_self]
    · rw [if_neg hb] at h
      by_cases hq : c = '\'' ∨ c = '"'
      · rw [if_pos hq] at h
        cases hp : parseQuotedString (c :: r) with
        | error e => rw [hp] at h; simp at h
        | ok res =>
          obtain ⟨val, nx⟩ := res
          rw [hp] at h
          simp only [SegmentStep.segment.injEq] at h
          obtain ⟨rfl, rfl⟩ := h
          obtain ⟨a, ha1, ha2, ha3, ha4⟩ := parseQuotedString_local (c :: r) val nx
            (by simp only [List.head?_cons, Option.some.injEq]; tauto) hp
          have hcd : c ≠ '.' := by rcases hq with rfl | rfl <;> decide
          refine ⟨a, by simpa using ha3, ha2, fun x _ => ?_⟩
          cases a with
          | nil => exact absurd rfl ha1
          | cons d a' =>
            simp only [List.head?_cons, Option.some.injEq] at ha3
            subst ha3
            have := ha4 x
            simp only [List.cons_append] at this ⊢
            simp only [parsePathSegment, skipChar, hcd, if_false, hb, hq, if_true, this, and_self]
      · rw [if_neg hq] at h
        by_cases hi : isIdentifierChar c = true
        · simp only [hi, Bool.not_true, Bool.false_eq_true, if_false,
            SegmentStep.segment.injEq, Value.str.injEq] at h
          obtain ⟨rfl, rfl⟩ := h
          have hcd : c ≠ '.' := isIdentifierChar_ne hi (by decide)
          have hth : ((c :: r).takeWhile isIdentifierChar).head? = some c := by
            simp [List.takeWhile, hi]
          refine ⟨(c :: r).takeWhile isIdentifierChar, hth,
            (List.takeWhile_append_dropWhile _ _).symm, fun x hx => ?_⟩
          have hxs : ∀ d, x.head? = some d → isIdentifierChar d = false := by
            intro d hd
            cases hdi : isIdentifierChar d with
            | false => rfl
            | true =>
              have := dropWhile_head (p := isIdentifierChar) (c :: r) d (hx d hd hdi)
              rw [hdi] at this; cases this
          obtain ⟨t1, t2⟩ := takeWhile_append_stop ((c :: r).takeWhile isIdentifierChar) x
            (takeWhile_all _) hxs
          have e : (c :: r).takeWhile isIdentifierChar =
              c :: r.takeWhile isIdentifierChar := by simp [List.takeWhile, hi]
          rw [e] at t1 t2 ⊢
          simp only [List.cons_append] at t1 t2 ⊢
          simp only [parsePathSegment, skipChar, hcd, if_false, hb, hq, hi, Bool.not_true,
            Bool.false_eq_true, t1, t2, and_self]
        · simp [hi] at h

theorem skipChar_cases (ch : Char) (s : GoString) :
    (skipChar ch s = s ∧ s.head? ≠ some ch) ∨ s = ch :: skipChar ch s := by
  cases s with
  | nil => left; simp [skipChar]
  | cons c r =>
    by_cases h : c = ch
    · right; simp [skipChar, h]
    · left; simp [skipChar, h]

theorem skipChar_length (ch : Char) (s : GoString) : (skipChar ch s).length ≤ s.length := by
  rcases skipChar_cases ch s with ⟨h, _⟩ | h
  · rw [h]
  · conv_rhs => rw [h]
    simp

theorem afterPathSegment_again_iff (x y : GoString) :
    afterPathSegment x = .again y ↔
      skipChar '?' x = y ∧ (y.head? = some '.' ∨ y.head? = some '[') := by
  unfold afterPathSegment
  simp only []
  cases hs : skipChar '?' x with
  | nil =>
    simp only []
    constructor
    · intro h; cases h
    · rintro ⟨rfl, h⟩; simp at h
  | cons c r =>
    simp only []
    by_cases hc : c = '.' ∨ c = '['
    · rw [if_pos hc]
      constructor
      · intro h
        simp only [SegmentTail.again.injEq] at h
        subst h
        exact ⟨rfl, by simpa using hc⟩
      · rintro ⟨rfl, _⟩; rfl
    · rw [if_neg hc]
      constructor
      · intro h; split at h <;> cases h
      · rintro ⟨rfl, h⟩
        exact absurd (by simpa using h) hc

theorem afterPathSegment_skip (x : GoString) (h : x.head? ≠ some '?') :
    afterPathSegment ('?' :: x) = afterPathSegment x := by
  unfold afterPathSegment
  rw [skipChar_of_ne '?' x h]
  simp [skipChar]

theorem parsePathSegment_next_length {F : Type} (s : GoString) (v : Value F) (next : GoString)
    (h : parsePathSegment s = .segment v next) : next.length < s.length := by
  obtain ⟨a, ha1, ha2, _⟩ := parsePathSegment_local s v next h
  have := List.length_pos.2 ha1
  rw [ha2, List.length_append]
  omega

theorem afterPathSegment_again_length (x y : GoString) (h : afterPathSegment x = .again y) :
    y.length ≤ x.length := by
  rw [← ((afterPathSegment_again_iff x y).1 h).1]
  exact skipChar_length _ _

/-- More fuel than the length of the input changes nothing. -/
theorem parsePathLoop_fuel {F : Type} (f : Nat) :
    ∀ (s : GoString) (acc : List (Value F)), s.length < f →
      parsePathLoop (f + 1) s acc = parsePathLoop f s acc := by
  induction f with
  | zero => intro s acc h; omega
  | succ f ih =>
    intro s acc h
    rw [parsePathLoop, parsePathLoop]
    by_cases hs : s = []
    · rw [if_pos hs, if_pos hs]
    · rw [if_neg hs, if_neg hs]
      cases hp : parsePathSegment (F := F) s with
      | stop rest => rfl
      | fail err => rfl
      | segment v next =>
        simp only []
        have h1 := parsePathSegment_next_length s v next hp
        cases ha : afterPathSegment next with
        | stop rest => rfl
        | fail err => rfl
        | again rest =>
          simp only []
          have h2 := afterPathSegment_again_length next rest ha
          exact ih rest (acc ++ [v]) (by omega)

/-- Inserting `?` right after a segment that is not followed by `?` leaves the
result of the path loop as it is. -/
theorem parsePathLoop_insert {F : Type} (fuel : Nat) :
    ∀ (s : GoString) (acc : List (Value F)) (b : GoString), s.length < fuel →
      b ∈ segmentEndsLoop F fuel s → b.head? ≠ some '?' →
      ∃ a, a ≠ [] ∧ s = a ++ b ∧
        parsePathLoop (fuel + 1) (a ++ '?' :: b) acc = parsePathLoop fuel s acc := by
  induction fuel with
  | zero => intro s acc b h; omega
  | succ f ih =>
    intro s acc b hlen hb hq
    rw [segmentEndsLoop] at hb
    by_cases hs : s = []
    · rw [if_pos hs] at hb; simp at hb
    · rw [if_neg hs] at hb
      cases hp : parsePathSegment (F := F) s with
      | stop rest => rw [hp] at hb; simp at hb
      | fail err => rw [hp] at hb; simp at hb
      | segment v next =>
        rw [hp] at hb
        simp only [List.mem_cons] at hb
        obtain ⟨a_s, ha1, ha2, hloc⟩ := parsePathSegment_local s v next hp
        have hnl := parsePathSegment_next_length s v next hp
        rcases hb with rfl | hb
        · -- the marker goes right after this segment
          refine ⟨a_s, ha1, ha2, ?_⟩
          have hseg : parsePathSegment (F := F) (a_s ++ '?' :: b) = .segment v ('?' :: b) :=
            hloc ('?' :: b) (by
              intro c hc hi
              simp only [List.head?_cons, Option.some.injEq] at hc
              subst hc
              exact absurd hi (by decide))
          have hne : a_s ++ '?' :: b ≠ [] := by simp
          rw [parsePathLoop, if_neg hne, hseg]
          conv_rhs => rw [parsePathLoop, if_neg hs, hp]
          simp only [afterPathSegment_skip b hq]
          cases ha : afterPathSegment b with
          | stop rest => rfl
          | fail err => rfl
          | again rest =>
            simp only []
            have h2 := afterPathSegment_again_length b rest ha
            exact parsePathLoop_fuel f rest (acc ++ [v]) (by omega)
        · -- the marker goes after a later segment
          cases ha : afterPathSegment next with
          | stop rest => rw [ha] at hb; simp at hb
          | fail err => rw [ha] at hb; simp at hb
          | again rest =>
            rw [ha] at hb
            simp only [] at hb
            have h2 := afterPathSegment_again_length next rest ha
            obtain ⟨hsk, hhead⟩ := (afterPathSegment_again_iff next rest).1 ha
            obtain ⟨a', ha'1, ha'2, ha'3⟩ := ih rest (acc ++ [v]) b (by omega) hb hq
            have hhead' : (a' ++ '?' :: b).head? = rest.head? := by
              rw [ha'2]
              cases a' with
              | nil => exact absurd rfl ha'1
              | cons d a'' => simp
            have hnq : rest.head? ≠ some '?' := by
              rcases hhead with h | h <;> rw [h] <;> simp
            rcases skipChar_cases '?' next with ⟨hk, hk2⟩ | hk
            · -- no marker after this segment
              rw [hsk] at hk
              subst hk
              refine ⟨a_s ++ a', by simp [ha1], by rw [ha2, ha'2, List.append_assoc], ?_⟩
              have hseg : parsePathSegment (F := F) (a_s ++ (a' ++ '?' :: b)) =
                  .segment v (a' ++ '?' :: b) :=
                hloc _ (by intro c hc _; rw [← hhead', hc])
              have hne : a_s ++ (a' ++ '?' :: b) ≠ [] := by simp [ha1]
              have haft : afterPathSegment (a' ++ '?' :: b) = .again (a' ++ '?' :: b) :=
                (afterPathSegment_again_iff _ _).2
                  ⟨skipChar_of_ne _ _ (by rw [hhead']; exact hnq), by rw [hhead']; exact hhead⟩
              rw [List.append_assoc, parsePathLoop, if_neg hne, hseg]
              conv_rhs => rw [parsePathLoop, if_neg hs, hp]
              simp only [haft, ha]
              exact ha'3
            · -- a marker stands after this segment already
              rw [hsk] at hk
              refine ⟨a_s ++ ('?' :: a'), by simp, by rw [ha2, hk, ha'2]; simp, ?_⟩
              have hseg : parsePathSegment (F := F) (a_s ++ ('?' :: (a' ++ '?' :: b))) =
                  .segment v ('?' :: (a' ++ '?' :: b)) :=
                hloc _ (by
                  intro c hc hi
                  simp only [List.head?_cons, Option.some.injEq] at hc
                  subst hc
                  exact absurd hi (by decide))
              have hne : a_s ++ ('?' :: (a' ++ '?' :: b)) ≠ [] := by simp
              have haft : afterPathSegment ('?' :: (a' ++ '?' :: b)) =
                  .again (a' ++ '?' :: b) :=
                (afterPathSegment_again_iff _ _).2
                  ⟨by simp [skipChar], by rw [hhead']; exact hhead⟩
              have e : a_s ++ '?' :: a' ++ '?' :: b = a_s ++ ('?' :: (a' ++ '?' :: b)) := by
                simp
              rw [e, parsePathLoop, if_neg hne, hseg]
              conv_rhs => rw [parsePathLoop, if_neg hs, hp]
              simp only [haft, ha]
              exact ha'3

theorem TrimSpace_sandwich (lead raw trail : GoString)
    (hl : ∀ c ∈ lead, isSpace c = true) (ht : ∀ c ∈ trail, isSpace c = true)
    (h1 : ∀ c, raw.head? = some c → isSpace c = false)
    (h2 : ∀ c, raw.getLast? = some c → isSpace c = false) (hne : raw ≠ []) :
    TrimSpace (lead ++ raw ++ trail) = raw := by
  unfold TrimSpace
  have hd : (lead ++ raw ++ trail).dropWhile isSpace = raw ++ trail := by
    rw [List.append_assoc]
    apply dropWhile_append_stop _ _ hl
    intro c hc
    cases raw with
    | nil => exact absurd rfl hne
    | cons a r => exact h1 c (by simpa using hc)
  rw [hd, List.rdropWhile, List.reverse_append]
  rw [dropWhile_append_stop _ _ (by intro c hc; exact ht c (List.mem_reverse.1 hc))
    (by intro c hc; rw [List.head?_reverse] at hc; exact h2 c hc)]
  exact List.reverse_reverse raw

theorem TrimSpace_decompose (s : GoString) :
    ∃ trail, (∀ c ∈ trail, isSpace c = true) ∧
      s = s.takeWhile isSpace ++ TrimSpace s ++ trail := by
  refine ⟨((s.dropWhile isSpace).reverse.takeWhile isSpace).reverse, ?_, ?_⟩
  · intro c hc
    exact takeWhile_all _ c (List.mem_reverse.1 hc)
  · have h1 : s = s.takeWhile isSpace ++ s.dropWhile isSpace :=
      (List.takeWhile_append_dropWhile _ _).symm
    have h2 : s.dropWhile isSpace =
        TrimSpace s ++ ((s.dropWhile isSpace).reverse.takeWhile isSpace).reverse := by
      unfold TrimSpace List.rdropWhile
      rw [← List.reverse_append, List.takeWhile_append_dropWhile, List.reverse_reverse]
    rw [List.append_assoc, ← h2, ← h1]

theorem insertAt_append (p q : GoString) (c : Char) :
    insertAt p.length c (p ++ q) = p ++ c :: q := by
  simp [insertAt]

/-- For a string whose trimmed form starts with `.`, the result depends on the
trimmed form only through `parsePathExpression`. -/
theorem parseFilterExpression_dot_congr {F : Type} (lib : GoLib F) (s s' r r' : GoString)
    (ht : TrimSpace s = '.' :: r) (ht' : TrimSpace s' = '.' :: r')
    (hp : parsePathExpression (F := F) ('.' :: r') = parsePathExpression ('.' :: r)) :
    parseFilterExpression lib s' = parseFilterExpression lib s := by
  have key : ∀ (t u : GoString), TrimSpace t = '.' :: u →
      parseFilterExpression lib t =
        match parsePathExpression (F := F) ('.' :: u) with
        | .error err => .error err
        | .ok pathResult =>
          if (if HasPrefix (TrimSpace pathResult.rest) "?".toList then
                TrimSpace ((TrimSpace pathResult.rest).drop 1)
              else TrimSpace pathResult.rest) = [] then
            .ok { kind := "exists", path := pathResult.path }
          else
            match parseOperatorAndValue lib
              (if HasPrefix (TrimSpace pathResult.rest) "?".toList then
                TrimSpace ((TrimSpace pathResult.rest).drop 1)
              else TrimSpace pathResult.rest) with
            | .error err => .error err
            | .ok opResult =>
              .ok { kind := "compare", path := pathResult.path,
                    operator := opResult.operator, value := opResult.value } := by
    intro t u htu
    have hid : TrimSpace ('.' :: u) = '.' :: u := by rw [← htu, TrimSpace_idem]
    have hsel : HasPrefix (ToLower lib ('.' :: u)) "select(".toList = false := by rfl
    have hshort : parseMessageContainsShorthand (F := F) ('.' :: u) = none := by
      unfold parseMessageContainsShorthand
      rw [hid]
      simp [HasPrefix]
    have hregex : parseRegexShorthand lib ('.' :: u) = .ok {} := by
      unfold parseRegexShorthand
      rw [hid]
      simp [HasPrefix]
    unfold parseFilterExpression
    simp only [htu, hsel, hshort, hregex]
    simp
  rw [key s r ht, key s' r' ht', hp]

theorem insertAt_middle (lead p q trail : GoString) (c : Char) :
    insertAt (lead.length + p.length) c (lead ++ (p ++ q) ++ trail) =
      lead ++ (p ++ c :: q) ++ trail := by
  have e : lead ++ (p ++ q) ++ trail = (lead ++ p) ++ (q ++ trail) := by simp
  have l : lead.length + p.length = (lead ++ p).length := by simp
  rw [e, l, insertAt_append]
  simp

/-- C9: the optional-chaining marker changes nothing.  When a filter string
is accepted and its trimmed form is a path expression, inserting one `?`
right after a path segment that is not followed by `?` already gives a string
that is accepted and parses to the same expression. -/
theorem optional_marker_noop {F : Type} (lib : GoLib F) (s : GoString)
    (e : filterExpression F) (k : Nat)
    (hok : parseFilterExpression lib s = .ok e)
    (hk : k ∈ pathSegmentEnds F (TrimSpace s))
    (hq : (TrimSpace s)[k]? ≠ some '?') :
    parseFilterExpression lib (insertAt ((s.takeWhile isSpace).length + k) '?' s) = .ok e := by
  cases hraw : TrimSpace s with
  | nil => rw [hraw] at hk; simp [pathSegmentEnds] at hk
  | cons c0 r0 =>
    rw [hraw] at hk hq
    by_cases hc0 : c0 = '.'
    swap
    · unfold pathSegmentEnds at hk
      split at hk
      · rename_i heq
        simp only [List.cons.injEq] at heq
        exact absurd heq.1 hc0
      · simp at hk
    subst hc0
    simp only [pathSegmentEnds, List.mem_map] at hk
    obtain ⟨b, hb, hkb⟩ := hk
    -- the string around the insertion point
    have hins0 : ∀ acc : List (Value F), ∀ hq' : b.head? ≠ some '?',
        ∃ a, a ≠ [] ∧ r0 = a ++ b ∧
          parsePathLoop (r0.length + 1 + 1) (a ++ '?' :: b) acc =
            parsePathLoop (r0.length + 1) r0 acc :=
      fun acc hq' => parsePathLoop_insert (r0.length + 1) r0 acc b (Nat.lt_succ_self _) hb hq'
    -- `b` is a suffix of `r0`, whatever its head
    have hsuffix : ∃ a, r0 = a ++ b := by
      have : ∀ (fuel : Nat) (t : GoString), b ∈ segmentEndsLoop F fuel t → ∃ a, t = a ++ b := by
        intro fuel
        induction fuel with
        | zero => intro t h; simp [segmentEndsLoop] at h
        | succ f ih =>
          intro t h
          rw [segmentEndsLoop] at h
          by_cases hs : t = []
          · rw [if_pos hs] at h; simp at h
          · rw [if_neg hs] at h
            cases hp : parsePathSegment (F := F) t with
            | stop rest => rw [hp] at h; simp at h
            | fail err => rw [hp] at h; simp at h
            | segment v next =>
              rw [hp] at h
              simp only [List.mem_cons] at h
              obtain ⟨a_s, _, ha2, _⟩ := parsePathSegment_local t v next hp
              rcases h with rfl | h
              · exact ⟨a_s, ha2⟩
              · cases ha : afterPathSegment next with
                | stop rest => rw [ha] at h; simp at h
                | fail err => rw [ha] at h; simp at h
                | again rest =>
                  rw [ha] at h
                  obtain ⟨a', ha'⟩ := ih rest h
                  obtain ⟨hsk, _⟩ := (afterPathSegment_again_iff next rest).1 ha
                  rcases skipChar_cases '?' next with ⟨hk1, _⟩ | hk1
                  · rw [hsk] at hk1
                    exact ⟨a_s ++ a', by rw [ha2, ← hk1, ha', List.append_assoc]⟩
                  · rw [hsk] at hk1
                    exact ⟨a_s ++ '?' :: a', by rw [ha2, hk1, ha']; simp⟩
      exact this _ _ hb
    obtain ⟨a0, ha0⟩ := hsuffix
    have hkval : k = ('.' :: a0).length := by
      rw [← hkb, ha0]
      simp only [List.length_cons, List.length_append]
      omega
    have hq' : b.head? ≠ some '?' := by
      intro hb'
      apply hq
      rw [hkval, ha0]
      have : ('.' :: (a0 ++ b)) = ('.' :: a0) ++ b := rfl
      rw [this, List.getElem?_append_right (le_refl _)]
      simp only [Nat.sub_self]
      cases b with
      | nil => simp at hb'
      | cons d t => simpa using hb'
    obtain ⟨a, ha1, ha2, ha3⟩ := hins0 [] hq'
    have haa : a = a0 := by
      have := ha2.symm.trans ha0
      exact List.append_cancel_right this
    subst haa
    -- the trimmed form of the new string
    obtain ⟨trail, htr1, htr2⟩ := TrimSpace_decompose s
    rw [hraw, ha2] at htr2
    have hnew : insertAt ((s.takeWhile isSpace).length + k) '?' s =
        s.takeWhile isSpace ++ ('.' :: (a ++ '?' :: b)) ++ trail := by
      rw [hkval]
      conv_lhs => arg 3; rw [htr2]
      exact insertAt_middle (s.takeWhile isSpace) ('.' :: a) b trail '?'
    have htrim' : TrimSpace (insertAt ((s.takeWhile isSpace).length + k) '?' s) =
        '.' :: (a ++ '?' :: b) := by
      rw [hnew]
      apply TrimSpace_sandwich _ _ _ (takeWhile_all s) htr1
      · intro c hc
        simp only [List.head?_cons, Option.some.injEq] at hc
        subst hc; decide
      · intro c hc
        have e : '.' :: (a ++ '?' :: b) = ('.' :: a ++ ['?']) ++ b := by simp
        rw [e] at hc
        rcases getLast?_append_some hc with h | ⟨_, h⟩
        · apply TrimSpace_getLast (s := s)
          rw [hraw, ha2]
          have e' : '.' :: (a ++ b) = ('.' :: a) ++ b := rfl
          rw [e', List.getLast?_append, h]
          rfl
        · rw [List.getLast?_concat] at h
          simp only [Option.some.injEq] at h
          subst h; decide
      · simp
    have hpath : parsePathExpression (F := F) ('.' :: (a ++ '?' :: b)) =
        parsePathExpression ('.' :: r0) := by
      simp only [parsePathExpression]
      have hl : (a ++ '?' :: b).length + 1 = r0.length + 1 + 1 := by
        rw [ha2]; simp only [List.length_append, List.length_cons]; omega
      rw [hl, ha3]
    rw [parseFilterExpression_dot_congr lib s _ r0 (a ++ '?' :: b) hraw htrim' hpath]
    exact hok

theorem optional_marker_noop_witness :
    parseFilterExpression decimalLib (insertAt (2 + 2) '?' "  .a[0].b >= 3 ".toList) =
      .ok { kind := "compare", path := [Value.str "a".toList, Value.int 0, Value.str "b".toList],
            operator := ">=".toList, value := Value.num { mant := 3, scale := 0 } } :=
  optional_marker_noop decimalLib "  .a[0].b >= 3 ".toList _ 2 (by rfl) (by decide) (by decide)

/-! ### Severity by number (C20) -/

/-- C20, the claim at the number severity `1e30`, which JSON decodes to the
`float64` 1000000000000000019884624838656: its integer part is 60 or more, so
that the claim places it in `fatal` with that rank, and the conversion `int(v)`
gives the least `int`, so that `normalizeLevel` returns `unknown` with the rank
`-2^63`. -/
theorem normalizeLevel_huge_counterexample :
    (60 : Int) ≤ Dec.trunc { mant := 1000000000000000019884624838656, scale := 0 } ∧
    levelFromNumber (Dec.trunc { mant := 1000000000000000019884624838656, scale := 0 }) =
      ("fatal".toList, 1000000000000000019884624838656) ∧
    normalizeLevel decimalLib (Value.num { mant := 1000000000000000019884624838656, scale := 0 }) =
      ("unknown".toList, -(2 ^ 63)) ∧
    normalizeLevel decimalLib (Value.num { mant := 1000000000000000019884624838656, scale := 0 }) ≠
      levelFromNumber (Dec.trunc { mant := 1000000000000000019884624838656, scale := 0 }) := by
  refine ⟨by decide, by decide, by decide, by decide⟩

/-- C20, amended: `levelFromNumber` returns the rank `n` unchanged, with the
name `fatal` for `n ≥ 60`, `error` for `50 ≤ n < 60`, `warn` for
`40 ≤ n < 50`, `info` for `30 ≤ n < 40`, `debug` for `20 ≤ n < 30`, `trace`
for `10 ≤ n < 20` and `unknown` for `n < 10`.  With `trunc v` the integer part
of a `float64`, and a library whose conversion `int(v)` is the integer part
whenever that is in the range of `int` (as Go defines the conversion), a
number severity whose integer part is in the range of `int` gets the level
and the rank of its integer part. -/
theorem levelFromNumber_buckets {F : Type} (lib : GoLib F) (trunc : F → Int)
    (hconv : ∀ v, -(2 ^ 63) ≤ trunc v → trunc v < 2 ^ 63 → lib.intOfFloat v = trunc v)
    (n : Int) :
    (levelFromNumber n).2 = n ∧
    (60 ≤ n → (levelFromNumber n).1 = "fatal".toList) ∧
    (50 ≤ n → n < 60 → (levelFromNumber n).1 = "error".toList) ∧
    (40 ≤ n → n < 50 → (levelFromNumber n).1 = "warn".toList) ∧
    (30 ≤ n → n < 40 → (levelFromNumber n).1 = "info".toList) ∧
    (20 ≤ n → n < 30 → (levelFromNumber n).1 = "debug".toList) ∧
    (10 ≤ n → n < 20 → (levelFromNumber n).1 = "trace".toList) ∧
    (n < 10 → (levelFromNumber n).1 = "unknown".toList) ∧
    (∀ v : F, -(2 ^ 63) ≤ trunc v → trunc v < 2 ^ 63 →
      normalizeLevel lib (Value.num v) = levelFromNumber (trunc v) ∧
      (normalizeLevel lib (Value.num v)).2 = trunc v) := by
  have hrank : ∀ m : Int, (levelFromNumber m).2 = m := by
    intro m
    unfold levelFromNumber
    split_ifs <;> rfl
  have hnum : ∀ v : F, -(2 ^ 63) ≤ trunc v → trunc v < 2 ^ 63 →
      normalizeLevel lib (Value.num v) = levelFromNumber (trunc v) := by
    intro v h1 h2
    show levelFromNumber (lib.intOfFloat v) = levelFromNumber (trunc v)
    rw [hconv v h1 h2]
  refine ⟨hrank n, ?_, ?_, ?_, ?_, ?_, ?_, ?_,
    fun v h1 h2 => ⟨hnum v h1 h2, by rw [hnum v h1 h2]; exact hrank _⟩⟩
  all_goals
    unfold levelFromNumber
    intros
    split_ifs <;> first | rfl | omega

/-- The conversion `int(v)` of the decimal library is the integer part in the
range of `int`. -/
theorem decimalLib_intOfFloat (v : Dec) (h1 : -(2 ^ 63) ≤ v.trunc) (h2 : v.trunc < 2 ^ 63) :
    decimalLib.intOfFloat v = v.trunc := by
  show (if -(2 ^ 63) ≤ v.trunc ∧ v.trunc < 2 ^ 63 then v.trunc else -(2 ^ 63)) = v.trunc
  rw [if_pos ⟨h1, h2⟩]

/-- C20 at the integers 45 and -3 and at the numbers 40.5 and -0.5, whose
integer parts are 40 and 0. -/
theorem levelFromNumber_buckets_witness :
    levelFromNumber 45 = ("warn".toList, 45) ∧ levelFromNumber (-3) = ("unknown".toList, -3) ∧
    normalizeLevel decimalLib (Value.num { mant := 405, scale := 1 }) = ("warn".toList, 40) ∧
    normalizeLevel decimalLib (Value.num { mant := -5, scale := 1 }) = ("unknown".toList, 0) :=
  ⟨by
    have h := levelFromNumber_buckets decimalLib Dec.trunc decimalLib_intOfFloat 45
    exact Prod.ext (h.2.2.2.1 (by decide) (by decide)) h.1,
   by
    have h := levelFromNumber_buckets decimalLib Dec.trunc decimalLib_intOfFloat (-3)
    exact Prod.ext (h.2.2.2.2.2.2.2.1 (by decide)) h.1,
   by
    have h := levelFromNumber_buckets decimalLib Dec.trunc decimalLib_intOfFloat 0
    exact (h.2.2.2.2.2.2.2.2 { mant := 405, scale := 1 } (by decide) (by decide)).1.trans
      (by decide),
   by
    have h := levelFromNumber_buckets decimalLib Dec.trunc decimalLib_intOfFloat 0
    exact (h.2.2.2.2.2.2.2.2 { mant := -5, scale := 1 } (by decide) (by decide)).1.trans
      (by decide)⟩

/-! ### Path resolution (C16) -/

theorem getValueAtPath_null {F : Type} (path : List (Value F)) :
    getValueAtPath (Value.null : Value F) path = Value.null := by
  cases path <;> rfl

theorem getValueAtPath_nil {F : Type} (v : Value F) : getValueAtPath v [] = v := by
  cases v <;> rfl

theorem getValueAtPath_append {F : Type} (v : Value F) (p q : List (Value F)) :
    getValueAtPath v (p ++ q) = getValueAtPath (getValueAtPath v p) q := by
  induction p generalizing v with
  | nil => rw [getValueAtPath_nil]; rfl
  | cons seg p ih =>
    cases v with
    | null => simp [getValueAtPath, getValueAtPath_null]
    | bool b => cases seg <;> simp [getValueAtPath, getValueAtPath_null]
    | num f => cases seg <;> simp [getValueAtPath, getValueAtPath_null]
    | int n => cases seg <;> simp [getValueAtPath, getValueAtPath_null]
    | str s => cases seg <;> simp [getValueAtPath, getValueAtPath_null]
    | list xs =>
      cases seg <;> simp only [List.cons_append, getValueAtPath, getValueAtPath_null]
      split
      · exact (getValueAtPath_null q).symm
      · exact ih _
    | map kvs =>
      cases seg <;> simp only [List.cons_append, getValueAtPath, getValueAtPath_null]
      split
      · exact (getValueAtPath_null q).symm
      · exact ih _

/-- C16: `getValueAtPath` returns the value itself for the empty path; it
follows a string segment through a map that has the key and an integer
segment through a sequence with `0 ≤ index < length`; in every other case
(missing key, negative or out-of-range index, string segment on a value that
is not a map, integer segment on a value that is not a sequence, a segment
that is neither, any segment on null) it returns null; resolving a path is
resolving a prefix and then the rest, so a prefix that resolves to null makes
the whole path resolve to null. -/
theorem getValueAtPath_spec {F : Type} :
    (∀ v : Value F, getValueAtPath v [] = v) ∧
    (∀ (obj : List (GoString × Value F)) (key : GoString) (value : Value F)
        (rest : List (Value F)), mapGet obj key = some value →
        getValueAtPath (.map obj) (.str key :: rest) = getValueAtPath value rest) ∧
    (∀ (slice : List (Value F)) (idx : Int) (x : Value F) (rest : List (Value F)),
        0 ≤ idx → idx < slice.length → slice[idx.toNat]? = some x →
        getValueAtPath (.list slice) (.int idx :: rest) = getValueAtPath x rest) ∧
    (∀ (obj : List (GoString × Value F)) (key : GoString) (rest : List (Value F)),
        mapGet obj key = none → getValueAtPath (.map obj) (.str key :: rest) = .null) ∧
    (∀ (slice : List (Value F)) (idx : Int) (rest : List (Value F)),
        (idx < 0 ∨ (slice.length : Int) ≤ idx) →
        getValueAtPath (.list slice) (.int idx :: rest) = .null) ∧
    (∀ (cur : Value F) (key : GoString) (rest : List (Value F)),
        (∀ obj, cur ≠ .map obj) → getValueAtPath cur (.str key :: rest) = .null) ∧
    (∀ (cur : Value F) (idx : Int) (rest : List (Value F)),
        (∀ slice, cur ≠ .list slice) → getValueAtPath cur (.int idx :: rest) = .null) ∧
    (∀ (cur seg : Value F) (rest : List (Value F)),
        (∀ key, seg ≠ .str key) → (∀ idx, seg ≠ .int idx) →
        getValueAtPath cur (seg :: rest) = .null) ∧
    (∀ (seg : Value F) (rest : List (Value F)),
        getValueAtPath (.null : Value F) (seg :: rest) = .null) ∧
    (∀ (v : Value F) (p q : List (Value F)),
        getValueAtPath v (p ++ q) = getValueAtPath (getValueAtPath v p) q) ∧
    (∀ (v : Value F) (p q : List (Value F)),
        getValueAtPath v p = .null → getValueAtPath v (p ++ q) = .null) := by
  refine ⟨getValueAtPath_nil, ?_, ?_, ?_, ?_, ?_, ?_, ?_, fun _ _ => rfl,
    getValueAtPath_append, ?_⟩
  · intro obj key value rest h
    simp [getValueAtPath, h]
  · intro slice idx x rest h0 h1 hx
    have hn : ¬ (idx < 0 ∨ idx ≥ (slice.length : Int)) := by omega
    simp only [getValueAtPath, hn, if_false]
    have : slice.getD idx.toNat .null = x := by
      rw [List.getD_eq_getElem?_getD, hx]; rfl
    rw [this]
  · intro obj key rest h
    simp [getValueAtPath, h]
  · intro slice idx rest h
    have hn : idx < 0 ∨ idx ≥ (slice.length : Int) := by omega
    simp [getValueAtPath, hn]
  · intro cur key rest h
    cases cur with
    | map obj => exact absurd rfl (h obj)
    | _ => simp [getValueAtPath]
  · intro cur idx rest h
    cases cur with
    | list slice => exact absurd rfl (h slice)
    | _ => simp [getValueAtPath]
  · intro cur seg rest h1 h2
    cases seg with
    | str key => exact absurd rfl (h1 key)
    | int idx => exact absurd rfl (h2 idx)
    | _ => cases cur <;> simp [getValueAtPath]
  · intro v p q h
    rw [getValueAtPath_append, h, getValueAtPath_null]

/-! ### The filter scope (C15) -/

theorem mapGet_mapSet_same {F : Type} (m : List (GoString × Value F)) (k : GoString)
    (v : Value F) : mapGet (mapSet m k v) k = some v := by
  induction m with
  | nil => simp [mapSet, mapGet]
  | cons kv m ih =>
    obtain ⟨k1, v1⟩ := kv
    by_cases h : k1 = k
    · simp [mapSet, mapGet, h]
    · simp [mapSet, mapGet, h, ih]

theorem mapGet_mapSet_ne {F : Type} (m : List (GoString × Value F)) (k k' : GoString)
    (v : Value F) (h : k' ≠ k) : mapGet (mapSet m k v) k' = mapGet m k' := by
  induction m with
  | nil => simp [mapSet, mapGet, Ne.symm h]
  | cons kv m ih =>
    obtain ⟨k1, v1⟩ := kv
    by_cases h1 : k1 = k
    · subst h1
      simp [mapSet, mapGet, Ne.symm h]
    · by_cases h2 : k1 = k'
      · subst h2
        simp [mapSet, mapGet, h1]
      · simp [mapSet, mapGet, h1, h2, ih]

theorem mapGet_eq_none_of_not_mem {F : Type} (m : List (GoString × Value F)) (k : GoString)
    (h : k ∉ m.map Prod.fst) : mapGet m k = none := by
  induction m with
  | nil => rfl
  | cons kv m ih =>
    obtain ⟨k1, v1⟩ := kv
    simp only [List.map_cons, List.mem_cons, not_or] at h
    simp [mapGet, Ne.symm h.1, ih h.2]

/-- Copying a map with distinct keys entry by entry into a scope: a key of the
map gets the value of the map, any other key keeps what the scope had. -/
theorem mapGet_copy {F : Type} (fields : List (GoString × Value F))
    (hnd : (fields.map Prod.fst).Nodup) (scope : List (GoString × Value F)) (k : GoString) :
    mapGet (fields.foldl (fun scope kv => mapSet scope kv.1 kv.2) scope) k =
      match mapGet fields k with
      | some v => some v
      | none => mapGet scope k := by
  induction fields generalizing scope with
  | nil => rfl
  | cons kv fields ih =>
    obtain ⟨k1, v1⟩ := kv
    simp only [List.map_cons, List.nodup_cons] at hnd
    simp only [List.foldl_cons]
    rw [ih hnd.2]
    by_cases h : k1 = k
    · subst h
      simp [mapGet, mapGet_eq_none_of_not_mem fields k1 hnd.1, mapGet_mapSet_same]
    · simp only [mapGet, h, if_false]
      cases mapGet fields k with
      | some v => rfl
      | none => exact mapGet_mapSet_ne _ _ _ _ (Ne.symm h)

theorem mapGet_assignIfMissing {F : Type} (target : List (GoString × Value F))
    (key : GoString) (value : Value F) (k : GoString) :
    mapGet (assignIfMissing target key value) k =
      match mapGet target k with
      | some w => some w
      | none => if k = key then some value else none := by
  unfold assignIfMissing
  by_cases h : k = key
  · subst h
    cases hm : mapGet target k with
    | some w => simp [hm]
    | none => simp [hm, mapGet_mapSet_same]
  · cases hm : mapGet target key with
    | some w =>
      simp only [h, if_false]
      cases mapGet target k <;> rfl
    | none =>
      simp only [h, if_false]
      rw [mapGet_mapSet_ne _ _ _ _ h]
      cases mapGet target k <;> rfl

theorem getChannelValue_eq {F : Type} (entry : LogEntry F) :
    getChannelValue entry =
      match mapGet (entry.Fields.getD []) "channel".toList with
      | some v => v
      | none =>
        match mapGet (entry.Fields.getD []) "chanel".toList with
        | some v => v
        | none => .null := by
  unfold getChannelValue
  cases entry.Fields with
  | none => rfl
  | some fields => rfl

theorem orElse_ite {α : Type} (c : Prop) [Decidable c] (a : α) (r : Option α)
    (f : Unit → Option α) :
    (if c then some a else r).orElse f = if c then some a else r.orElse f := by
  split <;> rfl

theorem none_orElse_eq {α : Type} (f : Unit → Option α) : (none : Option α).orElse f = f () :=
  rfl

theorem some_orElse_eq {α : Type} (a : α) (f : Unit → Option α) : (some a).orElse f = some a :=
  rfl

theorem mapGet_assignIfMissing_orElse {F : Type} (target : List (GoString × Value F))
    (key : GoString) (value : Value F) (k : GoString) :
    mapGet (assignIfMissing target key value) k =
      (mapGet target k).orElse fun _ => if k = key then some value else none := by
  rw [mapGet_assignIfMissing]
  cases mapGet target k <;> rfl

theorem mapGet_copy_orElse {F : Type} (fields : List (GoString × Value F))
    (hnd : (fields.map Prod.fst).Nodup) (scope : List (GoString × Value F)) (k : GoString) :
    mapGet (fields.foldl (fun scope kv => mapSet scope kv.1 kv.2) scope) k =
      (mapGet fields k).orElse fun _ => mapGet scope k := by
  rw [mapGet_copy fields hnd]
  cases mapGet fields k <;> rfl

/-- The scope, key by key: a key of the payload has the value of the payload;
any other key is one of the seven metadata names, or `channel` / `chanel`
standing for the non-null value of the other spelling, or absent. -/
theorem buildFilterScope_lookup {F : Type} (entry : LogEntry F)
    (hnd : ((entry.Fields.getD []).map Prod.fst).Nodup) (k : GoString) :
    mapGet (buildFilterScope entry) k =
      match mapGet (entry.Fields.getD []) k with
      | some v => some v
      | none =>
        if k = "level".toList then some (.str entry.Level)
        else if k = "time".toList then some (.str entry.Time)
        else if k = "ingested".toList then some (.str entry.Ingested)
        else if k = "msg".toList then some (.str entry.Msg)
        else if k = "message".toList then some (.str entry.Msg)
        else if k = "raw".toList then some (.str entry.Raw)
        else if k = "parseError".toList then some (.str entry.ParseError)
        else if k = "channel".toList then
          match mapGet (entry.Fields.getD []) "chanel".toList with
          | some v => if v.isNull then none else some v
          | none => none
        else if k = "chanel".toList then
          match mapGet (entry.Fields.getD []) "channel".toList with
          | some v => if v.isNull then none else some v
          | none => none
        else none := by
  have hch := getChannelValue_eq entry
  unfold buildFilterScope
  simp only []
  cases hk : mapGet (entry.Fields.getD []) k with
  | some v =>
    split <;>
      simp only [mapGet_assignIfMissing_orElse, mapGet_copy_orElse _ hnd, hk, none_orElse_eq,
        some_orElse_eq]
  | none =>
    have tail :
        (if k = "channel".toList then
          match mapGet (entry.Fields.getD []) "chanel".toList with
          | some v => if v.isNull then none else some v
          | none => none
        else if k = "chanel".toList then
          match mapGet (entry.Fields.getD []) "channel".toList with
          | some v => if v.isNull then none else some v
          | none => none
        else none) =
        (if (getChannelValue entry).isNull = true then none
         else if k = "channel".toList then some (getChannelValue entry)
         else if k = "chanel".toList then some (getChannelValue entry) else none) := by
      by_cases h8 : k = "channel".toList
      · have hc0 : mapGet (entry.Fields.getD []) "channel".toList = none := h8 ▸ hk
        rw [hc0] at hch
        simp only [] at hch
        rw [if_pos h8, if_pos h8]
        cases hc : mapGet (entry.Fields.getD []) "chanel".toList with
        | none => rw [hc] at hch; rw [hch]; rfl
        | some v => rw [hc] at hch; simp only [] at hch; rw [hch]
      · rw [if_neg h8, if_neg h8]
        by_cases h9 : k = "chanel".toList
        · have hc1 : mapGet (entry.Fields.getD []) "chanel".toList = none := h9 ▸ hk
          rw [hc1] at hch
          rw [if_pos h9, if_pos h9]
          cases hc : mapGet (entry.Fields.getD []) "channel".toList with
          | none => rw [hc] at hch; rw [hch]; rfl
          | some v => rw [hc] at hch; simp only [] at hch; rw [hch]
        · rw [if_neg h9, if_neg h9]
          split <;> rfl
    simp only []
    rw [tail]
    split
    · rename_i hnn
      have hn : (getChannelValue entry).isNull = false := by simpa using hnn
      simp only [mapGet_assignIfMissing_orElse, mapGet_copy_orElse _ hnd, hk, none_orElse_eq,
        some_orElse_eq, mapGet, orElse_ite, hn, Bool.false_eq_true, if_false]
    · rename_i hnn
      have hn : (getChannelValue entry).isNull = true := by simpa using hnn
      simp only [mapGet_assignIfMissing_orElse, mapGet_copy_orElse _ hnd, hk, none_orElse_eq,
        some_orElse_eq, mapGet, orElse_ite, hn, if_true]

/-- C15: payload fields win over metadata in the filter scope.  For an entry
whose payload has distinct keys and every key `k`: when `k` is a key of the
payload the scope maps `k` to the payload's value (null included); otherwise
the scope maps `level`, `time`, `ingested`, `msg`, `message`, `raw` and
`parseError` to the entry's `Level`, `Time`, `Ingested`, `Msg`, `Msg`, `Raw`
and `ParseError`, maps `channel` (`chanel`) to the value of the payload's
`chanel` (`channel`) when that is present and not null, and has no other
key. -/
theorem scope_payload_wins {F : Type} (entry : LogEntry F)
    (hnd : ((entry.Fields.getD []).map Prod.fst).Nodup) :
    (∀ k v, mapGet (entry.Fields.getD []) k = some v →
      mapGet (buildFilterScope entry) k = some v) ∧
    (∀ k, mapGet (entry.Fields.getD []) k = none →
      mapGet (buildFilterScope entry) k =
        if k = "level".toList then some (.str entry.Level)
        else if k = "time".toList then some (.str entry.Time)
        else if k = "ingested".toList then some (.str entry.Ingested)
        else if k = "msg".toList then some (.str entry.Msg)
        else if k = "message".toList then some (.str entry.Msg)
        else if k = "raw".toList then some (.str entry.Raw)
        else if k = "parseError".toList then some (.str entry.ParseError)
        else if k = "channel".toList then
          match mapGet (entry.Fields.getD []) "chanel".toList with
          | some v => if v.isNull then none else some v
          | none => none
        else if k = "chanel".toList then
          match mapGet (entry.Fields.getD []) "channel".toList with
          | some v => if v.isNull then none else some v
          | none => none
        else none) := by
  constructor
  · intro k v hk
    rw [buildFilterScope_lookup entry hnd k, hk]
  · intro k hk
    rw [buildFilterScope_lookup entry hnd k, hk]

theorem scope_payload_wins_witness :
    mapGet (buildFilterScope (F := Int)
        { Level := "info".toList, Msg := "m".toList,
          Fields := some [("level".toList, Value.null), ("chanel".toList, Value.str "ops".toList)] })
      "level".toList = some Value.null ∧
    mapGet (buildFilterScope (F := Int)
        { Level := "info".toList, Msg := "m".toList,
          Fields := some [("level".toList, Value.null), ("chanel".toList, Value.str "ops".toList)] })
      "channel".toList = some (Value.str "ops".toList) :=
  ⟨(scope_payload_wins (F := Int)
      { Level := "info".toList, Msg := "m".toList,
        Fields := some [("level".toList, Value.null), ("chanel".toList, Value.str "ops".toList)] }
      (by decide)).1 "level".toList Value.null (by rfl),
   ((scope_payload_wins (F := Int)
      { Level := "info".toList, Msg := "m".toList,
        Fields := some [("level".toList, Value.null), ("chanel".toList, Value.str "ops".toList)] }
      (by decide)).2 "channel".toList (by rfl)).trans (by rfl)⟩

/-! ### Exists filters on payload keys (C14) -/

/-- The rendering of a path, when it starts with `.`, parses to the exists
expression on the path. -/
theorem parseFilterExpression_renderSegments {F : Type} (lib : GoLib F)
    (path : List (Value F)) (hp : ∀ v ∈ path, isPathSegment v) (s : GoString)
    (hs : renderSegments path = '.' :: s) :
    parseFilterExpression lib ('.' :: s) = .ok { kind := "exists", path := path } := by
  have hlen := renderSegments_length path hp
  have hne : path ≠ [] := by
    rintro rfl
    simp [renderSegments] at hs
  have hpl : 0 < path.length := List.length_pos.2 hne
  have hsl : (renderSegments path).length = s.length + 1 := by rw [hs]; simp
  apply parseFilterExpression_of_path lib s path
  · apply TrimSpace_eq_self
    · intro c hc
      simp only [List.head?_cons, Option.some.injEq] at hc
      subst hc; decide
    · intro c hc
      rw [← hs] at hc
      exact renderSegments_getLast path hp c hc
  · rw [← parsePathLoop_dot s.length s [] (renderSegments_tail_head path hp s hs), ← hs]
    have := parsePathLoop_render path [] (s.length + 1) hp (by omega)
    simpa using this

theorem evaluate_exists {F : Type} (lib : GoLib F) (path : List (Value F))
    (scope : List (GoString × Value F)) :
    evaluateFilterExpression lib { kind := "exists", path := path } scope =
      !(getValueAtPath (.map scope) path).isNull := by
  simp [evaluateFilterExpression]

theorem passes_single {F : Type} (lib : GoLib F) (entry : LogEntry F)
    (expr : filterExpression F) :
    passesFilterExpressions lib entry [expr] =
      evaluateFilterExpression lib expr (buildFilterScope entry) := by
  simp only [passesFilterExpressions, List.length_cons, List.length_nil, Nat.succ_ne_zero,
    if_false, passesFilterLoop]
  cases evaluateFilterExpression lib expr (buildFilterScope entry) <;> rfl

theorem getValueAtPath_key {F : Type} (scope : List (GoString × Value F)) (k : GoString)
    (rest : List (Value F)) :
    getValueAtPath (.map scope) (.str k :: rest) =
      match mapGet scope k with
      | some v => getValueAtPath v rest
      | none => .null := by
  simp only [getValueAtPath]
  cases mapGet scope k <;> rfl

/-- The scope at a key that is not a metadata name is the payload at that
key. -/
theorem buildFilterScope_payload_key {F : Type} (entry : LogEntry F)
    (hnd : ((entry.Fields.getD []).map Prod.fst).Nodup) (k : GoString)
    (hk : k ∉ scopeNames) :
    mapGet (buildFilterScope entry) k = mapGet (entry.Fields.getD []) k := by
  rw [buildFilterScope_lookup entry hnd k]
  simp only [scopeNames, List.mem_cons, List.mem_singleton, List.not_mem_nil, or_false,
    not_or] at hk
  obtain ⟨h1, h2, h3, h4, h5, h6, h7, h8, h9⟩ := hk
  cases mapGet (entry.Fields.getD []) k with
  | some v => rfl
  | none =>
    simp only []
    rw [if_neg h1, if_neg h2, if_neg h3, if_neg h4, if_neg h5, if_neg h6, if_neg h7, if_neg h8,
      if_neg h9]

/-- C14, the claim at a concrete entry: the payload of the entry holds the key
`x` with the non-null value `"1"`, and the exists filter parsed from
`.fields.x` does not match the entry. -/
theorem exists_fields_x_counterexample :
    mapGet (entryWithX.Fields.getD []) "x".toList = some (Value.str "1".toList) ∧
    parseFilterExpression demoLib ".fields.x".toList =
      .ok { kind := "exists", path := [Value.str "fields".toList, Value.str "x".toList] } ∧
    passesFilterExpressions demoLib entryWithX
      [{ kind := "exists", path := [Value.str "fields".toList, Value.str "x".toList] }] =
      false ∧
    ¬ (passesFilterExpressions demoLib entryWithX
        [{ kind := "exists", path := [Value.str "fields".toList, Value.str "x".toList] }] =
        true ↔
      ∃ v, mapGet (entryWithX.Fields.getD []) "x".toList = some v ∧ v.isNull = false) := by
  refine ⟨by rfl, by rfl, by rfl, ?_⟩
  intro h
  have := h.2 ⟨Value.str "1".toList, by rfl, by rfl⟩
  have hf : passesFilterExpressions demoLib entryWithX
      [{ kind := "exists", path := [Value.str "fields".toList, Value.str "x".toList] }] =
      false := by rfl
  rw [hf] at this
  cases this

/-- C14, amended: the scope is the payload itself, not a member named
`fields`.  For an entry whose payload has distinct keys and an identifier key
`x`: when `x` is not a metadata name of the scope, the exists filter parsed
from `.x` matches the entry exactly when the payload holds `x` with a
non-null value; the exists filter parsed from `.fields.x` matches exactly
when the payload has a member `fields` that is a map holding `x` with a
non-null value. -/
theorem exists_on_payload_key {F : Type} (lib : GoLib F) (entry : LogEntry F)
    (hnd : ((entry.Fields.getD []).map Prod.fst).Nodup) (x : GoString)
    (hx : isIdentifierKey x = true) :
    (parseFilterExpression lib ('.' :: x) = .ok { kind := "exists", path := [Value.str x] }) ∧
    (x ∉ scopeNames →
      (passesFilterExpressions lib entry [{ kind := "exists", path := [Value.str x] }] = true ↔
        ∃ v, mapGet (entry.Fields.getD []) x = some v ∧ v.isNull = false)) ∧
    (parseFilterExpression lib (".fields.".toList ++ x) =
      .ok { kind := "exists", path := [Value.str "fields".toList, Value.str x] }) ∧
    (passesFilterExpressions lib entry
        [{ kind := "exists", path := [Value.str "fields".toList, Value.str x] }] = true ↔
      ∃ inner v, mapGet (entry.Fields.getD []) "fields".toList = some (Value.map inner) ∧
        mapGet inner x = some v ∧ v.isNull = false) := by
  refine ⟨?_, ?_, ?_, ?_⟩
  · apply parseFilterExpression_renderSegments lib [Value.str x]
    · intro v hv
      simp only [List.mem_singleton] at hv
      subst hv; trivial
    · simp [renderSegments, renderSegment, hx]
  · intro hk
    rw [passes_single, evaluate_exists, getValueAtPath_key,
      buildFilterScope_payload_key entry hnd x hk]
    cases hm : mapGet (entry.Fields.getD []) x with
    | none => simp [Value.isNull]
    | some v =>
      simp only [getValueAtPath_nil, Bool.not_eq_true', Option.some.injEq, exists_eq_left']
  · have e : ".fields.".toList ++ x = '.' :: ("fields".toList ++ '.' :: x) := by simp
    rw [e]
    apply parseFilterExpression_renderSegments lib [Value.str "fields".toList, Value.str x]
    · intro v hv
      simp only [List.mem_cons, List.mem_singleton, List.not_mem_nil, or_false] at hv
      rcases hv with rfl | rfl <;> trivial
    · have hf : isIdentifierKey "fields".toList = true := by decide
      simp only [renderSegments, renderSegment, hf, hx, if_true]
      simp
  · rw [passes_single, evaluate_exists, getValueAtPath_key,
      buildFilterScope_payload_key entry hnd "fields".toList (by decide)]
    cases hm : mapGet (entry.Fields.getD []) "fields".toList with
    | none => simp [Value.isNull]
    | some w =>
      cases w with
      | map inner =>
        simp only []
        rw [getValueAtPath_key]
        cases hi : mapGet inner x with
        | none =>
          simp only [Value.isNull, Bool.not_true, Bool.false_eq_true, false_iff, not_exists]
          rintro inner' v ⟨h1, h2, _⟩
          simp only [Option.some.injEq, Value.map.injEq] at h1
          subst h1
          rw [hi] at h2
          cases h2
        | some v =>
          simp only [getValueAtPath_nil, Bool.not_eq_true']
          constructor
          · intro hv
            exact ⟨inner, v, rfl, hi, hv⟩
          · rintro ⟨inner', v', h1, h2, h3⟩
            simp only [Option.some.injEq, Value.map.injEq] at h1
            subst h1
            rw [hi] at h2
            simp only [Option.some.injEq] at h2
            subst h2
            exact h3
      | null => simp [getValueAtPath, Value.isNull]
      | bool b => simp [getValueAtPath, Value.isNull]
      | num f => simp [getValueAtPath, Value.isNull]
      | int n => simp [getValueAtPath, Value.isNull]
      | str t => simp [getValueAtPath, Value.isNull]
      | list xs => simp [getValueAtPath, Value.isNull]

theorem exists_on_payload_key_witness :
    (passesFilterExpressions demoLib entryWithX
        [{ kind := "exists", path := [Value.str "x".toList] }] = true ↔
      ∃ v, mapGet (entryWithX.Fields.getD []) "x".toList = some v ∧ v.isNull = false) :=
  (exists_on_payload_key demoLib entryWithX (by decide) "x".toList (by decide)).2.1 (by decide)

/-! ### Null and comparisons (C19) -/

/-- C19: a null never satisfies a comparison.  For every scope and every
expression of kind `compare` (whatever its operator and its literal) or
`regex`, when the path of the expression resolves to null the evaluation is
false.  In particular the filter `.x == null`, which parses to the comparison
of `x` with the literal null, matches no entry whose payload (of distinct
keys) lacks `x` or holds null at `x`. -/
theorem null_never_compares {F : Type} (lib : GoLib F) :
    (∀ (scope : List (GoString × Value F)) (expr : filterExpression F),
      (expr.kind = "compare" ∨ expr.kind = "regex") →
      getValueAtPath (.map scope) expr.path = .null →
      evaluateFilterExpression lib expr scope = false) ∧
    parseFilterExpression lib ".x == null".toList =
      .ok { kind := "compare", path := [Value.str "x".toList], operator := "==".toList,
            value := Value.null } ∧
    (∀ entry : LogEntry F, ((entry.Fields.getD []).map Prod.fst).Nodup →
      (mapGet (entry.Fields.getD []) "x".toList = none ∨
       mapGet (entry.Fields.getD []) "x".toList = some .null) →
      passesFilterExpressions lib entry
        [{ kind := "compare", path := [Value.str "x".toList], operator := "==".toList,
           value := Value.null }] = false) := by
  have hmain : ∀ (scope : List (GoString × Value F)) (expr : filterExpression F),
      (expr.kind = "compare" ∨ expr.kind = "regex") →
      getValueAtPath (.map scope) expr.path = .null →
      evaluateFilterExpression lib expr scope = false := by
    intro scope expr hk hnull
    unfold evaluateFilterExpression
    rcases hk with hk | hk
    · simp [hk, hnull, Value.isNull]
    · simp [hk, hnull, Value.isNull]
  refine ⟨hmain, by rfl, ?_⟩
  intro entry hnd hx
  rw [passes_single]
  apply hmain _ _ (Or.inl rfl)
  show getValueAtPath (.map (buildFilterScope entry)) [Value.str "x".toList] = .null
  rw [getValueAtPath_key, buildFilterScope_payload_key entry hnd "x".toList (by decide)]
  rcases hx with h | h
  · rw [h]
  · rw [h]; rfl

theorem null_never_compares_witness :
    passesFilterExpressions demoLib
      { Raw := "\x7b\"x\":null\x7d".toList, Level := "unknown".toList, Msg := "\x7b\"x\":null\x7d".toList,
        Fields := some [("x".toList, Value.null)] }
      [{ kind := "compare", path := [Value.str "x".toList], operator := "==".toList,
         value := Value.null }] = false :=
  (null_never_compares demoLib).2.2
    { Raw := "\x7b\"x\":null\x7d".toList, Level := "unknown".toList, Msg := "\x7b\"x\":null\x7d".toList,
      Fields := some [("x".toList, Value.null)] }
    (by decide) (Or.inr (by rfl))

/-! ### The string predicates and value equality (C18) -/

theorem Contains_iff (s sub : GoString) : Contains s sub = true ↔ sub <:+: s := by
  induction s with
  | nil =>
    simp only [Contains, List.isEmpty_iff]
    exact (List.infix_nil).symm
  | cons c s ih =>
    simp only [Contains, Bool.or_eq_true, ih, List.isPrefixOf_iff_prefix]
    exact (List.infix_cons_iff).symm

/-- C18: against a sequence, `contains` is true exactly when some element is
value-equal to the literal, where two values are value-equal when both coerce
to numbers and the numbers are equal, else when both are booleans and equal,
else when their string renderings are equal; against a value that is not a
sequence, `contains`, `startswith` and `endswith` are the substring, prefix
and suffix tests on the two string renderings. -/
theorem contains_and_string_predicates {F : Type} (lib : GoLib F) :
    (∀ (xs : List (Value F)) (e : Value F),
      compareValues lib (.list xs) "contains".toList e = true ↔
        ∃ x ∈ xs, valuesEqual lib x e = true) ∧
    (∀ (a e : Value F) (l r : F), coerceNumber lib a = some l → coerceNumber lib e = some r →
      valuesEqual lib a e = lib.feq l r) ∧
    (∀ (b1 b2 : Bool), valuesEqual lib (.bool b1) (.bool b2) = (b1 == b2)) ∧
    (∀ (a e : Value F), (coerceNumber lib a = none ∨ coerceNumber lib e = none) →
      ((∀ b, a ≠ .bool b) ∨ (∀ b, e ≠ .bool b)) →
      valuesEqual lib a e = (Sprint lib a == Sprint lib e)) ∧
    (∀ (a e : Value F), (∀ xs, a ≠ .list xs) →
      (compareValues lib a "contains".toList e = true ↔ Sprint lib e <:+: Sprint lib a)) ∧
    (∀ (a e : Value F),
      (compareValues lib a "startswith".toList e = true ↔ Sprint lib e <+: Sprint lib a)) ∧
    (∀ (a e : Value F),
      (compareValues lib a "endswith".toList e = true ↔ Sprint lib e <:+ Sprint lib a)) := by
  refine ⟨?_, ?_, ?_, ?_, ?_, ?_, ?_⟩
  · intro xs e
    simp [compareValues]
  · intro a e l r h1 h2
    simp [valuesEqual, h1, h2]
  · intro b1 b2
    simp [valuesEqual, coerceNumber]
  · intro a e hc hb
    unfold valuesEqual
    have hnb : ∀ b1 b2, ¬ (a = .bool b1 ∧ e = .bool b2) := by
      rintro b1 b2 ⟨h1, h2⟩
      rcases hb with hb | hb
      · exact hb b1 h1
      · exact hb b2 h2
    clear hb
    rcases hc with hc | hc
    · rw [hc]
      clear hc
      cases a <;> cases e <;> first | rfl | exact absurd ⟨rfl, rfl⟩ (hnb _ _)
    · rw [hc]
      clear hc
      generalize coerceNumber lib a = o
      cases o <;> cases a <;> cases e <;> first | rfl | exact absurd ⟨rfl, rfl⟩ (hnb _ _)
  · intro a e ha
    have : compareValues lib a "contains".toList e =
        Contains (Sprint lib a) (Sprint lib e) := by
      cases a with
      | list xs => exact absurd rfl (ha xs)
      | _ => simp [compareValues]
    rw [this, Contains_iff]
  · intro a e
    have : compareValues lib a "startswith".toList e =
        HasPrefix (Sprint lib a) (Sprint lib e) := by
      have hne : ¬ ("startswith".toList = "contains".toList) := by decide
      simp only [compareValues, hne, if_false, if_true]
    rw [this, HasPrefix, List.isPrefixOf_iff_prefix]
  · intro a e
    have : compareValues lib a "endswith".toList e =
        HasSuffix (Sprint lib a) (Sprint lib e) := by
      have hne : ¬ ("endswith".toList = "contains".toList) := by decide
      have hne2 : ¬ ("endswith".toList = "startswith".toList) := by decide
      simp only [compareValues, hne, hne2, if_false, if_true]
    rw [this, HasSuffix, List.isSuffixOf_iff_suffix]

/-! ### Relational operators and numeric coercion (C17) -/

theorem Char_toNat_inj {a b : Char} (h : a.toNat = b.toNat) : a = b := by
  apply Char.ext
  cases a with
  | mk va ha =>
    cases b with
    | mk vb hb =>
      simp only [Char.toNat] at h
      exact UInt32.ext (by simpa [UInt32.toNat] using h)

theorem strLt_iff_lex (s t : GoString) :
    strLt s t = true ↔ List.Lex (fun a b : Char => a.toNat < b.toNat) s t := by
  induction s generalizing t with
  | nil =>
    cases t with
    | nil => simp [strLt]
    | cons b t => simp [strLt, List.Lex.nil]
  | cons a s ih =>
    cases t with
    | nil => simp [strLt]
    | cons b t =>
      simp only [strLt, Bool.or_eq_true, decide_eq_true_eq, Bool.and_eq_true, beq_iff_eq, ih]
      constructor
      · rintro (h | ⟨h1, h2⟩)
        · exact List.Lex.rel h
        · have := Char_toNat_inj h1
          subst this
          exact List.Lex.cons h2
      · intro h
        cases h with
        | rel h => exact Or.inl h
        | cons h => exact Or.inr ⟨rfl, h⟩

theorem matchNumber_nil : matchNumber [] = false := by rfl

/-- C17, the claim at a concrete value: the string of `1` followed by 309
zeros matches the decimal pattern, and it does not coerce to a number
(`strconv.ParseFloat` reports it out of range), so that it is compared with
the number `5` as a string: `>` is false. -/
theorem coerce_huge_literal_counterexample :
    matchNumber (TrimSpace hugeLiteral) = true ∧
    coerceNumber decimalLib (Value.str hugeLiteral) = none ∧
    compareValues decimalLib (Value.str hugeLiteral) ">".toList
      (Value.num { mant := 5, scale := 0 }) = false := by
  refine ⟨by decide, ?_, ?_⟩
  · decide!
  · decide!

/-- C17, amended: for the six relational operators, when both operands coerce
to numbers the result is the numeric comparison, otherwise it is the
byte-wise lexicographic comparison of the string renderings.  A value coerces
when it is a number, or a string whose trimmed form matches the decimal
pattern and is accepted by `strconv.ParseFloat` (a literal beyond the range
of `float64` does not coerce); booleans, null, maps and sequences never
coerce.  With decimal numbers: `.count > 5` matches `count: "5.5"` and
`count: 6`, and `"10" > 9` is true although `"10" < "9"` as strings. -/
theorem relational_operators {F : Type} (lib : GoLib F) :
    (∀ (a e : Value F) (l r : F), coerceNumber lib a = some l → coerceNumber lib e = some r →
      compareValues lib a "==".toList e = lib.feq l r ∧
      compareValues lib a "!=".toList e = !lib.feq l r ∧
      compareValues lib a ">".toList e = lib.flt r l ∧
      compareValues lib a "<".toList e = lib.flt l r ∧
      compareValues lib a ">=".toList e = lib.fle r l ∧
      compareValues lib a "<=".toList e = lib.fle l r) ∧
    (∀ (a e : Value F), (coerceNumber lib a = none ∨ coerceNumber lib e = none) →
      compareValues lib a "==".toList e = (Sprint lib a == Sprint lib e) ∧
      compareValues lib a "!=".toList e = (Sprint lib a != Sprint lib e) ∧
      compareValues lib a ">".toList e = strLt (Sprint lib e) (Sprint lib a) ∧
      compareValues lib a "<".toList e = strLt (Sprint lib a) (Sprint lib e) ∧
      compareValues lib a ">=".toList e = !strLt (Sprint lib a) (Sprint lib e) ∧
      compareValues lib a "<=".toList e = !strLt (Sprint lib e) (Sprint lib a)) ∧
    (∀ s t : GoString,
      strLt s t = true ↔ List.Lex (fun a b : Char => a.toNat < b.toNat) s t) ∧
    (∀ f : F, coerceNumber lib (.num f) = some f) ∧
    (∀ n : Int, coerceNumber lib (.int n) = some (lib.floatOfInt n)) ∧
    (∀ s : GoString, coerceNumber lib (.str s) =
      if matchNumber (TrimSpace s) = true then lib.parseFloat (TrimSpace s) else none) ∧
    (∀ b : Bool, coerceNumber lib (.bool b) = none) ∧
    coerceNumber lib .null = none ∧
    (∀ xs, coerceNumber lib (.list xs) = none) ∧
    (∀ kvs, coerceNumber lib (.map kvs) = none) ∧
    parseFilterExpression decimalLib ".count > 5".toList =
      .ok { kind := "compare", path := [Value.str "count".toList], operator := ">".toList,
            value := Value.num { mant := 5, scale := 0 } } ∧
    passesFilterExpressions decimalLib (entryWithCount (Value.str "5.5".toList))
      [{ kind := "compare", path := [Value.str "count".toList], operator := ">".toList,
         value := Value.num { mant := 5, scale := 0 } }] = true ∧
    passesFilterExpressions decimalLib (entryWithCount (Value.num { mant := 6, scale := 0 }))
      [{ kind := "compare", path := [Value.str "count".toList], operator := ">".toList,
         value := Value.num { mant := 5, scale := 0 } }] = true ∧
    compareValues decimalLib (Value.str "10".toList) ">".toList
      (Value.num { mant := 9, scale := 0 }) = true ∧
    strLt "10".toList "9".toList = true := by
  refine ⟨?_, ?_, strLt_iff_lex, fun _ => rfl, fun _ => rfl, ?_, fun _ => rfl, rfl,
    fun _ => rfl, fun _ => rfl, ?_, ?_, ?_, ?_, by decide⟩
  · intro a e l r h1 h2
    refine ⟨?_, ?_, ?_, ?_, ?_, ?_⟩ <;>
      simp only [compareValues, h1, h2, String.toList] <;> simp
  · intro a e hc
    have hm : ∀ (X : F → F → Bool) (Y : Bool),
        (match coerceNumber lib a, coerceNumber lib e with
          | some leftNum, some rightNum => X leftNum rightNum
          | _, _ => Y) = Y := by
      intro X Y
      rcases hc with hc | hc
      · rw [hc]
      · rw [hc]; cases coerceNumber lib a <;> rfl
    refine ⟨?_, ?_, ?_, ?_, ?_, ?_⟩
    · have h1 : ¬ ("==".toList = "contains".toList) := by decide
      have h2 : ¬ ("==".toList = "startswith".toList) := by decide
      have h3 : ¬ ("==".toList = "endswith".toList) := by decide
      simp only [compareValues, h1, h2, h3, if_false, if_true]
      exact hm _ _
    · have h1 : ¬ ("!=".toList = "contains".toList) := by decide
      have h2 : ¬ ("!=".toList = "startswith".toList) := by decide
      have h3 : ¬ ("!=".toList = "endswith".toList) := by decide
      have h4 : ¬ ("!=".toList = "==".toList) := by decide
      simp only [compareValues, h1, h2, h3, h4, if_false, if_true]
      exact hm _ _
    · have h1 : ¬ (">".toList = "contains".toList) := by decide
      have h2 : ¬ (">".toList = "startswith".toList) := by decide
      have h3 : ¬ (">".toList = "endswith".toList) := by decide
      have h4 : ¬ (">".toList = "==".toList) := by decide
      have h5 : ¬ (">".toList = "!=".toList) := by decide
      simp only [compareValues, h1, h2, h3, h4, h5, if_false, if_true]
      exact hm _ _
    · have h1 : ¬ ("<".toList = "contains".toList) := by decide
      have h2 : ¬ ("<".toList = "startswith".toList) := by decide
      have h3 : ¬ ("<".toList = "endswith".toList) := by decide
      have h4 : ¬ ("<".toList = "==".toList) := by decide
      have h5 : ¬ ("<".toList = "!=".toList) := by decide
      have h6 : ¬ ("<".toList = ">".toList) := by decide
      simp only [compareValues, h1, h2, h3, h4, h5, h6, if_false, if_true]
      exact hm _ _
    · have h1 : ¬ (">=".toList = "contains".toList) := by decide
      have h2 : ¬ (">=".toList = "startswith".toList) := by decide
      have h3 : ¬ (">=".toList = "endswith".toList) := by decide
      have h4 : ¬ (">=".toList = "==".toList) := by decide
      have h5 : ¬ (">=".toList = "!=".toList) := by decide
      have h6 : ¬ (">=".toList = ">".toList) := by decide
      have h7 : ¬ (">=".toList = "<".toList) := by decide
      simp only [compareValues, h1, h2, h3, h4, h5, h6, h7, if_false, if_true]
      exact hm _ _
    · have h1 : ¬ ("<=".toList = "contains".toList) := by decide
      have h2 : ¬ ("<=".toList = "startswith".toList) := by decide
      have h3 : ¬ ("<=".toList = "endswith".toList) := by decide
      have h4 : ¬ ("<=".toList = "==".toList) := by decide
      have h5 : ¬ ("<=".toList = "!=".toList) := by decide
      have h6 : ¬ ("<=".toList = ">".toList) := by decide
      have h7 : ¬ ("<=".toList = "<".toList) := by decide
      have h8 : ¬ ("<=".toList = ">=".toList) := by decide
      simp only [compareValues, h1, h2, h3, h4, h5, h6, h7, h8, if_false, if_true]
      exact hm _ _
  · intro s
    simp only [coerceNumber]
    by_cases hm : matchNumber (TrimSpace s) = true
    · have hne : TrimSpace s ≠ [] := by
        intro h0; rw [h0, matchNumber_nil] at hm; cases hm
      simp [hm, hne]
    · simp [hm]
  · rfl
  · rfl
  · rfl
  · rfl

/-! ### Value literals (C11) -/

set_option maxRecDepth 100000 in
/-- C11, the claim at a concrete token: `1` followed by 309 zeros matches the
decimal pattern, and the literal stays a string, because
`strconv.ParseFloat` reports it out of range. -/
theorem coerceLiteral_huge_counterexample :
    matchNumber hugeLiteral = true ∧
    coerceLiteral decimalLib hugeLiteral = Value.str hugeLiteral ∧
    parseValueLiteral decimalLib hugeLiteral = .ok (Value.str hugeLiteral) := by
  refine ⟨by decide, by rfl, by rfl⟩

theorem TrimSpace_eq_nil_iff (s : GoString) : TrimSpace s = [] ↔ ∀ c ∈ s, isSpace c = true := by
  unfold TrimSpace
  rw [List.rdropWhile_eq_nil_iff]
  constructor
  · intro h
    have hd : s.dropWhile isSpace = [] := by
      cases hd : s.dropWhile isSpace with
      | nil => rfl
      | cons a r =>
        have h1 := dropWhile_head (p := isSpace) s a (by rw [hd]; rfl)
        have h2 := h a (by rw [hd]; exact List.mem_cons_self _ _)
        rw [h1] at h2; cases h2
    exact fun c hc => by simpa using (List.dropWhile_eq_nil_iff.1 hd) c hc
  · intro h c hc
    exact h c ((List.dropWhile_sublist _).subset hc)

theorem firstField_of_trimmed (t : GoString) (h : ∀ c, t.head? = some c → isSpace c = false) :
    firstField t = t.takeWhile (fun c => !isSpace c) ∧
    t.drop (firstField t).length = t.dropWhile (fun c => !isSpace c) := by
  have h1 : firstField t = t.takeWhile (fun c => !isSpace c) := by
    unfold firstField
    rw [dropWhile_head_false t h]
  refine ⟨h1, ?_⟩
  rw [h1]
  conv_lhs => arg 2; rw [← List.takeWhile_append_dropWhile (fun c => !isSpace c) t]
  exact List.drop_left _ _

theorem parseValueLiteral_token {F : Type} (lib : GoLib F) (text : GoString)
    (hne : TrimSpace text ≠ [])
    (hq : (TrimSpace text).head? ≠ some '"' ∧ (TrimSpace text).head? ≠ some '\'') :
    parseValueLiteral lib text =
      if TrimSpace ((TrimSpace text).dropWhile (fun c => !isSpace c)) ≠ [] then
        .error "unexpected token after value"
      else .ok (coerceLiteral lib ((TrimSpace text).takeWhile (fun c => !isSpace c))) := by
  obtain ⟨f1, f2⟩ := firstField_of_trimmed (TrimSpace text) (fun c hc => TrimSpace_head hc)
  unfold parseValueLiteral
  rw [if_neg hne]
  cases ht : TrimSpace text with
  | nil => exact absurd ht hne
  | cons c r =>
    rw [ht] at hq f1 f2
    rw [f1] at f2
    have hc : ¬ (c = '"' ∨ c = '\'') := by
      rintro (rfl | rfl)
      · exact hq.1 rfl
      · exact hq.2 rfl
    simp only [hc, if_false, f1, f2]

/-- C11, amended: for the text after an operator, with `t` its trimmed form.
An empty `t` is the error `missing value`.  When `t` starts with a quote the
result is the string `parseQuotedString` reads (the text between the quotes
when it holds no backslash; always a string, never coerced), and the error
`unexpected token after quoted value` when anything but whitespace follows
the closing quote.  Otherwise `t` must be free of whitespace (a second token
is the error `unexpected token after value`) and the token becomes the
boolean when it equals `true` or `false` in any letter case, null when it
equals `null` in any letter case, a number when it matches the decimal
pattern and `strconv.ParseFloat` accepts it, and the token itself as a string
in every other case, as for `1e3`, `+5`, `.5`, `5.`, and for a decimal
literal beyond the range of `float64`. -/
theorem parseValueLiteral_spec {F : Type} (lib : GoLib F) :
    (∀ text, TrimSpace text = [] → parseValueLiteral lib text = .error "missing value") ∧
    (∀ text, ((TrimSpace text).head? = some '"' ∨ (TrimSpace text).head? = some '\'') →
      parseValueLiteral lib text =
        match parseQuotedString (TrimSpace text) with
        | .error err => .error err
        | .ok (value, next) =>
          if TrimSpace next = [] then .ok (Value.str value)
          else .error "unexpected token after quoted value") ∧
    (∀ (q : Char) (w tail : GoString), (q = '"' ∨ q = '\'') → (∀ c ∈ w, c ≠ '\\' ∧ c ≠ q) →
      parseQuotedString (q :: (w ++ q :: tail)) = .ok (w, tail)) ∧
    (∀ text, TrimSpace text ≠ [] →
      ((TrimSpace text).head? ≠ some '"' ∧ (TrimSpace text).head? ≠ some '\'') →
      (∀ c ∈ TrimSpace text, isSpace c = false) →
      parseValueLiteral lib text = .ok (coerceLiteral lib (TrimSpace text))) ∧
    (∀ text,
      ((TrimSpace text).head? ≠ some '"' ∧ (TrimSpace text).head? ≠ some '\'') →
      (∃ c ∈ TrimSpace text, isSpace c = true) →
      parseValueLiteral lib text = .error "unexpected token after value") ∧
    (∀ token, ToLower lib token = "true".toList → coerceLiteral lib token = Value.bool true) ∧
    (∀ token, ToLower lib token = "false".toList → coerceLiteral lib token = Value.bool false) ∧
    (∀ token, ToLower lib token = "null".toList → coerceLiteral lib token = Value.null) ∧
    (∀ token f, ToLower lib token ≠ "true".toList → ToLower lib token ≠ "false".toList →
      ToLower lib token ≠ "null".toList → matchNumber token = true →
      lib.parseFloat token = some f → coerceLiteral lib token = Value.num f) ∧
    (∀ token, ToLower lib token ≠ "true".toList → ToLower lib token ≠ "false".toList →
      ToLower lib token ≠ "null".toList →
      (matchNumber token = false ∨ lib.parseFloat token = none) →
      coerceLiteral lib token = Value.str token) ∧
    coerceLiteral lib "1e3".toList = Value.str "1e3".toList ∧
    coerceLiteral lib "+5".toList = Value.str "+5".toList ∧
    coerceLiteral lib ".5".toList = Value.str ".5".toList ∧
    coerceLiteral lib "5.".toList = Value.str "5.".toList := by
  refine ⟨?_, ?_, ?_, ?_, ?_, ?_, ?_, ?_, ?_, ?_, by rfl, by rfl, by rfl, by rfl⟩
  · intro text h
    simp [parseValueLiteral, h]
  · intro text hq
    have hne : TrimSpace text ≠ [] := by
      intro h0; rw [h0] at hq; simp at hq
    unfold parseValueLiteral
    rw [if_neg hne]
    cases ht : TrimSpace text with
    | nil => exact absurd ht hne
    | cons c r =>
      rw [ht] at hq
      have hc : c = '"' ∨ c = '\'' := by simpa using hq
      simp only [hc, if_true]
      cases parseQuotedString (c :: r) with
      | error e => rfl
      | ok res =>
        obtain ⟨v, next⟩ := res
        simp only []
        by_cases hn : TrimSpace next = []
        · simp [hn]
        · simp [hn]
  · intro q w tail hq hw
    have hqb : q ≠ '\\' := by rcases hq with rfl | rfl <;> decide
    simp only [parseQuotedString]
    rw [parseQuotedLoop_plain q hqb w tail [] hw]
    rfl
  · intro text hne hq hall
    rw [parseValueLiteral_token lib text hne hq]
    have h1 : (TrimSpace text).takeWhile (fun c => !isSpace c) = TrimSpace text := by
      rw [List.takeWhile_eq_self_iff]
      intro c hc
      simp [hall c hc]
    have h2 : (TrimSpace text).dropWhile (fun c => !isSpace c) = [] := by
      rw [List.dropWhile_eq_nil_iff]
      intro c hc
      simp [hall c hc]
    rw [h1, h2]
    simp [TrimSpace]
  · rintro text hq ⟨c, hc, hsp⟩
    have hne : TrimSpace text ≠ [] := List.ne_nil_of_mem hc
    rw [parseValueLiteral_token lib text hne hq]
    rw [if_pos]
    intro h0
    rw [TrimSpace_eq_nil_iff] at h0
    -- the rest after the token is not empty, and its last character is the one of `t`
    have hsplit := List.takeWhile_append_dropWhile (fun c => !isSpace c) (TrimSpace text)
    cases hd : (TrimSpace text).dropWhile (fun c => !isSpace c) with
    | nil =>
      have := (List.dropWhile_eq_nil_iff.1 hd) c hc
      simp [hsp] at this
    | cons d rest =>
      rw [hd] at h0 hsplit
      have hlast : (TrimSpace text).getLast? = (d :: rest).getLast? := by
        rw [← hsplit, List.getLast?_append]
        cases hl : (d :: rest).getLast? with
        | none => simp at hl
        | some x => rfl
      cases hl : (d :: rest).getLast? with
      | none => simp at hl
      | some x =>
        have h1 := TrimSpace_getLast (hlast.trans hl)
        have h2 := h0 x (List.mem_of_mem_getLast? hl)
        rw [h1] at h2; cases h2
  · intro token h
    simp [coerceLiteral, h]
  · intro token h
    have h1 : ¬ ("false".toList = "true".toList) := by decide
    simp only [coerceLiteral, h, h1, if_false, if_true]
  · intro token h
    have h1 : ¬ ("null".toList = "true".toList) := by decide
    have h2 : ¬ ("null".toList = "false".toList) := by decide
    simp only [coerceLiteral, h, h1, h2, if_false, if_true]
  · intro token f h1 h2 h3 hm hp
    simp only [coerceLiteral, h1, h2, h3, if_false, hm, if_true, hp]
  · intro token h1 h2 h3 hm
    simp only [coerceLiteral, h1, h2, h3, if_false]
    rcases hm with hm | hm
    · simp [hm]
    · rw [hm]
      split <;> rfl

/-! ## Unterminated brackets -/

/-- A bracket segment whose text holds no `]` and does not start with a quote
is reported as unclosed. -/
theorem parseBracketSegment_unclosed {F : Type} (x : GoString) (hx : ']' ∉ x)
    (hq : ∀ c, (x.dropWhile isWhitespace).head? = some c → c ≠ '"' ∧ c ≠ '\'') :
    parseBracketSegment (F := F) x = .error "unclosed bracket in path" := by
  have hsub : ∀ c ∈ x.dropWhile isWhitespace, c ≠ ']' :=
    fun c hc h => hx (h ▸ (List.dropWhile_sublist _).subset hc)
  have hws := dropWhile_head (p := isWhitespace) x
  unfold parseBracketSegment
  simp only []
  generalize x.dropWhile isWhitespace = s at hq hsub hws
  cases s with
  | nil => rfl
  | cons c t =>
    have hc := hq c rfl
    have hcw := hws c rfl
    have hcb : c ≠ ']' := hsub c (List.mem_cons_self _ _)
    have hq2 : ¬ (c = '"' ∨ c = '\'') := fun h => h.elim hc.1 hc.2
    have htok : (c :: t).takeWhile (fun ch => !isWhitespace ch && ch != ']') ≠ [] := by
      rw [List.takeWhile_cons]
      simp [hcw, hcb]
    have hnext : ∀ r, ((c :: t).dropWhile (fun ch => !isWhitespace ch && ch != ']')).dropWhile
        isWhitespace ≠ ']' :: r := by
      intro r hr
      have hm : ']' ∈ ((c :: t).dropWhile (fun ch => !isWhitespace ch && ch != ']')).dropWhile
          isWhitespace := by rw [hr]; exact List.mem_cons_self _ _
      exact hsub _ ((List.dropWhile_sublist _).subset ((List.dropWhile_sublist _).subset hm)) rfl
    simp only [if_neg hq2, if_neg htok]
    generalize ((c :: t).dropWhile (fun ch => !isWhitespace ch && ch != ']')) = n at hnext
    split <;> rename_i hpar
    · split at hpar
      · cases hpar
      · cases hpar
    · split at hpar
      all_goals
        cases hpar
        split
        · rename_i h2
          exact absurd h2 (hnext _)
        · rfl

theorem skipChar_append (ch : Char) (s y : GoString) (hs : s ≠ []) :
    skipChar ch (s ++ y) = skipChar ch s ++ y := by
  cases s with
  | nil => exact absurd rfl hs
  | cons c r =>
    simp only [skipChar, List.cons_append]
    split <;> rfl

theorem parsePathSegment_bracket_fail {F : Type} (x : GoString) (e : String)
    (hx : parseBracketSegment (F := F) x = .error e) :
    parsePathSegment (F := F) ('[' :: x) = .fail e ∧
    parsePathSegment (F := F) ('.' :: '[' :: x) = .fail e := by
  constructor
  · have h1 : skipChar '.' ('[' :: x) = '[' :: x := by simp [skipChar]
    unfold parsePathSegment
    simp only [h1, if_true, hx]
  · have h1 : skipChar '.' ('.' :: '[' :: x) = '[' :: x := by simp [skipChar]
    unfold parsePathSegment
    simp only [h1, if_true, hx]

theorem parsePathLoop_bracket_fail {F : Type} (x : GoString) (e : String)
    (hx : parseBracketSegment (F := F) x = .error e) (fuel : Nat) (acc : List (Value F)) :
    parsePathLoop (fuel + 1) ('[' :: x) acc = .error e := by
  rw [parsePathLoop, if_neg (by simp), (parsePathSegment_bracket_fail x e hx).1]

theorem parsePathSegment_stop_nil {F : Type} (s : GoString) (hs : s ≠ [])
    (h : parsePathSegment (F := F) s = .stop []) : s = ['.'] := by
  unfold parsePathSegment at h
  simp only [] at h
  rcases skipChar_cases '.' s with ⟨h1, _⟩ | h1
  · rw [h1] at h
    cases s with
    | nil => exact absurd rfl hs
    | cons c r =>
      simp only [] at h
      split at h
      · split at h <;> cases h
      · split at h
        · split at h <;> cases h
        · split at h <;> cases h
  · generalize skipChar '.' s = t at h h1
    cases t with
    | nil => exact h1
    | cons c r =>
      simp only [] at h
      split at h
      · split at h <;> cases h
      · split at h
        · split at h <;> cases h
        · split at h <;> cases h

theorem afterPathSegment_stop_nil (s : GoString) (h : afterPathSegment s = .stop []) :
    skipChar '?' s = [] := by
  unfold afterPathSegment at h
  simp only [] at h
  generalize skipChar '?' s = t at h
  cases t with
  | nil => rfl
  | cons c r =>
    simp only [] at h
    split at h
    · cases h
    · split at h <;> cases h

/-- A path read to its end, followed by a bracket segment that fails, fails
with the error of the bracket segment. -/
theorem parsePathLoop_unclosed {F : Type} (x : GoString) (e : String)
    (hx : parseBracketSegment (F := F) x = .error e) :
    ∀ (fuel fuel' : Nat) (s : GoString) (acc path : List (Value F)), fuel < fuel' →
      parsePathLoop fuel s acc = .ok ⟨path, []⟩ →
      parsePathLoop fuel' (s ++ '[' :: x) acc = .error e := by
  intro fuel
  induction fuel with
  | zero =>
    intro fuel' s acc path _ h
    simp [parsePathLoop] at h
  | succ f ih =>
    intro fuel' s acc path hlt h
    obtain ⟨f', rfl⟩ : ∃ f', fuel' = f' + 1 := ⟨fuel' - 1, by omega⟩
    have hf' : f < f' := by omega
    obtain ⟨f'', hf''⟩ : ∃ f'', f' = f'' + 1 := ⟨f' - 1, by omega⟩
    rw [parsePathLoop] at h
    by_cases hs : s = []
    · subst hs
      exact parsePathLoop_bracket_fail x e hx f' acc
    · rw [if_neg hs] at h
      rw [parsePathLoop, if_neg (by simp [hs])]
      cases hseg : parsePathSegment (F := F) s with
      | stop rest =>
        rw [hseg] at h
        simp only [Except.ok.injEq, pathParseResult.mk.injEq] at h
        rw [h.2] at hseg
        rw [parsePathSegment_stop_nil s hs hseg]
        simp only [List.singleton_append, (parsePathSegment_bracket_fail x e hx).2]
      | fail err =>
        rw [hseg] at h
        cases h
      | segment v next =>
        rw [hseg] at h
        simp only [] at h
        obtain ⟨a, _, hsa, hloc⟩ := parsePathSegment_local s v next hseg
        have hstep := hloc (next ++ '[' :: x) (by
          intro c hc hid
          cases next with
          | nil =>
            simp only [List.nil_append, List.head?_cons, Option.some.injEq] at hc
            subst hc
            exact absurd hid (by decide)
          | cons d r => simpa using hc)
        have hsy : s ++ '[' :: x = a ++ (next ++ '[' :: x) := by
          rw [hsa, List.append_assoc]
        rw [hsy, hstep]
        simp only []
        cases htail : afterPathSegment next with
        | again rest =>
          rw [htail] at h
          simp only [] at h
          have hr := ih f' rest (acc ++ [v]) path hf' h
          obtain ⟨h1, h2⟩ := (afterPathSegment_again_iff next rest).1 htail
          have hrne : rest ≠ [] := by
            intro h0
            rw [h0] at h2
            simp at h2
          have hnne : next ≠ [] := by
            intro h0
            rw [h0] at h1
            exact hrne h1.symm
          have hag : afterPathSegment (next ++ '[' :: x) = .again (rest ++ '[' :: x) := by
            rw [afterPathSegment_again_iff, skipChar_append _ _ _ hnne, h1]
            refine ⟨rfl, ?_⟩
            cases rest with
            | nil => exact absurd rfl hrne
            | cons d r => simpa using h2
          rw [hag]
          exact hr
        | stop rest =>
          rw [htail] at h
          simp only [Except.ok.injEq, pathParseResult.mk.injEq] at h
          rw [h.2] at htail
          have hsk := afterPathSegment_stop_nil next htail
          have hag : afterPathSegment (next ++ '[' :: x) = .again ('[' :: x) := by
            rw [afterPathSegment_again_iff]
            refine ⟨?_, Or.inr rfl⟩
            rcases skipChar_cases '?' next with ⟨h1, _⟩ | h1
            · rw [hsk] at h1
              rw [← h1]
              simp [skipChar]
            · rw [hsk] at h1
              rw [h1]
              simp [skipChar]
          rw [hag]
          simp only []
          rw [hf'']
          exact parsePathLoop_bracket_fail x e hx f'' (acc ++ [v])
        | fail err =>
          rw [htail] at h
          cases h

theorem rdropWhile_append_stop {p : Char → Bool} (a x : GoString) (b : Char)
    (hb : p b = false) : (a ++ b :: x).rdropWhile p = a ++ b :: x.rdropWhile p := by
  unfold List.rdropWhile
  rw [List.reverse_append, List.reverse_cons, List.append_assoc, List.dropWhile_append]
  split
  · rename_i h
    have h0 : x.reverse.dropWhile p = [] := by simpa using h
    rw [h0]
    simp [List.dropWhile, hb]
  · simp

theorem parsePathExpression_ok {F : Type} (p : GoString) (r : pathParseResult F)
    (h : parsePathExpression p = .ok r) :
    ∃ s, p = '.' :: s ∧ parsePathLoop (s.length + 1) s [] = .ok r := by
  unfold parsePathExpression at h
  split at h
  · exact ⟨_, rfl, h⟩
  · cases h

/-- A filter whose trimmed form starts with `.` and whose path does not parse
fails with the error of the path. -/
theorem parseFilterExpression_path_error {F : Type} (lib : GoLib F) (input r : GoString)
    (e : String) (ht : TrimSpace input = '.' :: r)
    (hp : parsePathExpression (F := F) ('.' :: r) = .error e) :
    parseFilterExpression lib input = .error e := by
  have ht2 : TrimSpace ('.' :: r) = '.' :: r := by
    rw [← ht, TrimSpace_idem]
  have hsel : HasPrefix (ToLower lib ('.' :: r)) "select(".toList = false := by rfl
  have hshort : parseMessageContainsShorthand (F := F) ('.' :: r) = none := by
    unfold parseMessageContainsShorthand
    rw [ht2]
    simp [HasPrefix]
  have hregex : parseRegexShorthand lib ('.' :: r) = .ok {} := by
    unfold parseRegexShorthand
    rw [ht2]
    simp [HasPrefix]
  unfold parseFilterExpression
  simp only [ht, hsel, hshort, hregex, hp]
  simp

/-- C12: for every text `p` that `parsePathExpression` reads to its end as a
path (a `.` followed by segments), and every text `x` that holds no `]` and
whose first character after the whitespace is not a quote (whitespace, an
unquoted token, anything after it), parsing `p`, `[`, `x` fails with the error
`unclosed bracket in path`, in `parsePathExpression` and in
`parseFilterExpression`. -/
theorem unclosed_bracket_reported {F : Type} (lib : GoLib F) (p : GoString)
    (path : List (Value F)) (x : GoString)
    (hp : parsePathExpression p = .ok ⟨path, []⟩)
    (hx : ']' ∉ x)
    (hq : ∀ c, (x.dropWhile isWhitespace).head? = some c → c ≠ '"' ∧ c ≠ '\'') :
    parsePathExpression (F := F) (p ++ '[' :: x) = .error "unclosed bracket in path" ∧
    parseFilterExpression lib (p ++ '[' :: x) = .error "unclosed bracket in path" := by
  obtain ⟨s, rfl, hloop⟩ := parsePathExpression_ok p _ hp
  have key : ∀ y : GoString, ']' ∉ y →
      (∀ c, (y.dropWhile isWhitespace).head? = some c → c ≠ '"' ∧ c ≠ '\'') →
      parsePathExpression (F := F) ('.' :: s ++ '[' :: y) =
        .error "unclosed bracket in path" := by
    intro y hy hyq
    have hb := parseBracketSegment_unclosed (F := F) y hy hyq
    have := parsePathLoop_unclosed y _ hb (s.length + 1) ((s ++ '[' :: y).length + 1) s [] path
      (by simp) hloop
    simpa only [parsePathExpression, List.cons_append] using this
  refine ⟨key x hx hq, ?_⟩
  obtain ⟨t, ht⟩ := List.rdropWhile_prefix isSpace x
  have hpre : x.rdropWhile isSpace <+: x := ⟨t, ht⟩
  have htrim : TrimSpace ('.' :: s ++ '[' :: x) = '.' :: (s ++ '[' :: x.rdropWhile isSpace) := by
    unfold TrimSpace
    rw [dropWhile_head_false _ (by
      intro c hc
      simp only [List.cons_append, List.head?_cons, Option.some.injEq] at hc
      subst hc
      rfl)]
    exact rdropWhile_append_stop ('.' :: s) x '[' rfl
  apply parseFilterExpression_path_error lib _ _ _ htrim
  have := key (x.rdropWhile isSpace)
    (fun h => hx (hpre.subset h))
    (by
      intro c hc
      apply hq c
      rw [← ht, List.dropWhile_append]
      cases hd : (x.rdropWhile isSpace).dropWhile isWhitespace with
      | nil => rw [hd] at hc; simp at hc
      | cons a r =>
        rw [hd] at hc
        simpa using hc)
  simpa only [List.cons_append] using this

/-- C12 at `.a[`: the path `.a` is read to its end and `.a[` is reported. -/
theorem unclosed_bracket_reported_witness :
    parsePathExpression (F := Int) ".a".toList = .ok ⟨[Value.str "a".toList], []⟩ ∧
    parsePathExpression (F := Int) ".a[".toList = .error "unclosed bracket in path" ∧
    parseFilterExpression demoLib ".a[".toList = .error "unclosed bracket in path" :=
  ⟨rfl, unclosed_bracket_reported demoLib ".a".toList [Value.str "a".toList] [] rfl
    (by simp) (by simp)⟩

/-! ## Totality of the parser over code points -/

theorem parseQuotedLoop_error (q : Char) (n : Nat) :
    ∀ (s acc : GoString) (m : String), s.length ≤ n →
      parseQuotedLoop q s acc = .error m → m = "unterminated string" := by
  induction n with
  | zero =>
    intro s acc m hl h
    have : s = [] := List.length_eq_zero.1 (Nat.le_zero.1 hl)
    subst this
    rw [parseQuotedLoop] at h
    cases h
    rfl
  | succ n ih =>
    intro s acc m hl h
    match s, hl, h with
    | [], _, h =>
      rw [parseQuotedLoop] at h
      cases h
      rfl
    | [ch], _, h =>
      rw [parseQuotedLoop] at h
      split at h
      · cases h
      · cases h
        rfl
    | ch :: next :: rest, hl, h =>
      rw [parseQuotedLoop] at h
      simp only [List.length_cons] at hl
      split at h
      · exact ih rest _ m (by omega) h
      · split at h
        · cases h
        · exact ih (next :: rest) _ m (by simp only [List.length_cons]; omega) h

/-- The loop of `parseQuotedString` returns the text after the closing quote,
which is shorter than the text it was given. -/
theorem parseQuotedLoop_advances (q : Char) (n : Nat) :
    ∀ (s acc v next : GoString), s.length ≤ n →
      parseQuotedLoop q s acc = .ok (v, next) → next.length < s.length := by
  induction n with
  | zero =>
    intro s acc v next hl h
    have : s = [] := List.length_eq_zero.1 (Nat.le_zero.1 hl)
    subst this
    rw [parseQuotedLoop] at h
    cases h
  | succ n ih =>
    intro s acc v next hl h
    match s, hl, h with
    | [], _, h =>
      rw [parseQuotedLoop] at h
      cases h
    | [ch], _, h =>
      rw [parseQuotedLoop] at h
      split at h
      · cases h
        simp
      · cases h
    | ch :: nx :: rest, hl, h =>
      rw [parseQuotedLoop] at h
      simp only [List.length_cons] at hl
      split at h
      · have := ih rest _ v next (by omega) h
        simp only [List.length_cons]
        omega
      · split at h
        · cases h
          simp
        · have := ih (nx :: rest) _ v next (by simp only [List.length_cons]; omega) h
          simp only [List.length_cons] at this ⊢
          omega

theorem parseQuotedString_error (s : GoString) (m : String) (hs : s ≠ [])
    (h : parseQuotedString s = .error m) : m = "unterminated string" := by
  cases s with
  | nil => exact absurd rfl hs
  | cons q r => exact parseQuotedLoop_error q r.length r [] m (le_refl _) h

theorem parseQuotedString_advances (s v next : GoString)
    (h : parseQuotedString s = .ok (v, next)) : next.length + 1 < s.length := by
  cases s with
  | nil => simp [parseQuotedString] at h
  | cons q r =>
    have := parseQuotedLoop_advances q r.length r [] v next (le_refl _) h
    simp only [List.length_cons]
    omega

theorem parseBracketSegment_error {F : Type} (s : GoString) (m : String)
    (h : parseBracketSegment (F := F) s = .error m) :
    m = "unclosed bracket in path" ∨ m = "empty bracket segment" ∨
      m = "unterminated string" := by
  unfold parseBracketSegment at h
  simp only [] at h
  generalize s.dropWhile isWhitespace = t at h
  cases t with
  | nil =>
    cases h
    exact Or.inl rfl
  | cons c r =>
    simp only [] at h
    by_cases hq : c = '"' ∨ c = '\''
    · simp only [if_pos hq] at h
      cases hqs : parseQuotedString (c :: r) with
      | error e =>
        rw [hqs] at h
        cases h
        exact Or.inr (Or.inr (parseQuotedString_error _ _ (by simp) hqs))
      | ok res =>
        rw [hqs] at h
        simp only [] at h
        split at h
        · cases h
        · cases h
          exact Or.inl rfl
    · simp only [if_neg hq] at h
      split at h
      · rename_i e hpar
        split at hpar
        · cases hpar
          cases h
          exact Or.inr (Or.inl rfl)
        · split at hpar <;> cases hpar
      · split at h
        · cases h
        · cases h
          exact Or.inl rfl

theorem parsePathSegment_fail {F : Type} (s : GoString) (m : String)
    (h : parsePathSegment (F := F) s = .fail m) :
    m = "unclosed bracket in path" ∨ m = "empty bracket segment" ∨
      m = "unterminated string" := by
  unfold parsePathSegment at h
  simp only [] at h
  generalize skipChar '.' s = t at h
  cases t with
  | nil => cases h
  | cons c r =>
    simp only [] at h
    split at h
    · cases hb : parseBracketSegment (F := F) r with
      | error e =>
        rw [hb] at h
        cases h
        exact parseBracketSegment_error r _ hb
      | ok res =>
        rw [hb] at h
        cases h
    · split at h
      · cases hqs : parseQuotedString (c :: r) with
        | error e =>
          rw [hqs] at h
          cases h
          exact Or.inr (Or.inr (parseQuotedString_error _ _ (by simp) hqs))
        | ok res =>
          rw [hqs] at h
          cases h
      · split at h <;> cases h

theorem afterPathSegment_fail (s : GoString) (m : String)
    (h : afterPathSegment s = .fail m) : m = "unexpected token in path" := by
  unfold afterPathSegment at h
  simp only [] at h
  generalize skipChar '?' s = t at h
  cases t with
  | nil => cases h
  | cons c r =>
    simp only [] at h
    split at h
    · cases h
    · split at h
      · cases h
      · cases h
        rfl

/-- With more fuel than characters the loop of `parsePathExpression` returns a
result or one of the errors of the source: the fuel does not run out. -/
theorem parsePathLoop_error {F : Type} (fuel : Nat) :
    ∀ (s : GoString) (acc : List (Value F)) (m : String), s.length < fuel →
      parsePathLoop fuel s acc = .error m → m ∈ parserMessages := by
  induction fuel with
  | zero => intro s acc m h; omega
  | succ f ih =>
    intro s acc m hl h
    rw [parsePathLoop] at h
    split at h
    · cases h
    · cases hseg : parsePathSegment (F := F) s with
      | stop rest =>
        rw [hseg] at h
        cases h
      | fail err =>
        rw [hseg] at h
        cases h
        rcases parsePathSegment_fail s _ hseg with rfl | rfl | rfl <;> simp [parserMessages]
      | segment v next =>
        rw [hseg] at h
        simp only [] at h
        have h1 := parsePathSegment_next_length s v next hseg
        cases htail : afterPathSegment next with
        | again rest =>
          rw [htail] at h
          have h2 := afterPathSegment_again_length next rest htail
          exact ih rest _ m (by omega) h
        | stop rest =>
          rw [htail] at h
          cases h
        | fail err =>
          rw [htail] at h
          cases h
          rw [afterPathSegment_fail next _ htail]
          simp [parserMessages]

theorem parsePathExpression_error {F : Type} (input : GoString) (m : String)
    (h : parsePathExpression (F := F) input = .error m) : m ∈ parserMessages := by
  unfold parsePathExpression at h
  split at h
  · exact parsePathLoop_error _ _ _ m (Nat.lt_succ_self _) h
  · cases h
    simp [parserMessages]

theorem parseValueLiteral_error {F : Type} (lib : GoLib F) (input : GoString) (m : String)
    (h : parseValueLiteral lib input = .error m) : m ∈ parserMessages := by
  unfold parseValueLiteral at h
  split at h
  · cases h
    simp [parserMessages]
  · rename_i hne
    simp only [] at h
    generalize TrimSpace input = t at h hne
    cases t with
    | nil => exact absurd rfl hne
    | cons c r =>
      simp only [] at h
      split at h
      · cases hqs : parseQuotedString (c :: r) with
        | error e =>
          rw [hqs] at h
          cases h
          rw [parseQuotedString_error _ _ (by simp) hqs]
          simp [parserMessages]
        | ok res =>
          rw [hqs] at h
          simp only [] at h
          split at h
          · cases h
            simp [parserMessages]
          · cases h
      · split at h
        · cases h
          simp [parserMessages]
        · cases h

theorem parseOperatorAndValue_error {F : Type} (lib : GoLib F) (input : GoString) (m : String)
    (h : parseOperatorAndValue lib input = .error m) : m ∈ parserMessages := by
  unfold parseOperatorAndValue at h
  simp only [] at h
  split at h
  · cases h
    simp [parserMessages]
  · split at h
    · split at h
      · rename_i e hv
        cases h
        exact parseValueLiteral_error lib _ _ hv
      · cases h
    · split at h
      · cases h
        simp [parserMessages]
      · split at h
        · rename_i e hv
          cases h
          exact parseValueLiteral_error lib _ _ hv
        · cases h

theorem parseRegexShorthand_error {F : Type} (lib : GoLib F) (expr : GoString) (m : String)
    (h : parseRegexShorthand (F := F) lib expr = .error m) : m ∈ parserMessages := by
  unfold parseRegexShorthand at h
  simp only [] at h
  split at h
  · cases h
  · split at h
    · cases h
      simp [parserMessages]
    · split at h
      · cases h
        simp [parserMessages]
      · split at h
        · cases h
          simp [parserMessages]
        · cases h

/-- Every error of `parseFilterExpression` is one of the errors the source
makes. -/
theorem parseFilterExpression_error {F : Type} (lib : GoLib F) (input : GoString) (m : String)
    (h : parseFilterExpression lib input = .error m) : m ∈ parserMessages := by
  unfold parseFilterExpression at h
  simp only [] at h
  split at h
  · cases h
    simp [parserMessages]
  · split at h
    · cases h
      simp [parserMessages]
    · split at h
      · cases h
      · split at h
        · rename_i e hr
          cases h
          exact parseRegexShorthand_error lib _ _ hr
        · split at h
          · cases h
          · split at h
            · rename_i e hp
              cases h
              exact parsePathExpression_error _ _ hp
            · split at h
              all_goals
                split at h
                · cases h
                · split at h
                  · rename_i e ho
                    cases h
                    exact parseOperatorAndValue_error lib _ _ ho
                  · cases h

/-- Fuel above the length of the text changes nothing in the loop of
`parsePathExpression`. -/
theorem parsePathLoop_enough {F : Type} (d : Nat) :
    ∀ (s : GoString) (acc : List (Value F)),
      parsePathLoop (s.length + 1 + d) s acc = parsePathLoop (s.length + 1) s acc := by
  induction d with
  | zero => intro s acc; rfl
  | succ d ih =>
    intro s acc
    rw [← ih s acc]
    exact parsePathLoop_fuel (s.length + 1 + d) s acc (by omega)

theorem parseBracketSegment_advances {F : Type} (s : GoString) (v : Value F) (next : GoString)
    (h : parseBracketSegment s = .ok (v, next)) : next.length < s.length := by
  obtain ⟨a, ha, hs, _⟩ := parseBracketSegment_local s v next h
  have := List.length_pos.2 ha
  rw [hs, List.length_append]
  omega

theorem findLastUnescapedSlash_lt (t : GoString) (h : 0 < findLastUnescapedSlash t) :
    (findLastUnescapedSlash t).toNat < t.length := by
  unfold findLastUnescapedSlash at h ⊢
  rcases findLastUnescapedSlashFrom_spec t t.length with ⟨h1, _⟩ | ⟨k, h1, h2, _⟩
  · rw [h1] at h
    omega
  · rw [h1]
    simpa using h2

theorem firstField_trimmed_ne_nil (t : GoString) (h : TrimSpace t ≠ []) :
    firstField (TrimSpace t) ≠ [] ∧ firstField (TrimSpace t) <+: TrimSpace t := by
  obtain ⟨f1, _⟩ := firstField_of_trimmed (TrimSpace t) (fun c hc => TrimSpace_head hc)
  rw [f1]
  refine ⟨?_, List.takeWhile_prefix _⟩
  cases ht : TrimSpace t with
  | nil => exact absurd ht h
  | cons c r =>
    have hc : isSpace c = false := TrimSpace_head (s := t) (by rw [ht]; rfl)
    simp [List.takeWhile, hc]

theorem HasPrefix_char (t : GoString) (c : Char) (h : HasPrefix t [c] = true) :
    t = c :: t.drop 1 := by
  cases t with
  | nil => simp [HasPrefix] at h
  | cons a r =>
    simp only [HasPrefix, List.isPrefixOf, Bool.and_eq_true, beq_iff_eq] at h
    rw [h.1]
    rfl

/-- The parser over code points, that is on valid UTF-8: for every library and
every input `parseFilterExpression` returns an expression or one of the errors
the source makes, never an index panic and never for want of fuel.  The loop of
`parsePathExpression` has enough fuel with one unit per character: each round
that goes on has read a segment, which advances, and more fuel changes
nothing.  `parseQuotedString` and `parseBracketSegment` return a position past
the one they were given.  `parseQuotedString` is called on a non-empty text
only and then does not panic, `strings.Fields` of a non-empty trimmed text has
a first field, which is a prefix of the text, the texts sliced at `1` are
non-empty, and a positive index of the last unescaped slash is below the
length. -/
theorem parseFilterExpression_total_code_points {F : Type} (lib : GoLib F) :
    (∀ input, (∃ e, parseFilterExpression lib input = .ok e) ∨
      ∃ m ∈ parserMessages, parseFilterExpression lib input = .error m) ∧
    goPanic ∉ parserMessages ∧ outOfFuel ∉ parserMessages ∧
    (∀ input, parseFilterExpression lib input ≠ .error goPanic ∧
      parseFilterExpression lib input ≠ .error outOfFuel) ∧
    (∀ (fuel : Nat) (s : GoString) (acc : List (Value F)), s.length < fuel →
      parsePathLoop fuel s acc = parsePathLoop (s.length + 1) s acc) ∧
    (∀ (s : GoString) (acc : List (Value F)),
      parsePathLoop (s.length + 1) s acc ≠ .error outOfFuel) ∧
    (∀ (s : GoString) (v : Value F) (next : GoString),
      parsePathSegment s = .segment v next → next.length < s.length) ∧
    (∀ s rest : GoString, afterPathSegment s = .again rest → rest.length ≤ s.length) ∧
    (∀ s v next : GoString, parseQuotedString s = .ok (v, next) →
      next.length + 1 < s.length) ∧
    (∀ (s : GoString) (v : Value F) (next : GoString),
      parseBracketSegment s = .ok (v, next) → next.length < s.length) ∧
    (∀ s : GoString, s ≠ [] → parseQuotedString s ≠ .error goPanic) ∧
    (∀ input, parseValueLiteral lib input ≠ .error goPanic) ∧
    (∀ t, TrimSpace t ≠ [] →
      firstField (TrimSpace t) ≠ [] ∧ firstField (TrimSpace t) <+: TrimSpace t) ∧
    (∀ t, HasPrefix t "?".toList = true → t = '?' :: t.drop 1) ∧
    (∀ t, HasPrefix t "/".toList = true → t = '/' :: t.drop 1) ∧
    (∀ t, 0 < findLastUnescapedSlash t → (findLastUnescapedSlash t).toNat < t.length) := by
  have hp : goPanic ∉ parserMessages := by decide
  have hf : outOfFuel ∉ parserMessages := by decide
  refine ⟨?_, hp, hf, ?_, ?_, ?_, parsePathSegment_next_length, afterPathSegment_again_length,
    parseQuotedString_advances, parseBracketSegment_advances, ?_, ?_,
    firstField_trimmed_ne_nil, fun t h => HasPrefix_char t '?' h,
    fun t h => HasPrefix_char t '/' h, findLastUnescapedSlash_lt⟩
  · intro input
    cases h : parseFilterExpression lib input with
    | ok e => exact Or.inl ⟨e, rfl⟩
    | error m => exact Or.inr ⟨m, parseFilterExpression_error lib input m h, rfl⟩
  · intro input
    exact ⟨fun h => hp (parseFilterExpression_error lib input _ h),
      fun h => hf (parseFilterExpression_error lib input _ h)⟩
  · intro fuel s acc hl
    obtain ⟨d, rfl⟩ : ∃ d, fuel = s.length + 1 + d := ⟨fuel - (s.length + 1), by omega⟩
    exact parsePathLoop_enough d s acc
  · intro s acc h
    exact hf (parsePathLoop_error _ s acc _ (Nat.lt_succ_self _) h)
  · intro s hs h
    have := parseQuotedString_error s _ hs h
    exact absurd this (by decide)
  · intro input h
    exact hp (parseValueLiteral_error lib input _ h)

/-! ## Equality and inequality (C27) -/

/-- What a character that ends a path (the start of an operator, or
whitespace) is not. -/
theorem path_end_char (c : Char) (h : isOperatorStart c = true ∨ isWhitespace c = true) :
    c ≠ '.' ∧ c ≠ '[' ∧ c ≠ '\'' ∧ c ≠ '"' ∧ c ≠ '?' ∧ isIdentifierChar c = false := by
  have hc : c = '=' ∨ c = '!' ∨ c = '>' ∨ c = '<' ∨ c = ' ' ∨ c = '\t' ∨ c = '\n' ∨
      c = '\r' := by
    rcases h with h | h
    · simp only [isOperatorStart, Bool.or_eq_true, beq_iff_eq] at h
      tauto
    · simp only [isWhitespace, Bool.or_eq_true, beq_iff_eq] at h
      tauto
  rcases hc with rfl | rfl | rfl | rfl | rfl | rfl | rfl | rfl <;> decide

theorem parsePathSegment_end {F : Type} (c : Char) (t : GoString)
    (h : isOperatorStart c = true ∨ isWhitespace c = true) :
    parsePathSegment (F := F) (c :: t) = .stop (c :: t) ∧
    parsePathSegment (F := F) ('.' :: c :: t) = .stop (c :: t) := by
  obtain ⟨h1, h2, h3, h4, _, h6⟩ := path_end_char c h
  have hq : ¬ (c = '\'' ∨ c = '"') := fun hh => hh.elim h3 h4
  constructor
  · have hs : skipChar '.' (c :: t) = c :: t := by simp [skipChar, h1]
    unfold parsePathSegment
    simp only [hs, if_neg h2, if_neg hq, h6, Bool.not_false, if_true]
  · have hs : skipChar '.' ('.' :: c :: t) = c :: t := by simp [skipChar]
    unfold parsePathSegment
    simp only [hs, if_neg h2, if_neg hq, h6, Bool.not_false, if_true]

theorem afterPathSegment_end (c : Char) (t : GoString)
    (h : isOperatorStart c = true ∨ isWhitespace c = true) :
    afterPathSegment (c :: t) = .stop (c :: t) ∧
    afterPathSegment ('?' :: c :: t) = .stop (c :: t) := by
  obtain ⟨h1, h2, _, _, h5, _⟩ := path_end_char c h
  have hq : ¬ (c = '.' ∨ c = '[') := fun hh => hh.elim h1 h2
  constructor
  · have hs : skipChar '?' (c :: t) = c :: t := by simp [skipChar, h5]
    unfold afterPathSegment
    simp only [hs, if_neg hq, if_pos h]
  · have hs : skipChar '?' ('?' :: c :: t) = c :: t := by simp [skipChar]
    unfold afterPathSegment
    simp only [hs, if_neg hq, if_pos h]

/-- A path read to its end, followed by the start of an operator or by
whitespace, is read as the same path, and the loop stops there. -/
theorem parsePathLoop_then_end {F : Type} (c : Char) (t : GoString)
    (hc : isOperatorStart c = true ∨ isWhitespace c = true) :
    ∀ (fuel fuel' : Nat) (s : GoString) (acc path : List (Value F)), fuel ≤ fuel' →
      parsePathLoop fuel s acc = .ok ⟨path, []⟩ →
      parsePathLoop fuel' (s ++ c :: t) acc = .ok ⟨path, c :: t⟩ := by
  intro fuel
  induction fuel with
  | zero =>
    intro fuel' s acc path _ h
    simp [parsePathLoop] at h
  | succ f ih =>
    intro fuel' s acc path hlt h
    obtain ⟨f', rfl⟩ : ∃ f', fuel' = f' + 1 := ⟨fuel' - 1, by omega⟩
    have hf' : f ≤ f' := by omega
    rw [parsePathLoop] at h
    by_cases hs : s = []
    · subst hs
      rw [if_pos rfl] at h
      simp only [Except.ok.injEq, pathParseResult.mk.injEq] at h
      rw [List.nil_append, parsePathLoop, if_neg (by simp), (parsePathSegment_end c t hc).1,
        h.1]
    · rw [if_neg hs] at h
      rw [parsePathLoop, if_neg (by simp [hs])]
      cases hseg : parsePathSegment (F := F) s with
      | stop rest =>
        rw [hseg] at h
        simp only [Except.ok.injEq, pathParseResult.mk.injEq] at h
        rw [h.2] at hseg
        rw [parsePathSegment_stop_nil s hs hseg]
        simp only [List.singleton_append, (parsePathSegment_end c t hc).2, h.1]
      | fail err =>
        rw [hseg] at h
        cases h
      | segment v next =>
        rw [hseg] at h
        simp only [] at h
        obtain ⟨a, _, hsa, hloc⟩ := parsePathSegment_local s v next hseg
        have hstep := hloc (next ++ c :: t) (by
          intro d hd hid
          cases next with
          | nil =>
            simp only [List.nil_append, List.head?_cons, Option.some.injEq] at hd
            subst hd
            rw [(path_end_char _ hc).2.2.2.2.2] at hid
            cases hid
          | cons d' r => simpa using hd)
        have hsy : s ++ c :: t = a ++ (next ++ c :: t) := by
          rw [hsa, List.append_assoc]
        rw [hsy, hstep]
        simp only []
        cases htail : afterPathSegment next with
        | again rest =>
          rw [htail] at h
          simp only [] at h
          have hr := ih f' rest (acc ++ [v]) path hf' h
          obtain ⟨h1, h2⟩ := (afterPathSegment_again_iff next rest).1 htail
          have hrne : rest ≠ [] := by
            intro h0
            rw [h0] at h2
            simp at h2
          have hnne : next ≠ [] := by
            intro h0
            rw [h0] at h1
            exact hrne h1.symm
          have hag : afterPathSegment (next ++ c :: t) = .again (rest ++ c :: t) := by
            rw [afterPathSegment_again_iff, skipChar_append _ _ _ hnne, h1]
            refine ⟨rfl, ?_⟩
            cases rest with
            | nil => exact absurd rfl hrne
            | cons d r => simpa using h2
          rw [hag]
          exact hr
        | stop rest =>
          rw [htail] at h
          simp only [Except.ok.injEq, pathParseResult.mk.injEq] at h
          rw [h.2] at htail
          have hsk := afterPathSegment_stop_nil next htail
          have hag : afterPathSegment (next ++ c :: t) = .stop (c :: t) := by
            rcases skipChar_cases '?' next with ⟨h1, _⟩ | h1
            · rw [hsk] at h1
              rw [← h1]
              exact (afterPathSegment_end c t hc).1
            · rw [hsk] at h1
              rw [h1]
              exact (afterPathSegment_end c t hc).2
          rw [hag, h.1]
        | fail err =>
          rw [htail] at h
          cases h

theorem isWhitespace_isSpace (c : Char) (h : isWhitespace c = true) : isSpace c = true := by
  simp only [isWhitespace, Bool.or_eq_true, beq_iff_eq] at h
  rcases h with ((rfl | rfl) | rfl) | rfl <;> decide

theorem rdropWhile_sandwich (lead raw trail : GoString)
    (ht : ∀ c ∈ trail, isSpace c = true)
    (h2 : ∀ c, raw.getLast? = some c → isSpace c = false) (hne : raw ≠ []) :
    (lead ++ raw ++ trail).rdropWhile isSpace = lead ++ raw := by
  rw [List.rdropWhile, List.reverse_append]
  rw [dropWhile_append_stop _ _ (by intro c hc; exact ht c (List.mem_reverse.1 hc))
    (by
      intro c hc
      rw [List.head?_reverse, List.getLast?_append_of_ne_nil _ hne] at hc
      exact h2 c hc)]
  exact List.reverse_reverse _

theorem TrimSpace_rdropWhile (v : GoString) :
    TrimSpace (v.rdropWhile isSpace) = TrimSpace v := by
  obtain ⟨trail, htr, hv⟩ := TrimSpace_decompose v
  by_cases hT : TrimSpace v = []
  · have hall := (TrimSpace_eq_nil_iff v).1 hT
    have h0 : v.rdropWhile isSpace = [] := List.rdropWhile_eq_nil_iff.2 (by simpa using hall)
    rw [h0, hT]
    rfl
  · have e1 : v.rdropWhile isSpace = v.takeWhile isSpace ++ TrimSpace v := by
      have := rdropWhile_sandwich (v.takeWhile isSpace) (TrimSpace v) trail htr
        (fun c hc => TrimSpace_getLast hc) hT
      rw [← hv] at this
      exact this
    rw [e1]
    have := TrimSpace_sandwich (v.takeWhile isSpace) (TrimSpace v) [] (takeWhile_all v)
      (by simp) (fun c hc => TrimSpace_head hc) (fun c hc => TrimSpace_getLast hc) hT
    simpa using this

theorem parseValueLiteral_congr {F : Type} (lib : GoLib F) (x y : GoString)
    (h : TrimSpace x = TrimSpace y) : parseValueLiteral lib x = parseValueLiteral lib y := by
  unfold parseValueLiteral
  rw [h]

/-- A filter whose trimmed form is a path followed by a non-empty rest that
does not start with `?`: the comparison of the path with what the rest
parses to. -/
theorem parseFilterExpression_compare_of_path {F : Type} (lib : GoLib F)
    (input r rest : GoString) (pr : pathParseResult F)
    (ht : TrimSpace input = '.' :: r)
    (hp : parsePathExpression (F := F) ('.' :: r) = .ok pr)
    (hrest : TrimSpace pr.rest = rest) (hq : HasPrefix rest "?".toList = false)
    (hne : rest ≠ []) :
    parseFilterExpression lib input =
      match parseOperatorAndValue lib rest with
      | .error err => .error err
      | .ok opResult =>
        .ok { kind := "compare", path := pr.path, operator := opResult.operator,
              value := opResult.value } := by
  have ht2 : TrimSpace ('.' :: r) = '.' :: r := by
    rw [← ht, TrimSpace_idem]
  have hsel : HasPrefix (ToLower lib ('.' :: r)) "select(".toList = false := by rfl
  have hshort : parseMessageContainsShorthand (F := F) ('.' :: r) = none := by
    unfold parseMessageContainsShorthand
    rw [ht2]
    simp [HasPrefix]
  have hregex : parseRegexShorthand lib ('.' :: r) = .ok {} := by
    unfold parseRegexShorthand
    rw [ht2]
    simp [HasPrefix]
  unfold parseFilterExpression
  simp only [ht, hsel, hshort, hregex, hp, hrest, hq, if_neg hne]
  simp only [hne, if_false, Bool.false_eq_true, reduceCtorEq, ne_eq, not_true_eq_false,
    not_false_eq_true, if_true]
theorem parseOperatorAndValue_symbol_eq {F : Type} (lib : GoLib F) (o : Char)
    (ho : o = '=' ∨ o = '!') (v : GoString)
    (ht : TrimSpace (o :: '=' :: v) = o :: '=' :: v) :
    parseOperatorAndValue lib (o :: '=' :: v) =
      match parseValueLiteral lib v with
      | .error err => .error err
      | .ok value => .ok ⟨[o, '='], value⟩ := by
  have hv : parseValueLiteral lib (TrimSpace v) = parseValueLiteral lib v :=
    parseValueLiteral_congr lib _ _ (TrimSpace_idem v)
  unfold parseOperatorAndValue
  simp only [ht]
  rcases ho with rfl | rfl
  · have hw : matchWordOperator ('=' :: '=' :: v) = none := by
      simp [matchWordOperator, matchWord]
    have hs : matchSymbolOperator ('=' :: '=' :: v) = some ("==".toList, v) := rfl
    simp only [hw, hs, hv]
    cases parseValueLiteral lib v <;> simp
  · have hw : matchWordOperator ('!' :: '=' :: v) = none := by
      simp [matchWordOperator, matchWord]
    have hs : matchSymbolOperator ('!' :: '=' :: v) = some ("!=".toList, v) := rfl
    simp only [hw, hs, hv]
    cases parseValueLiteral lib v <;> simp

/-- The text of a comparison by `==` or `!=`: a path, whitespace or none, the
operator and the text of a value.  It parses to the comparison of the path
with the value the text denotes, or fails as the value does. -/
theorem parseFilterExpression_equality_form {F : Type} (lib : GoLib F)
    (p ws v : GoString) (path : List (Value F)) (o : Char) (ho : o = '=' ∨ o = '!')
    (hp : parsePathExpression p = .ok ⟨path, []⟩)
    (hws : ∀ c ∈ ws, isWhitespace c = true) :
    parseFilterExpression lib (p ++ ws ++ o :: '=' :: v) =
      match parseValueLiteral lib v with
      | .error err => .error err
      | .ok value =>
        .ok { kind := "compare", path := path, operator := [o, '='], value := value } := by
  obtain ⟨s, rfl, hloop⟩ := parsePathExpression_ok p _ hp
  have hos : isSpace o = false := by rcases ho with rfl | rfl <;> decide
  have hoq : o ≠ '?' := by rcases ho with rfl | rfl <;> decide
  have hoo : isOperatorStart o = true := by rcases ho with rfl | rfl <;> decide
  have htrim : TrimSpace ('.' :: s ++ ws ++ o :: '=' :: v) =
      '.' :: (s ++ ws ++ o :: '=' :: v.rdropWhile isSpace) := by
    unfold TrimSpace
    rw [dropWhile_head_false _ (by
      intro c hc
      simp only [List.cons_append, List.head?_cons, Option.some.injEq] at hc
      subst hc
      rfl)]
    have e : '.' :: s ++ ws ++ o :: '=' :: v = ('.' :: s ++ ws ++ [o]) ++ '=' :: v := by simp
    rw [e, rdropWhile_append_stop _ v '=' rfl]
    simp
  have hrest : TrimSpace (ws ++ o :: '=' :: v.rdropWhile isSpace) =
      o :: '=' :: v.rdropWhile isSpace := by
    unfold TrimSpace
    rw [dropWhile_append_stop ws _ (fun c hc => isWhitespace_isSpace c (hws c hc)) (by
      intro c hc
      simp only [List.head?_cons, Option.some.injEq] at hc
      subst hc
      exact hos)]
    have := rdropWhile_append_stop [o] (v.rdropWhile isSpace) '=' (p := isSpace) rfl
    rw [List.rdropWhile_idempotent] at this
    simpa using this
  have hpath : parsePathExpression (F := F)
      ('.' :: (s ++ ws ++ o :: '=' :: v.rdropWhile isSpace)) =
      .ok ⟨path, ws ++ o :: '=' :: v.rdropWhile isSpace⟩ := by
    simp only [parsePathExpression]
    cases ws with
    | nil =>
      simpa using parsePathLoop_then_end o ('=' :: v.rdropWhile isSpace) (Or.inl hoo)
        (s.length + 1) _ s [] path (by simp) hloop
    | cons w ws' =>
      have := parsePathLoop_then_end w (ws' ++ o :: '=' :: v.rdropWhile isSpace)
        (Or.inr (hws w (List.mem_cons_self _ _))) (s.length + 1)
        ((s ++ w :: ws' ++ o :: '=' :: v.rdropWhile isSpace).length + 1) s [] path
        (by simp) hloop
      simpa using this
  have hq : HasPrefix (o :: '=' :: v.rdropWhile isSpace) "?".toList = false := by
    rcases ho with rfl | rfl <;> rfl
  rw [parseFilterExpression_compare_of_path lib _ _ _ _ htrim hpath hrest hq (by simp)]
  have ht2 : TrimSpace (o :: '=' :: v.rdropWhile isSpace) = o :: '=' :: v.rdropWhile isSpace := by
    rw [← hrest, TrimSpace_idem]
  rw [parseOperatorAndValue_symbol_eq lib o ho _ ht2,
    parseValueLiteral_congr lib _ v (TrimSpace_rdropWhile v)]
  cases parseValueLiteral lib v <;> rfl
theorem compareValues_ne_eq {F : Type} (lib : GoLib F) (a e : Value F) :
    compareValues lib a "!=".toList e = !compareValues lib a "==".toList e := by
  have n1 : ¬ ("!=".toList = "contains".toList) := by decide
  have n2 : ¬ ("!=".toList = "startswith".toList) := by decide
  have n3 : ¬ ("!=".toList = "endswith".toList) := by decide
  have n4 : ¬ ("!=".toList = "==".toList) := by decide
  have m1 : ¬ ("==".toList = "contains".toList) := by decide
  have m2 : ¬ ("==".toList = "startswith".toList) := by decide
  have m3 : ¬ ("==".toList = "endswith".toList) := by decide
  unfold compareValues
  rw [if_neg n1, if_neg n2, if_neg n3, if_neg m1, if_neg m2, if_neg m3]
  cases coerceNumber lib a <;> cases coerceNumber lib e <;>
    simp only [if_neg n4, if_pos rfl] <;> rfl

/-- C27: for every library and all operands, `compareValues` with `!=` is the
negation of `compareValues` with `==`, whether the operands coerce to numbers
or not.  For every entry, path and value, when the path resolves to a
non-null value in the scope of the entry, the comparison by `!=` matches
exactly when the comparison by `==` does not.  The texts of the two filters,
a path that is read to its end, whitespace or none, `==` or `!=`, and the text
of a value, parse to these two comparisons, of the same path and the same
value (or fail alike, as the value does). -/
theorem not_equal_negates_equal {F : Type} (lib : GoLib F) :
    (∀ a e : Value F,
      compareValues lib a "!=".toList e = !compareValues lib a "==".toList e) ∧
    (∀ (entry : LogEntry F) (path : List (Value F)) (value : Value F),
      (getValueAtPath (.map (buildFilterScope entry)) path).isNull = false →
      passesFilterExpressions lib entry
          [{ kind := "compare", path := path, operator := "!=".toList, value := value }] =
        !passesFilterExpressions lib entry
          [{ kind := "compare", path := path, operator := "==".toList, value := value }]) ∧
    (∀ (p ws v : GoString) (path : List (Value F)),
      parsePathExpression p = .ok ⟨path, []⟩ → (∀ c ∈ ws, isWhitespace c = true) →
      parseFilterExpression lib (p ++ ws ++ "==".toList ++ v) =
        (match parseValueLiteral lib v with
         | .error err => .error err
         | .ok value =>
           .ok { kind := "compare", path := path, operator := "==".toList, value := value }) ∧
      parseFilterExpression lib (p ++ ws ++ "!=".toList ++ v) =
        (match parseValueLiteral lib v with
         | .error err => .error err
         | .ok value =>
           .ok { kind := "compare", path := path, operator := "!=".toList, value := value })) := by
  refine ⟨compareValues_ne_eq lib, ?_, ?_⟩
  · intro entry path value hv
    rw [passes_single, passes_single]
    have k1 : ¬ (("compare" : String) = "regex") := by decide
    have k2 : ¬ (("compare" : String) = "exists") := by decide
    simp only [evaluateFilterExpression, if_neg k1, if_neg k2, hv, Bool.false_eq_true, if_false]
    exact compareValues_ne_eq lib _ _
  · intro p ws v path hp hws
    constructor
    · have := parseFilterExpression_equality_form lib p ws v path '=' (Or.inl rfl) hp hws
      simpa only [List.append_assoc] using this
    · have := parseFilterExpression_equality_form lib p ws v path '!' (Or.inr rfl) hp hws
      simpa only [List.append_assoc] using this

/-! ## The bare word and the scope (C28) -/

/-- A bare word parses to the test that the message contains it. -/
theorem parseFilterExpression_word {F : Type} (lib : GoLib F) (w : GoString)
    (hne : w ≠ []) (hw : ∀ c ∈ w, isWordChar c = true) :
    parseFilterExpression lib w =
      .ok { kind := "compare", path := [Value.str "message".toList],
            operator := "contains".toList, value := Value.str w } := by
  have hhead : ∀ c, w.head? = some c → isWordChar c = true :=
    fun c hc => hw c (List.mem_of_mem_head? hc)
  have hlast : ∀ c, w.getLast? = some c → isWordChar c = true :=
    fun c hc => hw c (List.mem_of_mem_getLast? hc)
  have ht : TrimSpace w = w :=
    TrimSpace_eq_self (fun c hc => isWordChar_not_space (hhead c hc))
      (fun c hc => isWordChar_not_space (hlast c hc))
  have hq : ¬ (w.length > 1 ∧
      ((w.head? = some '"' ∧ w.getLast? = some '"') ∨
       (w.head? = some '\'' ∧ w.getLast? = some '\''))) := by
    rintro ⟨_, ⟨h, _⟩ | ⟨h, _⟩⟩
    · exact absurd (hhead _ h) (by decide)
    · exact absurd (hhead _ h) (by decide)
  unfold parseFilterExpression
  simp only [ht, hne, HasPrefix_ToLower_select_of_word lib w hw, if_false, Bool.false_eq_true]
  rw [parseMessageContainsShorthand_of_trimmed w ht hne
    (fun h => absurd (hhead _ h) (by decide)) (fun h => absurd (hhead _ h) (by decide)),
    if_neg hq]

/-- What the name `message` holds in the scope of an entry: the member
`message` of the payload when it has one, the message of the entry
otherwise. -/
theorem buildFilterScope_message {F : Type} (entry : LogEntry F)
    (hnd : ((entry.Fields.getD []).map Prod.fst).Nodup) :
    mapGet (buildFilterScope entry) "message".toList =
      match mapGet (entry.Fields.getD []) "message".toList with
      | some v => some v
      | none => some (.str entry.Msg) := by
  rw [buildFilterScope_lookup entry hnd]
  cases mapGet (entry.Fields.getD []) "message".toList with
  | some v => rfl
  | none =>
    simp only []
    rw [if_neg (by decide), if_neg (by decide), if_neg (by decide), if_neg (by decide)]
    rfl

theorem evaluate_message_contains {F : Type} (lib : GoLib F) (w : GoString)
    (scope : List (GoString × Value F)) :
    evaluateFilterExpression lib
        { kind := "compare", path := [Value.str "message".toList],
          operator := "contains".toList, value := Value.str w } scope =
      match mapGet scope "message".toList with
      | some v => if v.isNull then false else compareValues lib v "contains".toList (.str w)
      | none => false := by
  have k1 : ¬ (("compare" : String) = "regex") := by decide
  have k2 : ¬ (("compare" : String) = "exists") := by decide
  simp only [evaluateFilterExpression, if_neg k1, if_neg k2]
  rw [getValueAtPath_key]
  cases mapGet scope "message".toList with
  | none => rfl
  | some v => simp only [getValueAtPath_nil]

/-- C28: for every library, every entry (its payload a map, of distinct keys)
and every bare word `w` (a non-empty run of letters, digits and underscores),
the filter `w` parses to the test that `message` contains `w`.  When the
payload has no key `message`, the filter matches exactly when `w` is a
substring of the message of the entry.  When the payload has the key
`message`, with value `v`, the filter is decided by `v`, whatever the message
of the entry is: no match when `v` is null, otherwise `v` contains `w`. -/
theorem bare_word_tests_scope_message {F : Type} (lib : GoLib F) (entry : LogEntry F)
    (w : GoString) (hne : w ≠ []) (hw : ∀ c ∈ w, isWordChar c = true)
    (hnd : ((entry.Fields.getD []).map Prod.fst).Nodup) :
    parseFilterExpression lib w =
      .ok { kind := "compare", path := [Value.str "message".toList],
            operator := "contains".toList, value := Value.str w } ∧
    (mapGet (entry.Fields.getD []) "message".toList = none →
      (passesFilterExpressions lib entry
          [{ kind := "compare", path := [Value.str "message".toList],
             operator := "contains".toList, value := Value.str w }] = true ↔
        w <:+: entry.Msg)) ∧
    (∀ v, mapGet (entry.Fields.getD []) "message".toList = some v →
      passesFilterExpressions lib entry
          [{ kind := "compare", path := [Value.str "message".toList],
             operator := "contains".toList, value := Value.str w }] =
        (if v.isNull then false else compareValues lib v "contains".toList (.str w))) ∧
    (mapGet (entry.Fields.getD []) "message".toList = some .null →
      passesFilterExpressions lib entry
          [{ kind := "compare", path := [Value.str "message".toList],
             operator := "contains".toList, value := Value.str w }] = false) := by
  have hpass : passesFilterExpressions lib entry
      [{ kind := "compare", path := [Value.str "message".toList],
         operator := "contains".toList, value := Value.str w }] =
      match mapGet (entry.Fields.getD []) "message".toList with
      | some v => if v.isNull then false else compareValues lib v "contains".toList (.str w)
      | none => Contains entry.Msg w := by
    rw [passes_single, evaluate_message_contains, buildFilterScope_message entry hnd]
    cases mapGet (entry.Fields.getD []) "message".toList with
    | some v => rfl
    | none => rfl
  refine ⟨parseFilterExpression_word lib w hne hw, ?_, ?_, ?_⟩
  · intro h
    rw [hpass, h]
    exact Contains_iff _ _
  · intro v h
    rw [hpass, h]
  · intro h
    rw [hpass, h]
    rfl

/-- C28 at the entry of the line `{"msg":"hello","message":"bye"}`: its
message is `hello`, taken from `msg`, and the filter `hello` does not match
it, because the payload has the member `message`. -/
theorem bare_word_tests_scope_message_witness :
    entryMsgMessage.Msg = "hello".toList ∧
    parseFilterExpression demoLib "hello".toList =
      .ok { kind := "compare", path := [Value.str "message".toList],
            operator := "contains".toList, value := Value.str "hello".toList } ∧
    passesFilterExpressions demoLib entryMsgMessage
      [{ kind := "compare", path := [Value.str "message".toList],
         operator := "contains".toList, value := Value.str "hello".toList }] = false :=
  have h := bare_word_tests_scope_message demoLib entryMsgMessage "hello".toList
    (by decide) (by decide) (by decide)
  ⟨rfl, h.1, (h.2.2.1 (Value.str "bye".toList) rfl).trans rfl⟩

/-! ## String severities (C21) -/

theorem matchDigits_head (d : GoString) (h : matchDigits d = true) :
    ∃ c r, d = c :: r ∧ isDigit c = true := by
  cases d with
  | nil => simp [matchDigits] at h
  | cons c r =>
    simp only [matchDigits, List.isEmpty_cons, Bool.not_false, List.all_cons, Bool.true_and,
      Bool.and_eq_true] at h
    exact ⟨c, r, rfl, h.1⟩

theorem AtoiChecked_minus (r : GoString) :
    AtoiChecked ('-' :: r) =
      if matchDigits r then
        (if -(2 ^ 63) ≤ -(digitsValue r : Int) ∧ -(digitsValue r : Int) < 2 ^ 63 then
          some (-(digitsValue r : Int)) else none)
      else none := by
  simp only [AtoiChecked, if_true]

theorem AtoiChecked_plus (r : GoString) :
    AtoiChecked ('+' :: r) =
      if matchDigits r then
        (if -(2 ^ 63) ≤ (digitsValue r : Int) ∧ (digitsValue r : Int) < 2 ^ 63 then
          some (digitsValue r : Int) else none)
      else none := by
  simp only [AtoiChecked, Bool.false_eq_true, if_false]

theorem AtoiChecked_unsigned (s : GoString) (h1 : s.head? ≠ some '-')
    (h2 : s.head? ≠ some '+') :
    AtoiChecked s =
      if matchDigits s then
        (if -(2 ^ 63) ≤ (digitsValue s : Int) ∧ (digitsValue s : Int) < 2 ^ 63 then
          some (digitsValue s : Int) else none)
      else none := by
  unfold AtoiChecked
  split
  rename_i neg digits hm
  split at hm
  · exact absurd rfl h1
  · exact absurd rfl h2
  · simp only [Prod.mk.injEq] at hm
    obtain ⟨hn, rfl⟩ := hm
    subst hn
    simp only [Bool.false_eq_true, if_false]

theorem AtoiChecked_spec (s : GoString) (n : Int) :
    AtoiChecked s = some n ↔ denotesInt s n := by
  have hdig : ∀ d : GoString, matchDigits d = true →
      d.head? ≠ some '-' ∧ d.head? ≠ some '+' := by
    intro d hd
    obtain ⟨c, r, rfl, hc⟩ := matchDigits_head d hd
    constructor
    · intro h
      simp only [List.head?_cons, Option.some.injEq] at h
      subst h
      exact absurd hc (by decide)
    · intro h
      simp only [List.head?_cons, Option.some.injEq] at h
      subst h
      exact absurd hc (by decide)
  by_cases hm : s.head? = some '-'
  · obtain ⟨r, rfl⟩ : ∃ r, s = '-' :: r := by
      cases s with
      | nil => simp at hm
      | cons c r =>
        simp only [List.head?_cons, Option.some.injEq] at hm
        exact ⟨r, by rw [hm]⟩
    rw [AtoiChecked_minus]
    constructor
    · intro h
      split at h
      · rename_i hd
        split at h
        · rename_i hr
          simp only [Option.some.injEq] at h
          subst h
          exact ⟨r, hd, Or.inr ⟨rfl, rfl⟩, hr.1, hr.2⟩
        · cases h
      · cases h
    · rintro ⟨d, hd, hcase, hr1, hr2⟩
      rcases hcase with ⟨hs | hs, hn⟩ | ⟨hs, hn⟩
      · exact absurd (by rw [← hs]; rfl) (hdig d hd).1
      · cases hs
      · simp only [List.cons.injEq, true_and] at hs
        subst hs hn
        rw [if_pos hd, if_pos ⟨hr1, hr2⟩]
  · by_cases hp : s.head? = some '+'
    · obtain ⟨r, rfl⟩ : ∃ r, s = '+' :: r := by
        cases s with
        | nil => simp at hp
        | cons c r =>
          simp only [List.head?_cons, Option.some.injEq] at hp
          exact ⟨r, by rw [hp]⟩
      rw [AtoiChecked_plus]
      constructor
      · intro h
        split at h
        · rename_i hd
          split at h
          · rename_i hr
            simp only [Option.some.injEq] at h
            subst h
            exact ⟨r, hd, Or.inl ⟨Or.inr rfl, rfl⟩, hr.1, hr.2⟩
          · cases h
        · cases h
      · rintro ⟨d, hd, hcase, hr1, hr2⟩
        rcases hcase with ⟨hs | hs, hn⟩ | ⟨hs, hn⟩
        · exact absurd (by rw [← hs]; rfl) (hdig d hd).2
        · simp only [List.cons.injEq, true_and] at hs
          subst hs hn
          rw [if_pos hd, if_pos ⟨hr1, hr2⟩]
        · cases hs
    · rw [AtoiChecked_unsigned s hm hp]
      constructor
      · intro h
        split at h
        · rename_i hd
          split at h
          · rename_i hr
            simp only [Option.some.injEq] at h
            subst h
            exact ⟨s, hd, Or.inl ⟨Or.inl rfl, rfl⟩, hr.1, hr.2⟩
          · cases h
        · cases h
      · rintro ⟨d, hd, hcase, hr1, hr2⟩
        rcases hcase with ⟨hs | hs, hn⟩ | ⟨hs, hn⟩
        · subst hs hn
          rw [if_pos hd, if_pos ⟨hr1, hr2⟩]
        · exact absurd (by rw [hs]; rfl) hp
        · exact absurd (by rw [hs]; rfl) hm

/-- C21, the claim at the string `40.0`: it is numeric-looking and denotes the
number 40.0, whose level is `warn` with rank 40, and `levelFromString` gives
`unknown` with rank 0, because `strconv.Atoi` accepts integers only. -/
theorem levelFromString_decimal_counterexample :
    matchNumber "40.0".toList = true ∧
    decimalLib.parseFloat "40.0".toList = some { mant := 400, scale := 1 } ∧
    normalizeLevel decimalLib (Value.num { mant := 400, scale := 1 }) = ("warn".toList, 40) ∧
    levelFromString decimalLib "40.0".toList = ("unknown".toList, 0) ∧
    levelFromString decimalLib "40.0".toList ≠
      normalizeLevel decimalLib (Value.num { mant := 400, scale := 1 }) := by
  refine ⟨by decide, by decide, by decide, by decide, by decide⟩

theorem levelTable_not_int : ∀ e ∈ levelTable, AtoiChecked e.1 = none := by decide

theorem levelFromString_table {F : Type} (lib : GoLib F) (raw : GoString)
    (h : AtoiChecked (ToLower lib (TrimSpace raw)) = none) :
    levelFromString lib raw =
      (levelTable.lookup (ToLower lib (TrimSpace raw))).getD ("unknown".toList, 0) := by
  unfold levelFromString
  simp only [h]
  generalize ToLower lib (TrimSpace raw) = s
  split_ifs with h0 h1 h2 h3 h4 h5 h6
  · subst h0; rfl
  · subst h1; rfl
  · rcases h2 with rfl | rfl <;> rfl
  · rcases h3 with rfl | rfl | rfl <;> rfl
  · rcases h4 with rfl | rfl <;> rfl
  · rcases h5 with rfl | rfl <;> rfl
  · rcases h6 with rfl | rfl | rfl | rfl <;> rfl
  · simp only [not_or] at h2 h3 h4 h5 h6
    simp only [String.toList] at h0 h1 h2 h3 h4 h5 h6
    obtain ⟨h21, h22⟩ := h2
    obtain ⟨h31, h32, h33⟩ := h3
    obtain ⟨h41, h42⟩ := h4
    obtain ⟨h51, h52⟩ := h5
    obtain ⟨h61, h62, h63, h64⟩ := h6
    have b := fun (t : GoString) (ht : ¬ s = t) => beq_eq_false_iff_ne.2 ht
    simp [levelTable, List.lookup, b _ h1, b _ h21, b _ h22, b _ h31, b _ h32, b _ h33,
      b _ h41, b _ h42, b _ h51, b _ h52, b _ h61, b _ h62, b _ h63, b _ h64]

/-- C21, amended: with `s` the trimmed, lower-cased string, when `s` denotes
an integer `n` (an optional sign and decimal digits, in the range of `int`)
`levelFromString` returns the level and rank of the number `n`; when `s`
denotes no integer it returns what the table of names gives for `s`, and
`unknown` with rank 0 for a string the table does not hold.  No name of the
table denotes an integer. -/
theorem levelFromString_spec {F : Type} (lib : GoLib F) (raw : GoString) :
    (∀ n, denotesInt (ToLower lib (TrimSpace raw)) n →
      levelFromString lib raw = levelFromNumber n) ∧
    ((∀ n, ¬ denotesInt (ToLower lib (TrimSpace raw)) n) →
      levelFromString lib raw =
        (levelTable.lookup (ToLower lib (TrimSpace raw))).getD ("unknown".toList, 0)) ∧
    (∀ e ∈ levelTable, ∀ n, ¬ denotesInt e.1 n) := by
  refine ⟨?_, ?_, ?_⟩
  · intro n hn
    have h := (AtoiChecked_spec _ n).2 hn
    have hs : ToLower lib (TrimSpace raw) ≠ [] := by
      intro h0
      rw [h0] at h
      cases h
    unfold levelFromString
    simp only [h, if_neg hs]
  · intro hn
    apply levelFromString_table
    cases h : AtoiChecked (ToLower lib (TrimSpace raw)) with
    | none => rfl
    | some n => exact absurd ((AtoiChecked_spec _ n).1 h) (hn n)
  · intro e he n hn
    have h := (AtoiChecked_spec _ n).2 hn
    rw [levelTable_not_int e he] at h
    cases h

/-! ## The normalizer: `parseLine` (C22, C23) -/

theorem natDigits_ne_nil (fuel n : Nat) : natDigits (fuel + 1) n ≠ [] := by
  rw [natDigits]
  split
  · simp
  · simp

theorem Itoa_ne_nil (n : Int) : Itoa n ≠ [] := by
  unfold Itoa
  split
  · simp
  · exact natDigits_ne_nil _ _

/-- The rendering of a value that is not a string is not empty, when the
rendering of a `float64` is not. -/
theorem Sprint_ne_nil {F : Type} (lib : GoLib F) (hfmt : ∀ f, lib.formatFloat f ≠ [])
    (v : Value F) (hv : ∀ s, v ≠ .str s) : Sprint lib v ≠ [] := by
  cases v with
  | null => rw [Sprint]; decide
  | bool b => rw [Sprint]; cases b <;> decide
  | num f => rw [Sprint]; exact hfmt f
  | int n => rw [Sprint]; exact Itoa_ne_nil n
  | str s => exact absurd rfl (hv s)
  | list xs => rw [Sprint]; simp
  | map kvs => rw [Sprint]; simp

theorem parseLine_error {F T : Type} (lib : GoLib F) (rt : GoRuntime F T) (now : T)
    (line err : GoString) (hdec : rt.unmarshal line = .error err) :
    parseLine lib rt now line =
      { Raw := line, Ingested := formatTime rt now, Level := "plain".toList, Msg := line,
        ParseError := err } := by
  unfold parseLine
  simp only [hdec]

theorem parseLine_ok {F T : Type} (lib : GoLib F) (rt : GoRuntime F T) (now : T)
    (line : GoString) (payload : Option (List (GoString × Value F)))
    (hdec : rt.unmarshal line = .ok payload) :
    parseLine lib rt now line =
      { Raw := line, Ingested := formatTime rt now, Fields := payload,
        Msg :=
          if pickString lib payload
              ["msg".toList, "message".toList, "event".toList, "error".toList,
               "err".toList] = [] then line
          else pickString lib payload
              ["msg".toList, "message".toList, "event".toList, "error".toList, "err".toList],
        Level :=
          if (extractLevel lib payload).1 = [] then "unknown".toList
          else (extractLevel lib payload).1,
        LevelNum := (extractLevel lib payload).2,
        Time := extractTime lib rt payload } := by
  unfold parseLine
  simp only [hdec]
  split_ifs <;> rfl

/-- The loop of `pickString` returns the value of the first key that
qualifies, and the empty string when there is none. -/
theorem pickString_findSome {F : Type} (lib : GoLib F)
    (fields : Option (List (GoString × Value F))) (keys : List GoString) :
    pickString lib fields keys =
      (keys.findSome? fun key =>
        match mapGet (fields.getD []) key with
        | none => none
        | some .null => none
        | some (.str s) => if TrimSpace s = [] then none else some s
        | some v => some (Sprint lib v)).getD [] := by
  induction keys with
  | nil => rfl
  | cons key keys ih =>
    rw [pickString, List.findSome?_cons]
    cases hm : mapGet (fields.getD []) key with
    | none =>
      simp only []
      exact ih
    | some val =>
      cases val with
      | null =>
        simp only [Value.isNull, if_true]
        exact ih
      | str s =>
        simp only [Value.isNull, Bool.false_eq_true, if_false]
        by_cases hs : TrimSpace s = []
        · simp only [hs, ne_eq, not_true_eq_false, if_false, if_true]
          exact ih
        · simp only [hs, ne_eq, not_false_eq_true, if_true, if_false, Option.getD_some]
      | bool b => rfl
      | num f => rfl
      | int n => rfl
      | list xs => rfl
      | map kvs => rfl

/-- What `specMessage` returns is never empty, when the rendering of a
`float64` is not. -/
theorem specMessage_ne_nil {F : Type} (lib : GoLib F) (hfmt : ∀ f, lib.formatFloat f ≠ [])
    (payload : Option (List (GoString × Value F))) (m : GoString)
    (h : specMessage lib payload = some m) : m ≠ [] := by
  unfold specMessage at h
  obtain ⟨key, _, hk⟩ := List.exists_of_findSome?_eq_some h
  cases hm : mapGet (payload.getD []) key with
  | none => rw [hm] at hk; cases hk
  | some val =>
    rw [hm] at hk
    cases val with
    | null => cases hk
    | str s =>
      simp only [] at hk
      split at hk
      · cases hk
      · rename_i hs
        simp only [Option.some.injEq] at hk
        subst hk
        intro h0
        rw [h0] at hs
        exact hs rfl
    | bool b =>
      simp only [Option.some.injEq] at hk
      subst hk
      exact Sprint_ne_nil lib hfmt _ (by intro s; simp)
    | num f =>
      simp only [Option.some.injEq] at hk
      subst hk
      exact Sprint_ne_nil lib hfmt _ (by intro s; simp)
    | int n =>
      simp only [Option.some.injEq] at hk
      subst hk
      exact Sprint_ne_nil lib hfmt _ (by intro s; simp)
    | list xs =>
      simp only [Option.some.injEq] at hk
      subst hk
      exact Sprint_ne_nil lib hfmt _ (by intro s; simp)
    | map kvs =>
      simp only [Option.some.injEq] at hk
      subst hk
      exact Sprint_ne_nil lib hfmt _ (by intro s; simp)

/-- C22: for every library in which the rendering of a `float64` is never
empty (as in Go), every runtime and every line that decodes, to the payload
`payload`, the message of the entry `parseLine` builds is the value of the
first key, in the order `msg`, `message`, `event`, `error`, `err`, that the
payload holds with a value that is not null and not a blank string (a string
as it is, another value as its string rendering), and the line itself when no
key qualifies. -/
theorem message_is_first_qualifying {F T : Type} (lib : GoLib F) (rt : GoRuntime F T)
    (now : T) (line : GoString) (payload : Option (List (GoString × Value F)))
    (hdec : rt.unmarshal line = .ok payload) (hfmt : ∀ f, lib.formatFloat f ≠ []) :
    (parseLine lib rt now line).Msg = (specMessage lib payload).getD line := by
  rw [parseLine_ok lib rt now line payload hdec]
  simp only []
  have hp := pickString_findSome lib payload
    ["msg".toList, "message".toList, "event".toList, "error".toList, "err".toList]
  rw [hp]
  change (if (specMessage lib payload).getD [] = [] then line
    else (specMessage lib payload).getD []) = (specMessage lib payload).getD line
  cases hs : specMessage lib payload with
  | none => simp
  | some m =>
    have := specMessage_ne_nil lib hfmt payload m hs
    simp [this]

/-- C22 at the line `{"msg":" ","event":42,"err":"e"}`: `msg` is blank,
`message` is absent, and the message is the rendering `42` of `event`. -/
theorem message_is_first_qualifying_witness :
    (parseLine demoLib demoRuntime 0
      "\x7b\"msg\":\" \",\"event\":42,\"err\":\"e\"\x7d".toList).Msg = "42".toList :=
  (message_is_first_qualifying demoLib demoRuntime 0
    "\x7b\"msg\":\" \",\"event\":42,\"err\":\"e\"\x7d".toList
    (some [("msg".toList, Value.str " ".toList), ("event".toList, Value.num 42),
           ("err".toList, Value.str "e".toList)])
    (by rfl) Itoa_ne_nil).trans (by rfl)

/-- C23: for every runtime and every line that fails to decode, with the error
text `err`, `parseLine` returns the entry with level `plain`, message and raw
the line, the error text as parse error (non-empty when the error text is),
and nothing else set: no payload, no event time, no level rank. -/
theorem parseLine_decode_failure {F T : Type} (lib : GoLib F) (rt : GoRuntime F T) (now : T)
    (line err : GoString) (hdec : rt.unmarshal line = .error err) :
    parseLine lib rt now line =
      { ID := 0, Time := [], Ingested := formatTime rt now, SentMs := 0,
        Level := "plain".toList, LevelNum := 0, Msg := line, Raw := line, Fields := none,
        ParseError := err } ∧
    (err ≠ [] → (parseLine lib rt now line).ParseError ≠ []) := by
  rw [parseLine_error lib rt now line err hdec]
  exact ⟨rfl, fun h => h⟩

/-- C23 at the line `server started`. -/
theorem parseLine_decode_failure_witness :
    parseLine demoLib demoRuntime 0 "server started".toList =
      { ID := 0, Time := [], Ingested := formatTime demoRuntime 0, SentMs := 0,
        Level := "plain".toList, LevelNum := 0, Msg := "server started".toList,
        Raw := "server started".toList, Fields := none,
        ParseError := "invalid character 's' looking for beginning of value".toList } :=
  (parseLine_decode_failure demoLib demoRuntime 0 "server started".toList
    "invalid character 's' looking for beginning of value".toList (by rfl)).1

/-! ## The normalizer: raw and level of every entry (C24) -/

theorem unknown_mem_levelNames : "unknown".toList ∈ levelNames := by decide

theorem plain_mem_levelNames : "plain".toList ∈ levelNames := by decide

theorem levelFromNumber_name (n : Int) : (levelFromNumber n).1 ∈ levelNames := by
  unfold levelFromNumber
  split_ifs <;> (show _ ∈ levelNames) <;> simp only [] <;> decide

theorem levelFromString_name {F : Type} (lib : GoLib F) (raw : GoString) :
    (levelFromString lib raw).1 ∈ levelNames := by
  unfold levelFromString
  simp only []
  by_cases h0 : ToLower lib (TrimSpace raw) = []
  · rw [if_pos h0]
    decide
  · rw [if_neg h0]
    cases AtoiChecked (ToLower lib (TrimSpace raw)) with
    | some n => exact levelFromNumber_name n
    | none =>
      simp only []
      split_ifs <;> decide

theorem normalizeLevel_name {F : Type} (lib : GoLib F) (val : Value F) :
    (normalizeLevel lib val).1 ∈ levelNames := by
  cases val with
  | num f => exact levelFromNumber_name _
  | str s => exact levelFromString_name lib s
  | null => exact unknown_mem_levelNames
  | bool b => exact unknown_mem_levelNames
  | int n => exact unknown_mem_levelNames
  | list xs => exact unknown_mem_levelNames
  | map kvs => exact unknown_mem_levelNames

theorem extractLevelLoop_name {F : Type} (lib : GoLib F)
    (fields : Option (List (GoString × Value F))) (keys : List GoString) :
    (extractLevelLoop lib fields keys).1 = [] ∨
      (extractLevelLoop lib fields keys).1 ∈ levelNames := by
  induction keys with
  | nil => exact Or.inl rfl
  | cons key keys ih =>
    rw [extractLevelLoop]
    cases mapGet (fields.getD []) key with
    | none => exact ih
    | some val => exact Or.inr (normalizeLevel_name lib val)

theorem parseLine_raw_level {F T : Type} (lib : GoLib F) (rt : GoRuntime F T) (now : T)
    (line : GoString) :
    (parseLine lib rt now line).Raw = line ∧ (parseLine lib rt now line).Level ∈ levelNames := by
  cases hdec : rt.unmarshal line with
  | error err =>
    rw [parseLine_error lib rt now line err hdec]
    exact ⟨rfl, plain_mem_levelNames⟩
  | ok payload =>
    rw [parseLine_ok lib rt now line payload hdec]
    refine ⟨rfl, ?_⟩
    simp only []
    split_ifs with h
    · decide
    · rcases extractLevelLoop_name lib payload
        ["level".toList, "severity".toList, "lvl".toList, "level_name".toList] with h1 | h1
      · exact absurd h1 h
      · exact h1

/-- C24, the claim at the empty line and at the line of one carriage return:
the entry of the blank-line branch of `readStdin` has an empty raw. -/
theorem readStdinEntry_empty_raw_counterexample :
    (readStdinEntry demoLib demoRuntime 0 []).Raw = [] ∧
    (readStdinEntry demoLib demoRuntime 0 "\r".toList).Raw = [] ∧
    ¬ ((readStdinEntry demoLib demoRuntime 0 []).Raw ≠ [] ∧
       (readStdinEntry demoLib demoRuntime 0 []).Level ≠ []) := by
  refine ⟨by rfl, by rfl, ?_⟩
  rintro ⟨h, _⟩
  exact h (by rfl)

/-- C24, amended: for every library, runtime and text of the scanner, the
entry built (by the blank-line branch of `readStdin`, otherwise by
`parseLine`) has as raw the line, which is the text without its trailing
carriage returns, so that the raw is empty exactly when that line is empty and
is not empty for a line that is not blank; its level is not empty and is one
of `trace`, `debug`, `info`, `warn`, `error`, `fatal`, `unknown`, `plain`. -/
theorem readStdinEntry_raw_level {F T : Type} (lib : GoLib F) (rt : GoRuntime F T) (now : T)
    (text : GoString) :
    (readStdinEntry lib rt now text).Raw = TrimRight text "\r".toList ∧
    ((readStdinEntry lib rt now text).Raw = [] ↔ TrimRight text "\r".toList = []) ∧
    (TrimSpace (TrimRight text "\r".toList) ≠ [] → (readStdinEntry lib rt now text).Raw ≠ []) ∧
    (readStdinEntry lib rt now text).Level ∈ levelNames ∧
    (readStdinEntry lib rt now text).Level ≠ [] := by
  have hraw : (readStdinEntry lib rt now text).Raw = TrimRight text "\r".toList := by
    unfold readStdinEntry
    simp only []
    split_ifs
    · rfl
    · exact (parseLine_raw_level lib rt now _).1
  have hlevel : (readStdinEntry lib rt now text).Level ∈ levelNames := by
    unfold readStdinEntry
    simp only []
    split_ifs
    · exact plain_mem_levelNames
    · exact (parseLine_raw_level lib rt now _).2
  refine ⟨hraw, by rw [hraw], ?_, hlevel, ?_⟩
  · intro h h0
    rw [hraw] at h0
    rw [h0] at h
    exact h rfl
  · intro h0
    rw [h0] at hlevel
    exact absurd hlevel (by decide)

/-! ## The normalizer: the event time (C25) -/

theorem extractTimeLoop_findSome {F T : Type} (lib : GoLib F) (rt : GoRuntime F T)
    (fields : Option (List (GoString × Value F))) (keys : List GoString) :
    extractTimeLoop lib rt fields keys =
      (keys.findSome? fun key =>
        match mapGet (fields.getD []) key with
        | none => none
        | some v =>
          if formatTimeValue lib rt v = [] then none
          else some (formatTimeValue lib rt v)).getD [] := by
  induction keys with
  | nil => rfl
  | cons key keys ih =>
    rw [extractTimeLoop, List.findSome?_cons]
    cases hm : mapGet (fields.getD []) key with
    | none =>
      simp only []
      exact ih
    | some val =>
      simp only []
      by_cases hr : formatTimeValue lib rt val = []
      · simp only [hr, ne_eq, not_true_eq_false, if_false, if_true]
        exact ih
      · simp only [hr, ne_eq, not_false_eq_true, if_true, if_false, Option.getD_some]

theorem extractTimeLoop_first {F T : Type} (lib : GoLib F) (rt : GoRuntime F T)
    (fields : Option (List (GoString × Value F))) (keys : List GoString) :
    (∀ v, firstPresent fields keys = some v → formatTimeValue lib rt v ≠ [] →
      extractTimeLoop lib rt fields keys = formatTimeValue lib rt v) ∧
    (firstPresent fields keys = none → extractTimeLoop lib rt fields keys = []) := by
  induction keys with
  | nil =>
    constructor
    · intro v h
      cases h
    · intro _
      rfl
  | cons key keys ih =>
    unfold firstPresent at ih ⊢
    rw [extractTimeLoop, List.findSome?_cons]
    cases hm : mapGet (fields.getD []) key with
    | none => exact ih
    | some val =>
      constructor
      · intro v h hv
        simp only [Option.some.injEq] at h
        subst h
        simp only [hv, ne_eq, not_false_eq_true, if_true]
      · intro h
        cases h

/-- C25, the claim at the payload of the line `{"time":true,"ts":"x"}`: the
first key present is `time`, its value renders to the empty string, and the
event time is the rendering `x` of `ts`, a later key. -/
theorem extractTime_later_key_counterexample :
    firstPresent payloadTimeTs
      ["time".toList, "timestamp".toList, "ts".toList, "@timestamp".toList] =
      some (Value.bool true) ∧
    formatTimeValue demoLib demoRuntime (Value.bool true) = [] ∧
    extractTime demoLib demoRuntime payloadTimeTs = "x".toList ∧
    extractTime demoLib demoRuntime payloadTimeTs ≠
      formatTimeValue demoLib demoRuntime (Value.bool true) := by
  refine ⟨by rfl, by rfl, by rfl, by decide⟩

/-- C25, amended: for every library, runtime and payload, the event time is
the rendering by `formatTimeValue` of the first key, in the order `time`,
`timestamp`, `ts`, `@timestamp`, that is present with a non-empty rendering,
and it is empty when there is none.  So it is the rendering of the first key
present when that rendering is not empty, and it is empty when none of the
four keys is present. -/
theorem extractTime_spec {F T : Type} (lib : GoLib F) (rt : GoRuntime F T)
    (payload : Option (List (GoString × Value F))) :
    extractTime lib rt payload = specEventTime lib rt payload ∧
    (∀ v,
      firstPresent payload
        ["time".toList, "timestamp".toList, "ts".toList, "@timestamp".toList] = some v →
      formatTimeValue lib rt v ≠ [] →
      extractTime lib rt payload = formatTimeValue lib rt v) ∧
    (firstPresent payload
        ["time".toList, "timestamp".toList, "ts".toList, "@timestamp".toList] = none →
      extractTime lib rt payload = []) ∧
    (∀ (now : T) (line : GoString), rt.unmarshal line = .ok payload →
      (parseLine lib rt now line).Time = extractTime lib rt payload) := by
  refine ⟨extractTimeLoop_findSome lib rt payload _, (extractTimeLoop_first lib rt payload _).1,
    (extractTimeLoop_first lib rt payload _).2, ?_⟩
  intro now line hdec
  rw [parseLine_ok lib rt now line payload hdec]

/-! ## The hub: one broadcast (C26) -/

theorem broadcastLoop_spec (msg : GoString) (clients : List Nat) :
    ∀ chans : Nat → Chan, clients.Nodup → (∀ ch ∈ clients, (chans ch).closed = false) →
      ∃ chans', broadcastLoop clients chans msg = .ok chans' ∧
        ∀ ch, chans' ch =
          if ch ∈ clients ∧ (chans ch).buf.length < (chans ch).cap then
            { chans ch with buf := (chans ch).buf ++ [msg] }
          else chans ch := by
  induction clients with
  | nil =>
    intro chans _ _
    exact ⟨chans, rfl, fun ch => by simp⟩
  | cons a l ih =>
    intro chans hnd hopen
    have ha : (chans a).closed = false := hopen a (List.mem_cons_self _ _)
    have hal : a ∉ l := (List.nodup_cons.1 hnd).1
    have hsend : trySend (chans a) msg = .ok
        (if (chans a).buf.length < (chans a).cap then
          { chans a with buf := (chans a).buf ++ [msg] } else chans a) := by
      unfold trySend
      rw [if_neg (by simp [ha])]
      split <;> rfl
    obtain ⟨chans', h1, h2⟩ := ih
      (Function.update chans a
        (if (chans a).buf.length < (chans a).cap then
          { chans a with buf := (chans a).buf ++ [msg] } else chans a))
      (List.nodup_cons.1 hnd).2
      (by
        intro ch hch
        have hne : ch ≠ a := fun h => hal (h ▸ hch)
        rw [Function.update_noteq hne]
        exact hopen ch (List.mem_cons_of_mem _ hch))
    refine ⟨chans', ?_, ?_⟩
    · rw [broadcastLoop, hsend]
      exact h1
    · intro ch
      rw [h2 ch]
      by_cases hca : ch = a
      · subst hca
        simp only [hal, false_and, if_false, Function.update_same, List.mem_cons, true_or,
          true_and]
      · rw [Function.update_noteq hca]
        simp only [List.mem_cons, hca, false_or]

/-- C26: one round of the hub loop on a broadcast, for every hub whose
subscriber set holds each channel once and holds open channels only, and for
every message.  The round ends (no send waits), the subscriber set is
unchanged, the message is appended to the buffer of every registered channel
whose buffer is not full, the channel of every subscriber with a full buffer
is unchanged, and so is every channel outside the set.  After the round the
set still holds each channel once and open channels only; a round on
`unregister` that closes a channel removes it from the set first, so that a
closed channel is outside the set. -/
theorem broadcast_step (h : Hub) (msg : GoString) (hnd : h.clients.Nodup)
    (hopen : ∀ ch ∈ h.clients, (h.chans ch).closed = false) :
    ∃ h', h.Run (.broadcast msg) = .ok h' ∧
      h'.clients = h.clients ∧
      (∀ ch ∈ h.clients, (h.chans ch).buf.length < (h.chans ch).cap →
        h'.chans ch = { h.chans ch with buf := (h.chans ch).buf ++ [msg] }) ∧
      (∀ ch ∈ h.clients, ¬ (h.chans ch).buf.length < (h.chans ch).cap →
        h'.chans ch = h.chans ch) ∧
      (∀ ch, ch ∉ h.clients → h'.chans ch = h.chans ch) ∧
      (h'.clients.Nodup ∧ ∀ ch ∈ h'.clients, (h'.chans ch).closed = false) ∧
      (∀ ch h2, h.Run (.unregister ch) = .ok h2 →
        ch ∉ h2.clients ∧ h2.clients.Nodup ∧
        (∀ c ∈ h2.clients, (h2.chans c).closed = false) ∧
        (ch ∈ h.clients → (h2.chans ch).closed = true)) := by
  obtain ⟨chans', h1, h2⟩ := broadcastLoop_spec msg h.clients h.chans hnd hopen
  refine ⟨{ h with chans := chans' }, ?_, rfl, ?_, ?_, ?_, ⟨hnd, ?_⟩, ?_⟩
  · simp only [Hub.Run, h1]
  · intro ch hch hroom
    show chans' ch = _
    rw [h2 ch, if_pos ⟨hch, hroom⟩]
  · intro ch hch hfull
    show chans' ch = _
    rw [h2 ch, if_neg (fun hh => hfull hh.2)]
  · intro ch hch
    show chans' ch = _
    rw [h2 ch, if_neg (fun hh => hch hh.1)]
  · intro ch hch
    show (chans' ch).closed = false
    rw [h2 ch]
    split
    · exact hopen ch hch
    · exact hopen ch hch
  · intro ch h2' hrun
    simp only [Hub.Run] at hrun
    split at hrun
    · rename_i hmem
      split at hrun
      · cases hrun
      · simp only [Except.ok.injEq] at hrun
        subst hrun
        refine ⟨?_, hnd.erase ch, ?_, ?_⟩
        · exact fun hh => (List.Nodup.mem_erase_iff hnd).1 hh |>.1 rfl
        · intro c hc
          have hc' := (List.Nodup.mem_erase_iff hnd).1 hc
          show (Function.update h.chans ch _ c).closed = false
          rw [Function.update_noteq hc'.1]
          exact hopen c hc'.2
        · intro _
          show (Function.update h.chans ch _ ch).closed = true
          rw [Function.update_same]
    · rename_i hmem
      simp only [Except.ok.injEq] at hrun
      subst hrun
      exact ⟨hmem, hnd, hopen, fun hh => absurd hh hmem⟩

/-- C26 at a hub with two subscribers, one with room and one with a full
buffer, and a closed channel outside the set. -/
theorem broadcast_step_witness :
    ∃ h', demoHub.Run (.broadcast "m".toList) = .ok h' ∧
      h'.clients = [1, 2] ∧
      (h'.chans 1).buf = ["m".toList] ∧
      (h'.chans 2).buf = ["old".toList] ∧
      h'.chans 3 = demoHub.chans 3 :=
  have ⟨h', h1, h2, h3, h4, h5, _⟩ :=
    broadcast_step demoHub "m".toList (by decide) (by decide)
  ⟨h', h1, h2, by rw [h3 1 (by decide) (by decide)]; rfl,
    by rw [h4 2 (by decide) (by decide)]; rfl, h5 3 (by decide)⟩

/-! ## Totality of the parser over bytes (C13) -/

namespace Bytewise

theorem Safe_mono {α : Type} {P Q : α → Prop} (h : ∀ a, P a → Q a) :
    ∀ r : Except String α, Safe P r → Safe Q r
  | .ok a, hr => h a hr
  | .error _, hr => hr

theorem byteAt_ok (s : ByteString) (i : Nat) (h : i < s.length) :
    byteAt s (i : Int) = .ok (s.getD i 0) := by
  unfold byteAt
  rw [if_pos ⟨by omega, by exact_mod_cast h⟩]
  simp

theorem byteAt_ok_int (s : ByteString) (i : Int) (h0 : 0 ≤ i) (h : i < s.length) :
    ∃ b, byteAt s i = .ok b := by
  unfold byteAt
  rw [if_pos ⟨h0, h⟩]
  exact ⟨_, rfl⟩

theorem slice_ok (s : ByteString) (lo hi : Int) (h0 : 0 ≤ lo) (h1 : lo ≤ hi)
    (h2 : hi ≤ s.length) : slice s lo hi = .ok ((s.take hi.toNat).drop lo.toNat) := by
  unfold slice
  rw [if_pos ⟨h0, h1, h2⟩]

theorem holdsAt_eq (s : ByteString) (i : Nat) (p : Nat → Bool) :
    holdsAt s i p = .ok (if i < s.length then p (s.getD i 0) else false) := by
  unfold holdsAt
  by_cases h : i < s.length
  · rw [if_pos (by exact_mod_cast h), byteAt_ok s i h, if_pos h]
  · rw [if_neg (by exact_mod_cast h), if_neg h]

/-- The scanning loops end, within the input and not before where they
started; they advance when the first byte is one they pass over. -/
theorem scanWhile_ok (input : ByteString) (p : Nat → Bool) :
    ∀ fuel i, i ≤ input.length → input.length - i < fuel →
      ∃ j, scanWhile input p fuel i = .ok j ∧ i ≤ j ∧ j ≤ input.length ∧
        (i < input.length → p (input.getD i 0) = true → i < j) := by
  intro fuel
  induction fuel with
  | zero => intro i _ h; omega
  | succ fuel ih =>
    intro i hi hf
    rw [scanWhile, holdsAt_eq]
    by_cases hlt : i < input.length
    · rw [if_pos hlt]
      cases hp : p (input.getD i 0) with
      | true =>
        simp only []
        obtain ⟨j, hj, h1, h2, _⟩ := ih (i + 1) (by omega) (by omega)
        exact ⟨j, hj, by omega, h2, fun _ _ => by omega⟩
      | false =>
        simp only []
        exact ⟨i, rfl, le_refl _, hi, fun _ h => by simp at h⟩
    · rw [if_neg hlt]
      simp only []
      exact ⟨i, rfl, le_refl _, hi, fun h _ => absurd h hlt⟩

theorem unterminated_mem : "unterminated string" ∈ parserMessages := by decide

theorem unclosed_mem : "unclosed bracket in path" ∈ parserMessages := by decide

theorem empty_segment_mem : "empty bracket segment" ∈ parserMessages := by decide

/-- The loop of `parseQuotedString` reads within the input and returns an
index after the one it started at. -/
theorem parseQuotedLoop_safe (input : ByteString) (quote : Nat) :
    ∀ fuel i value, i ≤ input.length → input.length - i < fuel →
      Safe (fun r => i < r.2 ∧ r.2 ≤ input.length)
        (parseQuotedLoop input quote fuel i value) := by
  intro fuel
  induction fuel with
  | zero => intro i _ _ h; omega
  | succ fuel ih =>
    intro i value hi hf
    rw [parseQuotedLoop]
    by_cases hlt : i < input.length
    · rw [if_pos (by exact_mod_cast hlt), byteAt_ok input i hlt]
      simp only []
      by_cases hesc : input.getD i 0 = byte '\\' ∧ (i : Int) + 1 < input.length
      · have hlt2 : i + 1 < input.length := by
          have := hesc.2
          omega
        have hb : byteAt input ((i : Int) + 1) = .ok (input.getD (i + 1) 0) := by
          have := byteAt_ok input (i + 1) hlt2
          simpa using this
        rw [if_pos hesc, hb]
        simp only []
        split_ifs
        · exact Safe_mono (fun r hr => ⟨by omega, hr.2⟩) _
            (ih (i + 2) _ (by omega) (by omega))
        · exact ⟨by simp, by simpa using hlt⟩
        · exact Safe_mono (fun r hr => ⟨by omega, hr.2⟩) _
            (ih (i + 1) _ (by omega) (by omega))
      · rw [if_neg hesc]
        simp only []
        split_ifs with h1 h2
        · exact absurd rfl h1.2
        · exact ⟨by simp, by simpa using hlt⟩
        · exact Safe_mono (fun r hr => ⟨by omega, hr.2⟩) _
            (ih (i + 1) _ (by omega) (by omega))
    · rw [if_neg (by exact_mod_cast hlt)]
      exact unterminated_mem

theorem parseQuotedString_safe (input : ByteString) (index : Nat)
    (h : index < input.length) :
    Safe (fun r => index < r.2 ∧ r.2 ≤ input.length) (parseQuotedString input index) := by
  unfold parseQuotedString
  rw [byteAt_ok input index h]
  exact Safe_mono (fun r hr => ⟨by omega, hr.2⟩) _
    (parseQuotedLoop_safe input _ (input.length + 1) (index + 1) [] (by omega) (by omega))

theorem closeBracket_safe {F : Type} (input : ByteString) (value : Value F) (i : Nat)
    (h : i ≤ input.length) :
    Safe (fun r => i < r.2 ∧ r.2 ≤ input.length) (closeBracket input value i) := by
  unfold closeBracket
  obtain ⟨j, hj, h1, h2, _⟩ := scanWhile_ok input isWhitespace (input.length + 1) i h (by omega)
  rw [hj]
  simp only []
  by_cases hge : (j : Int) ≥ input.length
  · rw [if_pos hge]
    exact unclosed_mem
  · rw [if_neg hge]
    have hlt : j < input.length := by omega
    rw [byteAt_ok input j hlt]
    simp only []
    split_ifs
    · exact unclosed_mem
    · exact ⟨by simp; omega, by simp; omega⟩

theorem parseBracketSegment_safe {F : Type} (lib : ByteLib F) (input : ByteString)
    (index : Nat) (h : index < input.length) :
    Safe (fun r => index < r.2 ∧ r.2 ≤ input.length)
      (parseBracketSegment lib input index) := by
  unfold parseBracketSegment
  obtain ⟨i, hi, h1, h2, _⟩ :=
    scanWhile_ok input isWhitespace (input.length + 1) (index + 1) (by omega) (by omega)
  rw [hi]
  simp only []
  by_cases hge : (i : Int) ≥ input.length
  · rw [if_pos hge]
    exact unclosed_mem
  · rw [if_neg hge]
    have hlt : i < input.length := by omega
    rw [byteAt_ok input i hlt]
    simp only []
    split_ifs with hq
    · have hs := parseQuotedString_safe input i hlt
      cases hp : parseQuotedString input i with
      | error err =>
        rw [hp] at hs
        exact hs
      | ok r =>
        rw [hp] at hs
        obtain ⟨parsed, next⟩ := r
        simp only []
        exact Safe_mono (fun r hr => ⟨by have := hs.1; simp at this; omega, hr.2⟩) _
          (closeBracket_safe input _ next hs.2)
    · obtain ⟨j, hj, j1, j2, _⟩ := scanWhile_ok input
        (fun ch => !isWhitespace ch && ch != byte ']') (input.length + 1) i h2 (by omega)
      rw [hj]
      simp only []
      rw [slice_ok input i j (by omega) (by exact_mod_cast j1) (by exact_mod_cast j2)]
      simp only []
      split_ifs
      · exact empty_segment_mem
      · exact Safe_mono (fun r hr => ⟨by omega, hr.2⟩) _ (closeBracket_safe input _ j j2)
      · exact Safe_mono (fun r hr => ⟨by omega, hr.2⟩) _ (closeBracket_safe input _ j j2)

/-- Where a round of the path loop may end: going on, at an index inside the
input that is `lo` or more; or leaving the loop, at an index within the
input. -/
theorem afterSegment_safe {F : Type} (input : ByteString) (i : Nat) (path : List (Value F))
    (h : i ≤ input.length) :
    Safe (fun r => match r with
        | .again j _ => i ≤ j ∧ j < input.length
        | .stop j _ => j ≤ input.length)
      (afterSegment input i path) := by
  unfold afterSegment
  rw [holdsAt_eq]
  simp only []
  have hi' : (if (if i < input.length then input.getD i 0 == byte '?' else false) = true
      then i + 1 else i) ≤ input.length ∧
      i ≤ (if (if i < input.length then input.getD i 0 == byte '?' else false) = true
      then i + 1 else i) := by
    by_cases hlt : i < input.length
    · rw [if_pos hlt]
      split_ifs
      · exact ⟨by omega, by omega⟩
      · exact ⟨h, le_refl _⟩
    · rw [if_neg hlt]
      simp only [Bool.false_eq_true, if_false]
      exact ⟨h, le_refl _⟩
  generalize (if (if i < input.length then input.getD i 0 == byte '?' else false) = true
      then i + 1 else i) = k at hi'
  by_cases hge : (k : Int) ≥ input.length
  · rw [if_pos hge]
    exact hi'.1
  · rw [if_neg hge]
    have hlt : k < input.length := by omega
    rw [byteAt_ok input k hlt]
    simp only []
    split_ifs
    · exact ⟨hi'.2, hlt⟩
    · exact hi'.1
    · show "unexpected token in path" ∈ parserMessages
      decide

/-- One round of the path loop that goes on has advanced: the index it goes on
at is beyond the index it was entered at, and inside the input. -/
theorem pathRound_safe {F : Type} (lib : ByteLib F) (input : ByteString) (i : Nat)
    (path : List (Value F)) (h : i < input.length) :
    Safe (fun r => match r with
        | .again j _ => i < j ∧ j < input.length
        | .stop j _ => j ≤ input.length)
      (pathRound lib input i path) := by
  have hweak : ∀ (k : Nat) (p : List (Value F)), i < k → k ≤ input.length →
      Safe (fun r => match r with
        | .again j _ => i < j ∧ j < input.length
        | .stop j _ => j ≤ input.length) (afterSegment input k p) := by
    intro k p hik hk
    refine Safe_mono ?_ _ (afterSegment_safe input k p hk)
    intro r hr
    cases r with
    | again j q =>
      have hr' : k ≤ j ∧ j < input.length := hr
      exact ⟨by omega, hr'.2⟩
    | stop j q => exact hr
  unfold pathRound
  rw [byteAt_ok input i h]
  simp only []
  have hk : i ≤ (if input.getD i 0 = byte '.' then i + 1 else i) ∧
      (if input.getD i 0 = byte '.' then i + 1 else i) ≤ input.length := by
    split_ifs
    · exact ⟨by omega, by omega⟩
    · exact ⟨le_refl _, by omega⟩
  generalize (if input.getD i 0 = byte '.' then i + 1 else i) = k at hk
  by_cases hge : (k : Int) ≥ input.length
  · rw [if_pos hge]
    exact hk.2
  · rw [if_neg hge]
    have hlt : k < input.length := by omega
    rw [byteAt_ok input k hlt]
    simp only []
    split_ifs with h1 h2 h3
    · have hs := parseBracketSegment_safe lib input k hlt
      cases hp : parseBracketSegment lib input k with
      | error err =>
        rw [hp] at hs
        exact hs
      | ok r =>
        rw [hp] at hs
        obtain ⟨value, next⟩ := r
        have hs' : k < next ∧ next ≤ input.length := hs
        exact hweak next _ (by omega) hs'.2
    · have hs := parseQuotedString_safe input k hlt
      cases hp : parseQuotedString input k with
      | error err =>
        rw [hp] at hs
        exact hs
      | ok r =>
        rw [hp] at hs
        obtain ⟨value, next⟩ := r
        have hs' : k < next ∧ next ≤ input.length := hs
        exact hweak next _ (by omega) hs'.2
    · exact hk.2
    · obtain ⟨j, hj, j1, j2, j3⟩ :=
        scanWhile_ok input isIdentifierChar (input.length + 1) k hk.2 (by omega)
      have hadv : k < j := j3 hlt (by simpa using h3)
      rw [hj]
      simp only []
      rw [slice_ok input k j (by omega) (by exact_mod_cast j1) (by exact_mod_cast j2)]
      exact hweak j _ (by omega) j2

/-- The loop of `parsePathExpression` ends with fuel for one round per byte,
and takes its last slice within the input. -/
theorem parsePathLoop_safe {F : Type} (lib : ByteLib F) (input : ByteString) :
    ∀ fuel i (path : List (Value F)), i ≤ input.length → input.length - i < fuel →
      Safe (fun _ => True) (parsePathLoop lib input fuel i path) := by
  intro fuel
  induction fuel with
  | zero => intro i _ _ h; omega
  | succ fuel ih =>
    intro i path hi hf
    rw [parsePathLoop]
    by_cases hlt : i < input.length
    · rw [if_pos (by exact_mod_cast hlt)]
      have hs := pathRound_safe lib input i path hlt
      cases hp : pathRound lib input i path with
      | error err =>
        rw [hp] at hs
        exact hs
      | ok r =>
        rw [hp] at hs
        cases r with
        | again j q =>
          have hs' : i < j ∧ j < input.length := hs
          exact ih j q (by omega) (by omega)
        | stop j q =>
          have hs' : j ≤ input.length := hs
          simp only []
          rw [slice_ok input j input.length (by omega) (by exact_mod_cast hs') (le_refl _)]
          trivial
    · rw [if_neg (by exact_mod_cast hlt)]
      rw [slice_ok input i input.length (by omega) (by exact_mod_cast hi) (le_refl _)]
      trivial

theorem HasPrefix_length (s p : ByteString) (h : HasPrefix s p = true) :
    p.length ≤ s.length := by
  unfold HasPrefix at h
  exact (List.isPrefixOf_iff_prefix.1 h).length_le

theorem parsePathExpression_safe {F : Type} (lib : ByteLib F) (input : ByteString) :
    Safe (fun _ => True) (parsePathExpression lib input) := by
  unfold parsePathExpression
  cases hp : HasPrefix input (ascii ".") with
  | false =>
    show "filters must start with a '.' path" ∈ parserMessages
    decide
  | true =>
    have hl : 1 ≤ input.length := HasPrefix_length input (ascii ".") hp
    exact parsePathLoop_safe lib input (input.length + 1) 1 [] hl (by omega)

theorem spacePatterns_ne_nil : ∀ p ∈ spacePatterns, p.length ≠ 0 := by decide

theorem leadingSpace_ne_zero_iff (s : ByteString) :
    leadingSpace s ≠ 0 ↔ ∃ p ∈ spacePatterns, p.isPrefixOf s = true := by
  unfold leadingSpace
  constructor
  · intro h
    cases hf : spacePatterns.find? (fun p => p.isPrefixOf s) with
    | none => rw [hf] at h; exact absurd rfl h
    | some p =>
      have h2 := List.find?_some hf
      exact ⟨p, List.mem_of_find?_eq_some hf, h2⟩
  · rintro ⟨p, hp, hps⟩
    cases hf : spacePatterns.find? (fun p => p.isPrefixOf s) with
    | none =>
      have := List.find?_eq_none.1 hf p hp
      simp [hps] at this
    | some q => exact spacePatterns_ne_nil q (List.mem_of_find?_eq_some hf)

theorem leadingSpace_ne_nil (s : ByteString) (h : leadingSpace s ≠ 0) : s ≠ [] := by
  obtain ⟨p, hp, hps⟩ := (leadingSpace_ne_zero_iff s).1 h
  rintro rfl
  have hl := (List.isPrefixOf_iff_prefix.1 hps).length_le
  exact spacePatterns_ne_nil p hp (by simpa using hl)

/-- A prefix of a string that starts with no white space starts with none. -/
theorem leadingSpace_of_prefix (r s : ByteString) (hrs : r <+: s) (h : leadingSpace s = 0) :
    leadingSpace r = 0 := by
  by_contra hr
  obtain ⟨p, hp, hps⟩ := (leadingSpace_ne_zero_iff r).1 hr
  exact (leadingSpace_ne_zero_iff s).2
    ⟨p, hp, List.isPrefixOf_iff_prefix.2 ((List.isPrefixOf_iff_prefix.1 hps).trans hrs)⟩ h

theorem trimLeftLoop_leading : ∀ (fuel : Nat) (s : ByteString), s.length ≤ fuel →
    leadingSpace (trimLeftLoop fuel s) = 0 := by
  intro fuel
  induction fuel with
  | zero =>
    intro s hs
    have : s = [] := List.length_eq_zero.1 (Nat.le_zero.1 hs)
    subst this
    rfl
  | succ fuel ih =>
    intro s hs
    rw [trimLeftLoop]
    split_ifs with h
    · exact h
    · apply ih
      have hne := List.length_pos.2 (leadingSpace_ne_nil s h)
      rw [List.length_drop]
      omega

theorem trimLeftLoop_fixed (fuel : Nat) (s : ByteString) (h : leadingSpace s = 0) :
    trimLeftLoop fuel s = s := by
  cases fuel with
  | zero => rfl
  | succ fuel => rw [trimLeftLoop, if_pos h]

theorem trimRightLoop_isPrefix : ∀ (fuel : Nat) (s : ByteString), trimRightLoop fuel s <+: s := by
  intro fuel
  induction fuel with
  | zero => intro s; exact List.prefix_refl s
  | succ fuel ih =>
    intro s
    rw [trimRightLoop]
    split_ifs
    · exact List.prefix_refl s
    · exact (ih _).trans (List.take_prefix _ _)

/-- What `strings.TrimSpace` returns starts with no white space. -/
theorem TrimSpace_leading (s : ByteString) : leadingSpace (TrimSpace s) = 0 := by
  unfold TrimSpace
  exact leadingSpace_of_prefix _ _ (trimRightLoop_isPrefix _ _)
    (trimLeftLoop_leading s.length s (le_refl _))

theorem fieldEnd_length : ∀ s : ByteString, (fieldEnd s).length ≤ s.length := by
  intro s
  induction s with
  | nil => simp [fieldEnd]
  | cons b r ih =>
    rw [fieldEnd]
    split_ifs
    · simp
    · simp only [List.length_cons]
      omega

/-- A trimmed string that is not empty has a first field, no longer than the
string. -/
theorem firstField_ok (t : ByteString) (hne : t ≠ []) (h : leadingSpace t = 0) :
    ∃ token, firstField t = .ok token ∧ token.length ≤ t.length := by
  unfold firstField
  simp only [trimLeftLoop_fixed _ t h, if_neg hne]
  exact ⟨_, rfl, fieldEnd_length t⟩

theorem parseValueLiteral_safe {F : Type} (lib : ByteLib F) (input : ByteString) :
    Safe (fun _ => True) (parseValueLiteral lib input) := by
  unfold parseValueLiteral
  by_cases h0 : TrimSpace input = []
  · rw [if_pos h0]
    show "missing value" ∈ parserMessages
    decide
  · rw [if_neg h0]
    simp only []
    have hlead := TrimSpace_leading input
    generalize TrimSpace input = trimmed at h0 hlead
    have hpos : 0 < trimmed.length := List.length_pos.2 h0
    have hb := byteAt_ok trimmed 0 hpos
    simp only [Nat.cast_zero] at hb
    rw [hb]
    simp only []
    split_ifs with hq
    · have hs := parseQuotedString_safe trimmed 0 hpos
      cases hp : parseQuotedString trimmed 0 with
      | error err =>
        rw [hp] at hs
        exact hs
      | ok r =>
        rw [hp] at hs
        obtain ⟨value, next⟩ := r
        have hs' : 0 < next ∧ next ≤ trimmed.length := hs
        simp only []
        rw [slice_ok trimmed next trimmed.length (by omega) (by exact_mod_cast hs'.2)
          (le_refl _)]
        simp only []
        split_ifs
        · show "unexpected token after quoted value" ∈ parserMessages
          decide
        · trivial
    · obtain ⟨token, ht, hl⟩ := firstField_ok trimmed h0 hlead
      rw [ht]
      simp only []
      rw [slice_ok trimmed token.length trimmed.length (by omega) (by exact_mod_cast hl)
        (le_refl _)]
      simp only []
      split_ifs
      · show "unexpected token after value" ∈ parserMessages
        decide
      · trivial

theorem findWordOperator_cases (s : ByteString) :
    findWordOperator s = [] ∨
      ∃ w, findWordOperator s = [w, w] ∧ w.length ≤ s.length := by
  unfold findWordOperator
  cases hf : [ascii "contains", ascii "startswith", ascii "endswith"].find?
      (fun w => matchWord w s) with
  | none => exact Or.inl rfl
  | some w =>
    have h2 := List.find?_some hf
    simp only [matchWord, Bool.and_eq_true] at h2
    exact Or.inr ⟨w, rfl, (List.isPrefixOf_iff_prefix.1 h2.1).length_le⟩

theorem findSymbolOperator_cases (s : ByteString) :
    findSymbolOperator s = [] ∨
      ∃ w, findSymbolOperator s = [w, w] ∧ w.length ≤ s.length := by
  unfold findSymbolOperator
  cases hf : [ascii "==", ascii "!=", ascii ">=", ascii "<=", ascii ">", ascii "<",
      ascii "="].find? (fun w => w.isPrefixOf s) with
  | none => exact Or.inl rfl
  | some w =>
    have h2 := List.find?_some hf
    exact Or.inr ⟨w, rfl, (List.isPrefixOf_iff_prefix.1 h2).length_le⟩

theorem parseOperand_safe {F : Type} (lib : ByteLib F) (trimmed operator w : ByteString)
    (hw : w.length ≤ trimmed.length) :
    Safe (fun _ => True) (parseOperand lib trimmed operator [w, w]) := by
  unfold parseOperand
  have hg : groupAt [w, w] 0 = .ok w := rfl
  rw [hg]
  simp only []
  rw [slice_ok trimmed w.length trimmed.length (by omega) (by exact_mod_cast hw) (le_refl _)]
  simp only []
  have hs := parseValueLiteral_safe lib
    (TrimSpace (List.drop (w.length : Int).toNat (List.take (trimmed.length : Int).toNat trimmed)))
  cases hp : parseValueLiteral lib
      (TrimSpace (List.drop (w.length : Int).toNat
        (List.take (trimmed.length : Int).toNat trimmed))) with
  | error err =>
    rw [hp] at hs
    exact hs
  | ok value => trivial

theorem parseOperatorAndValue_safe {F : Type} (lib : ByteLib F) (input : ByteString) :
    Safe (fun _ => True) (parseOperatorAndValue lib input) := by
  unfold parseOperatorAndValue
  simp only []
  generalize TrimSpace input = trimmed
  split_ifs with h0 h1 h2
  · show "missing operator" ∈ parserMessages
    decide
  · rcases findWordOperator_cases trimmed with hw | ⟨w, hw, hl⟩
    · rw [hw] at h1
      simp at h1
    · rw [hw]
      have hg : groupAt [w, w] 1 = .ok w := rfl
      rw [hg]
      exact parseOperand_safe lib trimmed _ w hl
  · show "expected an operator" ∈ parserMessages
    decide
  · rcases findSymbolOperator_cases trimmed with hw | ⟨w, hw, hl⟩
    · rw [hw] at h2
      simp at h2
    · rw [hw]
      have hg : groupAt [w, w] 1 = .ok w := rfl
      rw [hg]
      exact parseOperand_safe lib trimmed _ w hl

theorem quotedBy_ok (value : ByteString) (q : Nat) (h : 0 < value.length) :
    ∃ b, quotedBy value q = .ok b := by
  unfold quotedBy
  have hb := byteAt_ok value 0 h
  simp only [Nat.cast_zero] at hb
  rw [hb]
  simp only []
  split_ifs
  · obtain ⟨b, hb2⟩ := byteAt_ok_int value ((value.length : Int) - 1) (by omega) (by omega)
    rw [hb2]
    exact ⟨_, rfl⟩
  · exact ⟨_, rfl⟩

theorem parseMessageContainsShorthand_safe {F : Type} (expr : ByteString) :
    Safe (fun _ => True) (parseMessageContainsShorthand (F := F) expr) := by
  unfold parseMessageContainsShorthand
  simp only []
  generalize TrimSpace expr = trimmed
  split_ifs with h0 h1
  · trivial
  · have hsl := slice_ok trimmed 1 ((trimmed.length : Int) - 1) (by omega) (by omega) (by omega)
    obtain ⟨b1, hb1⟩ := quotedBy_ok trimmed (byte '"') (by omega)
    obtain ⟨b2, hb2⟩ := quotedBy_ok trimmed (byte '\'') (by omega)
    rw [hb1]
    cases b1 with
    | true =>
      simp only []
      rw [hsl]
      trivial
    | false =>
      simp only []
      rw [hb2]
      cases b2 with
      | true =>
        simp only []
        rw [hsl]
        trivial
      | false => trivial
  · trivial

/-- The index `findLastUnescapedSlash` returns is `-1` or an index of the
input, and the loop reads within the input. -/
theorem findLastUnescapedSlashFrom_ok (input : ByteString) :
    ∀ n, n ≤ input.length →
      ∃ k : Int, findLastUnescapedSlashFrom input n = .ok k ∧ -1 ≤ k ∧ k < n := by
  intro n
  induction n with
  | zero => intro _; exact ⟨-1, rfl, le_refl _, by decide⟩
  | succ i ih =>
    intro hn
    obtain ⟨k, hk, k1, k2⟩ := ih (by omega)
    have hrec : ∃ k : Int, findLastUnescapedSlashFrom input i = .ok k ∧ -1 ≤ k ∧
        k < ((i + 1 : Nat) : Int) := ⟨k, hk, k1, by push_cast; omega⟩
    have hhere : ∃ k : Int, (Except.ok (i : Int) : Except String Int) = .ok k ∧ -1 ≤ k ∧
        k < ((i + 1 : Nat) : Int) := ⟨i, rfl, by omega, by push_cast; omega⟩
    rw [findLastUnescapedSlashFrom, byteAt_ok input i (by omega)]
    simp only []
    split_ifs with h1 h2
    · exact hhere
    · obtain ⟨b, hb⟩ := byteAt_ok_int input ((i : Int) - 1) (by omega) (by omega)
      rw [hb]
      simp only []
      split_ifs
      · exact hhere
      · exact hrec
    · exact hrec

theorem buildRegex_safe {F : Type} (lib : ByteLib F) (pattern flags : ByteString) :
    Safe (fun _ => True) (buildRegex lib pattern flags) := by
  unfold buildRegex
  split_ifs
  · show "regex pattern is empty" ∈ parserMessages
    decide
  · cases compileRegex lib pattern flags with
    | none =>
      show "invalid regex" ∈ parserMessages
      decide
    | some compiled => trivial

theorem parseRegexShorthand_safe {F : Type} (lib : ByteLib F) (expr : ByteString) :
    Safe (fun _ => True) (parseRegexShorthand lib expr) := by
  unfold parseRegexShorthand
  simp only []
  generalize TrimSpace expr = trimmed
  cases hp : HasPrefix trimmed (ascii "/") with
  | false => trivial
  | true =>
    have hl : 1 ≤ trimmed.length := HasPrefix_length trimmed (ascii "/") hp
    simp only [Bool.not_true, Bool.false_eq_true, if_false]
    split_ifs
    · show "regex pattern is empty" ∈ parserMessages
      decide
    · rw [slice_ok trimmed 1 trimmed.length (by omega) (by omega) (le_refl _)]
      simp only []
      obtain ⟨k, hk, k1, k2⟩ := findLastUnescapedSlashFrom_ok trimmed trimmed.length (le_refl _)
      unfold findLastUnescapedSlash
      rw [hk]
      simp only []
      split_ifs with hpos
      · rw [slice_ok trimmed (k + 1) trimmed.length (by omega) (by omega) (le_refl _)]
        simp only []
        split_ifs
        · rw [slice_ok trimmed 1 k (by omega) (by omega) (by omega)]
          exact buildRegex_safe lib _ _
        · exact buildRegex_safe lib _ _
      · exact buildRegex_safe lib _ _

theorem parseComparison_safe {F : Type} (lib : ByteLib F) (pathResult : pathParseResult F) :
    Safe (fun _ => True) (parseComparison lib pathResult) := by
  unfold parseComparison
  simp only []
  generalize TrimSpace pathResult.rest = rest
  have hfinal : ∀ r : ByteString, Safe (fun _ => True)
      (if r = [] then (.ok { kind := "exists", path := pathResult.path } :
          Except String (filterExpression F))
       else
        match parseOperatorAndValue lib r with
        | .error err => .error err
        | .ok opResult =>
          .ok { kind := "compare", path := pathResult.path, operator := opResult.operator,
                value := opResult.value }) := by
    intro r
    split_ifs
    · trivial
    · have hs := parseOperatorAndValue_safe lib r
      cases hp : parseOperatorAndValue lib r with
      | error err =>
        rw [hp] at hs
        exact hs
      | ok opResult => trivial
  cases hp : HasPrefix rest (ascii "?") with
  | false => exact hfinal rest
  | true =>
    have hl : 1 ≤ rest.length := HasPrefix_length rest (ascii "?") hp
    simp only [if_true]
    rw [slice_ok rest 1 rest.length (by omega) (by omega) (le_refl _)]
    exact hfinal _

/-- Over bytes, `parseFilterExpression` returns an expression or one of the
errors the source makes. -/
theorem parseFilterExpression_safe {F : Type} (lib : ByteLib F) (input : ByteString) :
    Safe (fun _ => True) (parseFilterExpression lib input) := by
  unfold parseFilterExpression
  simp only []
  generalize TrimSpace input = raw
  split_ifs
  · show "filter is empty" ∈ parserMessages
    decide
  · show "select syntax is not supported" ∈ parserMessages
    decide
  · have hs := parseMessageContainsShorthand_safe (F := F) raw
    cases hp : parseMessageContainsShorthand (F := F) raw with
    | error err =>
      rw [hp] at hs
      exact hs
    | ok short =>
      cases short with
      | some expr => trivial
      | none =>
        simp only []
        have hr := parseRegexShorthand_safe lib raw
        cases hq : parseRegexShorthand lib raw with
        | error err =>
          rw [hq] at hr
          exact hr
        | ok expr =>
          simp only []
          split_ifs
          · trivial
          · have hpe := parsePathExpression_safe lib raw
            cases hx : parsePathExpression lib raw with
            | error err =>
              rw [hx] at hpe
              exact hpe
            | ok pathResult => exact parseComparison_safe lib pathResult

theorem Safe_cases {α : Type} {P : α → Prop} (r : Except String α) (h : Safe P r) :
    (∃ a, r = .ok a ∧ P a) ∨ ∃ msg ∈ parserMessages, r = .error msg := by
  cases r with
  | ok a => exact Or.inl ⟨a, rfl, h⟩
  | error msg => exact Or.inr ⟨msg, h, rfl⟩

/-- C13: the parser is total on every string of bytes, valid UTF-8 or not.
For every library and every input, `parseFilterExpression` returns an
expression or one of the errors the source makes; it never returns the panic
of an index or slice out of range, which every index and slice of this
embedding is checked for, and never runs out of fuel, which is one round per
byte of the input.  So do the functions it calls, on every input and index
they can be called with: `parseQuotedString` and `parseBracketSegment` return
an index beyond the one they were given and within the input, a round of the
loop of `parsePathExpression` that goes on does so at an index beyond the one
it was entered at, the scanning loops end within the input, and
`findLastUnescapedSlash` returns `-1` or an index of the input. -/
theorem parseFilterExpression_total {F : Type} (lib : ByteLib F) (input : ByteString) :
    ((∃ e, parseFilterExpression lib input = .ok e) ∨
      ∃ msg ∈ parserMessages, parseFilterExpression lib input = .error msg) ∧
    parseFilterExpression lib input ≠ .error goPanic ∧
    parseFilterExpression lib input ≠ .error outOfFuel ∧
    goPanic ∉ parserMessages ∧ outOfFuel ∉ parserMessages ∧
    (∀ index, index < input.length →
      Safe (fun r => index < r.2 ∧ r.2 ≤ input.length) (parseQuotedString input index)) ∧
    (∀ index, index < input.length →
      Safe (fun r => index < r.2 ∧ r.2 ≤ input.length)
        (parseBracketSegment lib input index)) ∧
    (∀ (i : Nat) (path : List (Value F)), i < input.length →
      Safe (fun r => match r with
          | .again j _ => i < j ∧ j < input.length
          | .stop j _ => j ≤ input.length)
        (pathRound lib input i path)) ∧
    (∀ (i : Nat) (path : List (Value F)), i ≤ input.length →
      Safe (fun _ => True) (parsePathLoop lib input (input.length - i + 1) i path)) ∧
    (∀ (p : Nat → Bool) (i : Nat), i ≤ input.length →
      ∃ j, scanWhile input p (input.length + 1) i = .ok j ∧ i ≤ j ∧ j ≤ input.length) ∧
    (∃ k : Int, findLastUnescapedSlash input = .ok k ∧ -1 ≤ k ∧ k < input.length) ∧
    Safe (fun _ => True) (parsePathExpression lib input) ∧
    Safe (fun _ => True) (parseValueLiteral lib input) ∧
    Safe (fun _ => True) (parseOperatorAndValue lib input) ∧
    Safe (fun _ => True) (parseMessageContainsShorthand (F := F) input) ∧
    Safe (fun _ => True) (parseRegexShorthand lib input) := by
  have hp : goPanic ∉ parserMessages := by decide
  have hf : outOfFuel ∉ parserMessages := by decide
  have hs := parseFilterExpression_safe lib input
  refine ⟨?_, ?_, ?_, hp, hf, parseQuotedString_safe input, parseBracketSegment_safe lib input,
    fun i path h => pathRound_safe lib input i path h,
    fun i path h => parsePathLoop_safe lib input _ i path h (by omega),
    ?_, findLastUnescapedSlashFrom_ok input input.length (le_refl _),
    parsePathExpression_safe lib input, parseValueLiteral_safe lib input,
    parseOperatorAndValue_safe lib input, parseMessageContainsShorthand_safe input,
    parseRegexShorthand_safe lib input⟩
  · rcases Safe_cases _ hs with ⟨e, he, _⟩ | h
    · exact Or.inl ⟨e, he⟩
    · exact Or.inr h
  · intro h
    rw [h] at hs
    exact hp hs
  · intro h
    rw [h] at hs
    exact hf hs
  · intro p i hi
    obtain ⟨j, hj, h1, h2, _⟩ := scanWhile_ok input p (input.length + 1) i hi (by omega)
    exact ⟨j, hj, h1, h2⟩

/-- The string of the two bytes `.` and `0xFF`, which is not valid UTF-8, is
parsed to an error of the source: the path is empty and the byte `0xFF` starts
no operator. -/
theorem parseFilterExpression_invalid_utf8 :
    parseFilterExpression demoByteLib [byte '.', 0xFF] = .error "expected an operator" ∧
    parseFilterExpression demoByteLib [0xFF] =
      .ok { kind := "compare", path := [Value.str (ascii "message")],
            operator := ascii "contains", value := Value.str [0xFF] } := by
  constructor <;> rfl

end Bytewise

end Zlog
